import Mathlib

/-!
Verification of the double-double arithmetic core of this repository
(`float128_benchmark.c`, `float128_bitcompare.c`).

The development contains:
* an exact model of IEEE-754 binary64 arithmetic: finite values are
  represented by rational numbers together with a sign bit (so that the
  two signed zeros are distinguished), plus infinities and NaN, and
  every operation rounds its exact rational result to nearest, ties to
  even, with overflow to infinity and gradual underflow exactly as the
  hardware does;
* shallow embeddings of the C functions `two_sum`, `quick_two_sum`,
  `split_double`, `two_prod` (both the split-based and the fma-based
  realization), `dd_add`, `dd_add_d`, `dd_mul`, `dd_mul_d`,
  `dd_to_double`, `dd_from_double`;
* theorems settling the specification claims about these functions.
-/

namespace DD

/-! ### Round to nearest integer, ties to even -/

/-- Round a rational to the nearest integer, ties to even. -/
def rne (q : ℚ) : ℤ :=
  if q - ⌊q⌋ < 1/2 then ⌊q⌋
  else if (1:ℚ)/2 < q - ⌊q⌋ then ⌊q⌋ + 1
  else if 2 ∣ ⌊q⌋ then ⌊q⌋ else ⌊q⌋ + 1

theorem rne_intCast (n : ℤ) : rne (n : ℚ) = n := by
  simp [rne]

theorem rne_le (q : ℚ) : |q - rne q| ≤ 1/2 := by
  have h0 : (⌊q⌋ : ℚ) ≤ q := Int.floor_le q
  have h1 : q < ⌊q⌋ + 1 := Int.lt_floor_add_one q
  unfold rne
  split_ifs with hlt hgt hev
  · rw [abs_of_nonneg (sub_nonneg.mpr h0)]
    exact le_of_lt hlt
  · push_cast
    rw [abs_of_nonpos (sub_nonpos.mpr (le_of_lt h1))]
    calc -(q - ((⌊q⌋:ℚ) + 1)) = 1 - (q - ⌊q⌋) := by ring
    _ ≤ 1 - 1/2 := sub_le_sub_left (le_of_lt hgt) 1
    _ = 1/2 := by norm_num
  · rw [abs_of_nonneg (sub_nonneg.mpr h0)]
    exact not_lt.mp hgt
  · push_cast
    rw [abs_of_nonpos (sub_nonpos.mpr (le_of_lt h1))]
    calc -(q - ((⌊q⌋:ℚ) + 1)) = 1 - (q - ⌊q⌋) := by ring
    _ ≤ 1 - 1/2 := sub_le_sub_left (not_lt.mp hlt) 1
    _ = 1/2 := by norm_num

theorem rne_eq_of_lt_half (q : ℚ) (n : ℤ) (h : |q - n| < 1/2) : rne q = n := by
  rw [abs_lt] at h
  obtain ⟨h1, h2⟩ := h
  have hlow : (n:ℚ) - 1/2 < q := by
    have h3 := add_lt_add_right h1 (n:ℚ)
    calc (n:ℚ) - 1/2 = -(1/2) + n := by ring
    _ < q - n + n := h3
    _ = q := by ring
  have hhigh : q < (n:ℚ) + 1/2 := by
    have h3 := add_lt_add_right h2 (n:ℚ)
    calc q = q - n + n := by ring
    _ < 1/2 + n := h3
    _ = (n:ℚ) + 1/2 := by ring
  rcases le_or_lt (n : ℚ) q with hq | hq
  · have hf : ⌊q⌋ = n := by
      rw [Int.floor_eq_iff]
      refine ⟨hq, ?_⟩
      push_cast
      calc q < (n:ℚ) + 1/2 := hhigh
      _ ≤ n + 1 := add_le_add_left (by norm_num) _
    unfold rne
    rw [hf]
    rw [if_pos h2]
  · have hf : ⌊q⌋ = n - 1 := by
      rw [Int.floor_eq_iff]
      constructor
      · push_cast
        calc (n:ℚ) - 1 ≤ n - 1/2 := sub_le_sub_left (by norm_num) _
        _ ≤ q := le_of_lt hlow
      · push_cast
        rw [sub_add_cancel]
        exact hq
    unfold rne
    rw [hf]
    have hgt : (1:ℚ)/2 < q - ((n:ℚ) - 1) := by
      have h3 := add_lt_add_right hlow 1
      calc (1:ℚ)/2 = (n:ℚ) - 1/2 + 1 - n := by ring
      _ < q + 1 - n := by exact sub_lt_sub_right h3 _
      _ = q - ((n:ℚ) - 1) := by ring
    have hnlt : ¬ (q - ((n - 1 : ℤ):ℚ) < 1/2) := by
      push_cast
      exact not_lt.mpr (le_of_lt hgt)
    rw [if_neg hnlt, if_pos (by push_cast; exact hgt)]
    omega

theorem rne_min (q : ℚ) (n : ℤ) : |q - rne q| ≤ |q - n| := by
  rcases lt_or_le |q - (n:ℚ)| (1/2) with h | h
  · rw [rne_eq_of_lt_half q n h]
  · exact le_trans (rne_le q) h

theorem rne_tie_even (q : ℚ) (h : |q - rne q| = 1/2) : 2 ∣ rne q := by
  have h0 : (⌊q⌋ : ℚ) ≤ q := Int.floor_le q
  have h1 : q < ⌊q⌋ + 1 := Int.lt_floor_add_one q
  have hfrac : q - ⌊q⌋ = 1/2 := by
    rcases (abs_eq (by norm_num : (0:ℚ) ≤ 1/2)).mp h with h2 | h2
    · have hf : ⌊q⌋ = rne q := by
        rw [Int.floor_eq_iff]
        constructor
        · exact sub_nonneg.mp (by rw [h2]; norm_num)
        · push_cast
          have h4 : q - (rne q : ℚ) < 1 := by rw [h2]; norm_num
          rw [add_comm]
          exact sub_lt_iff_lt_add.mp h4
      rw [hf]
      exact h2
    · have heq1 : q - ((rne q : ℚ) - 1) = 1/2 := by
        calc q - ((rne q : ℚ) - 1) = q - rne q + 1 := by ring
        _ = -(1/2) + 1 := by rw [h2]
        _ = 1/2 := by norm_num
      have hf : ⌊q⌋ = rne q - 1 := by
        rw [Int.floor_eq_iff]
        constructor
        · push_cast
          exact sub_nonneg.mp (by rw [heq1]; norm_num)
        · push_cast
          have h4 : q - (rne q : ℚ) < 0 := by rw [h2]; norm_num
          calc q < (rne q : ℚ) := sub_neg.mp h4
          _ = (rne q : ℚ) - 1 + 1 := by ring
      rw [hf]
      push_cast
      exact heq1
  unfold rne
  rw [hfrac]
  norm_num
  split_ifs with h2
  · exact h2
  · omega

theorem rne_eq_of_tie_even (q : ℚ) (n : ℤ) (h : |q - n| ≤ 1/2) (he : 2 ∣ n) :
    rne q = n := by
  rcases lt_or_eq_of_le h with h' | h'
  · exact rne_eq_of_lt_half q n h'
  · rcases (abs_eq (by norm_num : (0:ℚ) ≤ 1/2)).mp h' with h2 | h2
    · -- q = n + 1/2: floor is n, exact tie, n even
      have hf : ⌊q⌋ = n := by
        rw [Int.floor_eq_iff]
        constructor
        · exact sub_nonneg.mp (by rw [h2]; norm_num)
        · push_cast
          have h4 : q - (n : ℚ) < 1 := by rw [h2]; norm_num
          rw [add_comm]
          exact sub_lt_iff_lt_add.mp h4
      have hc1 : ¬ (q - (⌊q⌋:ℚ) < 1/2) := by
        rw [hf]
        exact not_lt.mpr (le_of_eq h2.symm)
      have hc2 : ¬ ((1:ℚ)/2 < q - (⌊q⌋:ℚ)) := by
        rw [hf]
        exact not_lt.mpr (le_of_eq h2)
      unfold rne
      rw [if_neg hc1, if_neg hc2, hf, if_pos he]
    · -- q = n - 1/2: floor is n - 1, exact tie, n - 1 odd so rne = n
      have he' : q - ((n:ℚ) - 1) = 1/2 := by
        calc q - ((n:ℚ) - 1) = q - n + 1 := by ring
        _ = -(1/2) + 1 := by rw [h2]
        _ = 1/2 := by norm_num
      have hf : ⌊q⌋ = n - 1 := by
        rw [Int.floor_eq_iff]
        constructor
        · push_cast
          exact sub_nonneg.mp (by rw [he']; norm_num)
        · push_cast
          have h4 : q - (n : ℚ) < 0 := by rw [h2]; norm_num
          calc q < (n : ℚ) := sub_neg.mp h4
          _ = (n : ℚ) - 1 + 1 := by ring
      have hc1 : ¬ (q - (⌊q⌋:ℚ) < 1/2) := by
        rw [hf]
        push_cast
        exact not_lt.mpr (le_of_eq he'.symm)
      have hc2 : ¬ ((1:ℚ)/2 < q - (⌊q⌋:ℚ)) := by
        rw [hf]
        push_cast
        exact not_lt.mpr (le_of_eq he')
      have hc3 : ¬ (2 ∣ ⌊q⌋) := by rw [hf]; omega
      unfold rne
      rw [if_neg hc1, if_neg hc2, if_neg hc3, hf]
      omega

theorem rne_neg (q : ℚ) : rne (-q) = - rne q := by
  rcases lt_or_eq_of_le (rne_le q) with h | h
  · apply rne_eq_of_lt_half
    rw [show -q - ((-rne q : ℤ) : ℚ) = -(q - rne q) by push_cast; ring, abs_neg]
    exact h
  · apply rne_eq_of_tie_even
    · rw [show -q - ((-rne q : ℤ) : ℚ) = -(q - rne q) by push_cast; ring, abs_neg]
      exact le_of_eq h
    · exact dvd_neg.mpr (rne_tie_even q h)

/-! ### Powers of two -/

theorem two_zpow_pos (e : ℤ) : (0:ℚ) < 2^e := zpow_pos (by norm_num) e

theorem two_zpow_ne_zero (e : ℤ) : (2:ℚ)^e ≠ 0 := ne_of_gt (two_zpow_pos e)

theorem two_zpow_mono {a b : ℤ} (h : a ≤ b) : (2:ℚ)^a ≤ 2^b :=
  zpow_le_zpow_right₀ (by norm_num) h

theorem two_zpow_add (a b : ℤ) : (2:ℚ)^(a+b) = 2^a * 2^b :=
  zpow_add₀ (by norm_num) a b

theorem two_zpow_succ (e : ℤ) : (2:ℚ)^(e+1) = 2 * 2^e := by
  rw [two_zpow_add]
  ring

theorem two_zpow_lt {x y : ℤ} (h : x < y) : (2:ℚ)^x < 2^y := by
  have h1 : (2:ℚ)^(x+1) ≤ 2^y := two_zpow_mono (Int.add_one_le_iff.mpr h)
  rw [two_zpow_succ] at h1
  exact lt_of_lt_of_le (lt_two_mul_self (two_zpow_pos x)) h1

theorem two_off_le {ca cb c d e : ℤ} (h : c + d ≤ e) : (ca + c) + (cb + d) ≤ ca + cb + e :=
  calc (ca + c) + (cb + d) = ca + cb + (c + d) := by ring
  _ ≤ ca + cb + e := add_le_add_left h _

theorem le_two_off {ca cb c d e : ℤ} (h : e ≤ c + d) : ca + cb + e ≤ (ca + c) + (cb + d) :=
  calc ca + cb + e ≤ ca + cb + (c + d) := add_le_add_left h _
  _ = (ca + c) + (cb + d) := by ring

theorem le_add_pair {x a b c : ℤ} (h : a ≤ b + c) : x + a ≤ x + b + c := by
  rw [add_assoc]
  exact add_le_add_left h x

theorem add_pair_le {x a b c : ℤ} (h : a + b ≤ c) : x + a + b ≤ x + c := by
  rw [add_assoc]
  exact add_le_add_left h x

theorem sub_one_le_of_le {x y c : ℤ} (h : x ≤ y + c) : x - 1 ≤ y + (c - 1) := by
  rw [← add_sub_assoc]
  exact sub_le_sub_right h 1

theorem bot_le_add {x : ℤ} (c : ℤ) (h : -1074 ≤ x) (hc : 0 ≤ c) : -1074 ≤ x + c :=
  le_trans h (le_add_of_nonneg_right hc)

theorem off_le_1023 {x c : ℤ} (h : x ≤ 915) (hc : c ≤ 108) : x + c ≤ 1023 :=
  le_trans (add_le_add h hc) (by norm_num)

/-! ### Binade exponent and rounding exponent -/

/-- Binade exponent: for nonzero `q`, the unique `e` with `2^(e-1) ≤ |q| < 2^e`. -/
def mag (q : ℚ) : ℤ := Int.log 2 |q| + 1

/-- The exponent of the least significant bit of the binary64 grid around `q`
(precision 53, minimum exponent -1074). -/
def cexp (q : ℚ) : ℤ := max (mag q - 53) (-1074)

/-- Round to the binary64 grid, to nearest, ties to even.  The exponent range
is unbounded above; overflow is handled at the `F64` level. -/
def roundQ (q : ℚ) : ℚ := rne (q / 2^(cexp q)) * 2^(cexp q)

/-- Finite binary64 values (no upper range bound; that is a separate side
condition `|q| ≤ maxFin`). -/
def Rep (q : ℚ) : Prop := ∃ m e : ℤ, |m| < 2^53 ∧ -1074 ≤ e ∧ q = m * 2^e

/-- Largest finite binary64 value. -/
def maxFin : ℚ := (2^53 - 1) * 2^971

theorem mag_low {q : ℚ} (hq : q ≠ 0) : (2:ℚ)^(mag q - 1) ≤ |q| := by
  have h : (2:ℚ)^(Int.log 2 |q|) ≤ |q| :=
    Int.zpow_log_le_self (by norm_num) (abs_pos.mpr hq)
  simpa [mag] using h

theorem mag_high (q : ℚ) : |q| < (2:ℚ)^(mag q) :=
  Int.lt_zpow_succ_log_self (by norm_num) _

theorem mag_neg (q : ℚ) : mag (-q) = mag q := by simp [mag]

theorem cexp_neg (q : ℚ) : cexp (-q) = cexp q := by simp [cexp, mag_neg]

theorem cexp_ge (q : ℚ) : -1074 ≤ cexp q := le_max_right _ _

theorem mag_le_of_abs_lt {q : ℚ} {e : ℤ} (h : |q| < 2^e) (hq : q ≠ 0) :
    mag q ≤ e := by
  have h1 : Int.log 2 |q| < e := by
    rw [← Int.lt_zpow_iff_log_lt (by norm_num) (abs_pos.mpr hq)]
    exact_mod_cast h
  simp only [mag]
  omega

theorem mag_ge_of_le_abs {q : ℚ} {e : ℤ} (h : (2:ℚ)^e ≤ |q|) (hq : q ≠ 0) :
    e + 1 ≤ mag q := by
  have h1 : e ≤ Int.log 2 |q| := by
    rw [← Int.zpow_le_iff_le_log (by norm_num) (abs_pos.mpr hq)]
    exact_mod_cast h
  simp only [mag]
  omega

theorem mag_unique {q : ℚ} {e : ℤ} (h1 : (2:ℚ)^(e-1) ≤ |q|) (h2 : |q| < 2^e) :
    mag q = e := by
  have hq : q ≠ 0 := by
    intro h
    rw [h] at h1
    simpa using lt_of_lt_of_le (two_zpow_pos (e-1)) h1
  have := mag_le_of_abs_lt h2 hq
  have := mag_ge_of_le_abs h1 hq
  omega

theorem mag_mono {q r : ℚ} (hq : q ≠ 0) (h : |q| ≤ |r|) : mag q ≤ mag r := by
  have hr : r ≠ 0 := by
    intro hr0
    rw [hr0] at h
    simp only [abs_zero] at h
    exact hq (abs_eq_zero.mp (le_antisymm h (abs_nonneg q)))
  have h1 : (2:ℚ)^(mag q - 1) ≤ |r| := le_trans (mag_low hq) h
  have := mag_ge_of_le_abs h1 hr
  omega

theorem cexp_mono {q r : ℚ} (hq : q ≠ 0) (h : |q| ≤ |r|) : cexp q ≤ cexp r := by
  have := mag_mono hq h
  simp only [cexp]
  omega

theorem abs_lt_cexp53 (q : ℚ) : |q| < 2^(cexp q + 53) := by
  by_cases hq : q = 0
  · rw [hq]; simpa using two_zpow_pos (cexp 0 + 53)
  · calc |q| < 2^(mag q) := mag_high q
    _ ≤ 2^(cexp q + 53) := two_zpow_mono (by simp [cexp]; omega)

/-! ### Basic properties of `Rep` -/

theorem rep_zero : Rep 0 := ⟨0, 0, by norm_num, by norm_num, by norm_num⟩

theorem rep_neg {q : ℚ} (h : Rep q) : Rep (-q) := by
  obtain ⟨m, e, hm, he, hq⟩ := h
  exact ⟨-m, e, by simpa using hm, he, by rw [hq]; push_cast; ring⟩

theorem rep_two_zpow {e : ℤ} (he : -1074 ≤ e) : Rep ((2:ℚ)^e) :=
  ⟨1, e, by norm_num, he, by norm_num⟩

/-- The finishing lemma: an integer multiple of `2^g` (with `g ≥ -1074`)
of magnitude at most `2^(g+53)` is representable. -/
theorem rep_of_grid {k g : ℤ} (hg : -1074 ≤ g) (hk : |(k:ℚ) * 2^g| ≤ 2^(g+53)) :
    Rep ((k:ℚ) * 2^g) := by
  have habs : |(k:ℚ)| * 2^g ≤ 2^(53:ℤ) * 2^g := by
    rw [abs_mul, abs_of_pos (two_zpow_pos g)] at hk
    calc |(k:ℚ)| * 2^g ≤ 2^(g+53) := hk
    _ = 2^(53:ℤ) * 2^g := by rw [two_zpow_add]; ring
  have hk53q : |(k:ℚ)| ≤ 2^(53:ℤ) := le_of_mul_le_mul_right habs (two_zpow_pos g)
  have hk53 : |k| ≤ 2^53 := by
    have : ((|k| : ℤ) : ℚ) ≤ ((2^53 : ℤ) : ℚ) := by push_cast; exact_mod_cast hk53q
    exact_mod_cast this
  rcases lt_or_eq_of_le hk53 with hlt | heq
  · exact ⟨k, g, hlt, hg, rfl⟩
  · rcases abs_eq (by positivity : (0:ℤ) ≤ 2^53) |>.mp heq with hk' | hk'
    · refine ⟨2^52, g+1, by norm_num, bot_le_add _ hg (by norm_num), ?_⟩
      rw [hk']
      push_cast
      rw [two_zpow_add g 1]
      ring
    · refine ⟨-2^52, g+1, by norm_num, bot_le_add _ hg (by norm_num), ?_⟩
      rw [hk']
      push_cast
      rw [two_zpow_add g 1]
      ring

theorem two_pow53 : (2:ℚ)^(53:ℤ) = ((2^53 : ℤ) : ℚ) := by norm_num

/-- Transfer of the mantissa bound between `ℤ` and `ℚ`. -/
theorem abs_cast_lt_pow53 {m : ℤ} : |(m:ℚ)| < 2^(53:ℤ) ↔ |m| < 2^53 := by
  rw [two_pow53]
  constructor
  · intro h
    exact_mod_cast (by push_cast at h ⊢; exact h : ((|m|:ℤ):ℚ) < ((2^53:ℤ):ℚ))
  · intro h
    have : ((|m|:ℤ):ℚ) < ((2^53:ℤ):ℚ) := by exact_mod_cast h
    push_cast at this
    simpa using this

/-- Canonical decomposition: a representable value is an integer multiple of
`2^(cexp q)` with multiplier of magnitude below `2^53`. -/
theorem rep_canon {q : ℚ} (h : Rep q) : ∃ k : ℤ, q = k * 2^(cexp q) ∧ |k| < 2^53 := by
  by_cases hq : q = 0
  · exact ⟨0, by simp [hq], by norm_num⟩
  obtain ⟨m, e, hm, he, hqe⟩ := h
  have hle : cexp q ≤ e := by
    have habs : |q| < 2^(e+53) := by
      rw [hqe, abs_mul, abs_of_pos (two_zpow_pos e)]
      calc |(m:ℚ)| * 2^e < 2^(53:ℤ) * 2^e :=
            mul_lt_mul_of_pos_right (abs_cast_lt_pow53.mpr hm) (two_zpow_pos e)
      _ = 2^(e+53) := by rw [two_zpow_add]; ring
    have := mag_le_of_abs_lt habs hq
    simp only [cexp]
    omega
  refine ⟨m * 2^(e - cexp q).toNat, ?_, ?_⟩
  · push_cast
    rw [mul_assoc, ← zpow_natCast (2:ℚ) (e - cexp q).toNat,
        ← two_zpow_add ((e - cexp q).toNat : ℤ) (cexp q),
        show (((e - cexp q).toNat : ℤ)) + cexp q = e by omega]
    exact hqe
  · rw [← abs_cast_lt_pow53]
    have hkval : ((m * 2^(e - cexp q).toNat : ℤ) : ℚ) * 2^(cexp q) = q := by
      push_cast
      rw [mul_assoc, ← zpow_natCast (2:ℚ) (e - cexp q).toNat,
          ← two_zpow_add ((e - cexp q).toNat : ℤ) (cexp q),
          show (((e - cexp q).toNat : ℤ)) + cexp q = e by omega]
      exact hqe.symm
    have habs : |((m * 2^(e - cexp q).toNat : ℤ) : ℚ)| * 2^(cexp q) < 2^(53:ℤ) * 2^(cexp q) := by
      calc |((m * 2^(e - cexp q).toNat : ℤ) : ℚ)| * 2^(cexp q)
          = |((m * 2^(e - cexp q).toNat : ℤ) : ℚ) * 2^(cexp q)| := by
            rw [abs_mul, abs_of_pos (two_zpow_pos _)]
      _ = |q| := by rw [hkval]
      _ < 2^(cexp q + 53) := abs_lt_cexp53 q
      _ = 2^(53:ℤ) * 2^(cexp q) := by rw [two_zpow_add]; ring
    exact lt_of_mul_lt_mul_right habs (le_of_lt (two_zpow_pos _))

/-- Grid floor: the largest grid point not above `q`. -/
def rdn (q : ℚ) : ℚ := ⌊q / 2^(cexp q)⌋ * 2^(cexp q)

theorem rdn_le (q : ℚ) : rdn q ≤ q := by
  unfold rdn
  rw [← le_div_iff₀ (two_zpow_pos (cexp q))]
  exact Int.floor_le _

theorem rdn_max {c q : ℚ} (hc : Rep c) (h : c ≤ q) : c ≤ rdn q := by
  rcases le_or_lt (cexp q) (cexp c) with hce | hce
  · -- c is an integer multiple of the (coarser or equal) grid of q
    obtain ⟨k, hk, _⟩ := rep_canon hc
    have hmul : c = ((k * 2^(cexp c - cexp q).toNat : ℤ) : ℚ) * 2^(cexp q) := by
      push_cast
      rw [mul_assoc, ← zpow_natCast (2:ℚ) (cexp c - cexp q).toNat,
          ← two_zpow_add ((cexp c - cexp q).toNat : ℤ) (cexp q),
          show (((cexp c - cexp q).toNat : ℤ)) + cexp q = cexp c by omega]
      exact hk
    unfold rdn
    rw [hmul]
    apply mul_le_mul_of_nonneg_right _ (le_of_lt (two_zpow_pos _))
    have hle2 : ((k * 2^(cexp c - cexp q).toNat : ℤ) : ℚ) ≤ q / 2^(cexp q) := by
      rw [le_div_iff₀ (two_zpow_pos _)]
      rw [← hmul]
      exact h
    exact_mod_cast Int.le_floor.mpr hle2
  · -- cexp c < cexp q
    by_cases hqz : q = 0
    · -- rdn 0 = 0 and c ≤ q = 0
      subst hqz
      have : rdn 0 = 0 := by
        unfold rdn
        norm_num
      rw [this]
      exact h
    rcases le_or_lt q 0 with hq0 | hq0
    · -- impossible: c ≤ q < 0 gives |q| ≤ |c|, so cexp q ≤ cexp c
      exfalso
      have h1 : cexp q ≤ cexp c :=
        cexp_mono hqz
          (by rw [abs_of_nonpos hq0, abs_of_nonpos (le_trans h hq0)]; exact neg_le_neg h)
      omega
    · -- q > 0 and cexp c < cexp q: c < 2^(mag q - 1) ≤ rdn q
      have hqne : q ≠ 0 := ne_of_gt hq0
      have hcq : cexp q = mag q - 53 := by
        have := cexp_ge c
        simp only [cexp] at hce ⊢
        omega
      have hmagc : mag c < mag q := by
        simp only [cexp] at hce
        omega
      have hclt : c < 2^(mag q - 1) := by
        calc c ≤ |c| := le_abs_self c
        _ < 2^(mag c) := mag_high c
        _ ≤ 2^(mag q - 1) := two_zpow_mono (Int.le_sub_one_iff.mpr hmagc)
      have hpow : (2:ℚ)^(mag q - 1) ≤ rdn q := by
        have hmul : (2:ℚ)^(mag q - 1) = ((2^(52:ℕ) : ℤ) : ℚ) * 2^(cexp q) := by
          rw [show (((2^(52:ℕ) : ℤ)):ℚ) = (2:ℚ)^(52:ℤ) from by norm_num, ← two_zpow_add]
          congr 1
          omega
        rw [hmul]
        unfold rdn
        apply mul_le_mul_of_nonneg_right _ (le_of_lt (two_zpow_pos _))
        have hle : ((2^(52:ℕ) : ℤ) : ℚ) ≤ q / 2^(cexp q) := by
          rw [le_div_iff₀ (two_zpow_pos _)]
          calc ((2^(52:ℕ) : ℤ) : ℚ) * 2^(cexp q) = 2^(mag q - 1) := hmul.symm
          _ ≤ |q| := mag_low hqne
          _ = q := abs_of_pos hq0
        exact_mod_cast Int.le_floor.mpr hle
      exact le_of_lt (lt_of_lt_of_le hclt hpow)

theorem roundQ_rep (q : ℚ) : Rep (roundQ q) := by
  unfold roundQ
  apply rep_of_grid (cexp_ge q)
  have hsc : |q / 2^(cexp q)| < 2^(53:ℤ) := by
    rw [abs_div, abs_of_pos (two_zpow_pos _), div_lt_iff (two_zpow_pos _)]
    calc |q| < 2^(cexp q + 53) := abs_lt_cexp53 q
    _ = 2^(53:ℤ) * 2^(cexp q) := by rw [two_zpow_add]; ring
  have h1 : |(rne (q / 2^(cexp q)) : ℚ)| ≤ 2^(53:ℤ) := by
    have h2 := rne_le (q / 2^(cexp q))
    have h3 : |(rne (q / 2^(cexp q)) : ℚ)| ≤ |q / 2^(cexp q)| + 1/2 := by
      calc |(rne (q / 2^(cexp q)) : ℚ)|
          = |(q / 2^(cexp q)) - ((q / 2^(cexp q)) - rne (q / 2^(cexp q)))| := by ring_nf
      _ ≤ |q / 2^(cexp q)| + |(q / 2^(cexp q)) - rne (q / 2^(cexp q))| := abs_sub _ _
      _ ≤ |q / 2^(cexp q)| + 1/2 := add_le_add_left h2 _
    -- |rne| is an integer ≤ 2^53 - 1/2 + something: since |scaled| < 2^53,
    -- |rne| < 2^53 + 1/2, and being an integer, ≤ 2^53
    have h4 : |(rne (q / 2^(cexp q)) : ℚ)| < 2^(53:ℤ) + 1/2 :=
      lt_of_le_of_lt h3 (add_lt_add_right hsc _)
    have h5 : |rne (q / 2^(cexp q))| ≤ 2^53 := by
      by_contra hcon
      push_neg at hcon
      have h6 : (2^53 + 1 : ℤ) ≤ |rne (q / 2^(cexp q))| := hcon
      have h7 : ((2^53 + 1 : ℤ) : ℚ) ≤ |(rne (q / 2^(cexp q)) : ℚ)| := by
        push_cast
        exact_mod_cast h6
    -- contradiction with h4
      push_cast at h7
      have : ((2:ℚ)^(53:ℤ)) = ((2:ℚ)^(53:ℕ)) := by norm_num
      rw [this] at h4
      exact absurd (lt_of_le_of_lt h7 h4) (by norm_num)
    have := h5
    push_cast
    have h8 : ((|rne (q / 2^(cexp q))| : ℤ) : ℚ) ≤ ((2^53 : ℤ) : ℚ) := by exact_mod_cast h5
    push_cast at h8
    rw [show ((2:ℚ)^(53:ℤ)) = ((2:ℚ)^(53:ℕ)) by norm_num]
    simpa using h8
  rw [abs_mul, abs_of_pos (two_zpow_pos _)]
  calc |(rne (q / 2^(cexp q)) : ℚ)| * 2^(cexp q) ≤ 2^(53:ℤ) * 2^(cexp q) :=
        mul_le_mul_of_nonneg_right h1 (le_of_lt (two_zpow_pos _))
  _ = 2^(cexp q + 53) := by rw [two_zpow_add]; ring

theorem roundQ_eq_self {q : ℚ} (h : Rep q) : roundQ q = q := by
  obtain ⟨k, hk, _⟩ := rep_canon h
  unfold roundQ
  have hsc : q / 2^(cexp q) = (k : ℚ) := by
    rw [div_eq_iff (two_zpow_ne_zero _)]
    exact hk
  rw [hsc, rne_intCast]
  exact hk.symm

theorem roundQ_err (q : ℚ) : |q - roundQ q| ≤ 2^(cexp q - 1) := by
  unfold roundQ
  have h := rne_le (q / 2^(cexp q))
  have h2 : |q - rne (q / 2^(cexp q)) * 2^(cexp q)|
      = |q / 2^(cexp q) - rne (q / 2^(cexp q))| * 2^(cexp q) := by
    calc |q - rne (q / 2^(cexp q)) * 2^(cexp q)|
        = |(q / 2^(cexp q) - rne (q / 2^(cexp q))) * 2^(cexp q)| := by
          rw [sub_mul, div_mul_cancel₀ _ (two_zpow_ne_zero _)]
    _ = |q / 2^(cexp q) - rne (q / 2^(cexp q))| * 2^(cexp q) := by
          rw [abs_mul, abs_of_pos (two_zpow_pos _)]
  rw [h2]
  calc |q / 2^(cexp q) - rne (q / 2^(cexp q))| * 2^(cexp q)
      ≤ (1/2) * 2^(cexp q) := mul_le_mul_of_nonneg_right h (le_of_lt (two_zpow_pos _))
  _ = 2^(cexp q - 1) := by
      rw [show cexp q - 1 = -1 + cexp q by ring, two_zpow_add]
      norm_num

theorem roundQ_neg (q : ℚ) : roundQ (-q) = - roundQ q := by
  unfold roundQ
  rw [cexp_neg, show -q / 2^(cexp q) = -(q / 2^(cexp q)) by ring, rne_neg]
  push_cast
  ring

theorem roundQ_zero : roundQ 0 = 0 := by
  rw [roundQ_eq_self rep_zero]

theorem roundQ_min {q c : ℚ} (hc : Rep c) : |q - roundQ q| ≤ |q - c| := by
  -- by symmetry, reduce to the case c ≤ q
  suffices hside : ∀ q c : ℚ, Rep c → c ≤ q → |q - roundQ q| ≤ |q - c| by
    rcases le_total c q with h | h
    · exact hside q c hc h
    · have := hside (-q) (-c) (rep_neg hc) (neg_le_neg h)
      rw [roundQ_neg] at this
      calc |q - roundQ q| = |(-q) - (- roundQ q)| := by rw [← abs_neg]; ring_nf
      _ ≤ |(-q) - (-c)| := this
      _ = |q - c| := by rw [← abs_neg]; ring_nf
  intro q c hc h
  have h1 : c ≤ rdn q := rdn_max hc h
  have h2 : |q - roundQ q| ≤ |q - rdn q| := by
    unfold roundQ rdn
    have := rne_min (q / 2^(cexp q)) ⌊q / 2^(cexp q)⌋
    have hpos := two_zpow_pos (cexp q)
    have key : ∀ n : ℤ, |q - (n:ℚ) * 2^(cexp q)|
        = |q / 2^(cexp q) - n| * 2^(cexp q) := by
      intro n
      calc |q - (n:ℚ) * 2^(cexp q)|
          = |(q / 2^(cexp q) - n) * 2^(cexp q)| := by
            rw [sub_mul, div_mul_cancel₀ _ (two_zpow_ne_zero _)]
      _ = |q / 2^(cexp q) - n| * 2^(cexp q) := by
            rw [abs_mul, abs_of_pos hpos]
    rw [key, key]
    exact mul_le_mul_of_nonneg_right this (le_of_lt hpos)
  calc |q - roundQ q| ≤ |q - rdn q| := h2
  _ = q - rdn q := abs_of_nonneg (sub_nonneg.mpr (rdn_le q))
  _ ≤ q - c := sub_le_sub_left h1 q
  _ = |q - c| := (abs_of_nonneg (sub_nonneg.mpr h)).symm

theorem roundQ_mono {q r : ℚ} (h : q ≤ r) : roundQ q ≤ roundQ r := by
  by_contra hc
  push_neg at hc
  have h1 : |q - roundQ q| ≤ |q - roundQ r| := roundQ_min (roundQ_rep r)
  have h2 : |r - roundQ r| ≤ |r - roundQ q| := roundQ_min (roundQ_rep q)
  -- squares: (q - B)² ≤ (q - A)² and (r - A)² ≤ (r - B)² with A = roundQ r < B = roundQ q
  have s1 : (q - roundQ q)^2 ≤ (q - roundQ r)^2 := by
    rw [← sq_abs (q - roundQ q), ← sq_abs (q - roundQ r)]
    exact pow_le_pow_left (abs_nonneg _) h1 2
  have s2 : (r - roundQ r)^2 ≤ (r - roundQ q)^2 := by
    rw [← sq_abs (r - roundQ r), ← sq_abs (r - roundQ q)]
    exact pow_le_pow_left (abs_nonneg _) h2 2
  -- expanding: roundQ r + roundQ q ≤ 2q and 2r ≤ roundQ r + roundQ q, so r ≤ q
  have hd : 0 < roundQ q - roundQ r := sub_pos.mpr hc
  have q1 : 0 ≤ 2*q - (roundQ r + roundQ q) := by
    have e1 : (q - roundQ r)^2 - (q - roundQ q)^2
        = (roundQ q - roundQ r) * (2*q - (roundQ r + roundQ q)) := by ring
    have p1 : 0 ≤ (roundQ q - roundQ r) * (2*q - (roundQ r + roundQ q)) := by
      rw [← e1]
      exact sub_nonneg.mpr s1
    exact (mul_nonneg_iff_of_pos_left hd).mp p1
  have q2 : 0 ≤ (roundQ r + roundQ q) - 2*r := by
    have e2 : (r - roundQ q)^2 - (r - roundQ r)^2
        = (roundQ q - roundQ r) * ((roundQ r + roundQ q) - 2*r) := by ring
    have p2 : 0 ≤ (roundQ q - roundQ r) * ((roundQ r + roundQ q) - 2*r) := by
      rw [← e2]
      exact sub_nonneg.mpr s2
    exact (mul_nonneg_iff_of_pos_left hd).mp p2
  have h3 : (2:ℚ)*r ≤ 2*q := le_trans (sub_nonneg.mp q2) (sub_nonneg.mp q1)
  have heq : q = r := le_antisymm h (le_of_mul_le_mul_left h3 (by norm_num))
  subst heq
  exact absurd rfl (ne_of_gt hc)

/-! ### Integer multiples of a power of two -/

/-- `q` is an integer multiple of `2^g`. -/
def Mul2 (q : ℚ) (g : ℤ) : Prop := ∃ k : ℤ, q = k * 2^g

theorem Mul2.add {q r : ℚ} {g : ℤ} (hq : Mul2 q g) (hr : Mul2 r g) :
    Mul2 (q + r) g := by
  obtain ⟨k, hk⟩ := hq
  obtain ⟨l, hl⟩ := hr
  exact ⟨k + l, by rw [hk, hl]; push_cast; ring⟩

theorem Mul2.neg {q : ℚ} {g : ℤ} (hq : Mul2 q g) : Mul2 (-q) g := by
  obtain ⟨k, hk⟩ := hq
  exact ⟨-k, by rw [hk]; push_cast; ring⟩

theorem Mul2.sub {q r : ℚ} {g : ℤ} (hq : Mul2 q g) (hr : Mul2 r g) :
    Mul2 (q - r) g := by
  rw [sub_eq_add_neg]
  exact hq.add hr.neg

theorem Mul2.of_le {q : ℚ} {g g' : ℤ} (h : g' ≤ g) (hq : Mul2 q g) : Mul2 q g' := by
  obtain ⟨k, hk⟩ := hq
  refine ⟨k * 2^(g - g').toNat, ?_⟩
  rw [hk]
  push_cast
  rw [mul_assoc, ← zpow_natCast (2:ℚ) (g - g').toNat,
      ← two_zpow_add ((g - g').toNat : ℤ) g', show (((g - g').toNat : ℤ)) + g' = g by omega]

theorem Mul2.mul {q r : ℚ} {g h : ℤ} (hq : Mul2 q g) (hr : Mul2 r h) :
    Mul2 (q * r) (g + h) := by
  obtain ⟨k, hk⟩ := hq
  obtain ⟨l, hl⟩ := hr
  exact ⟨k * l, by rw [hk, hl, two_zpow_add]; push_cast; ring⟩

theorem rep_mul2 {q : ℚ} (h : Rep q) : Mul2 q (cexp q) := by
  obtain ⟨k, hk, _⟩ := rep_canon h
  exact ⟨k, hk⟩

theorem roundQ_mul2 (q : ℚ) : Mul2 (roundQ q) (cexp q) :=
  ⟨rne (q / 2^(cexp q)), rfl⟩

/-- Finisher: an integer multiple of `2^g` (with `g ≥ -1074`) of magnitude at
most `2^(g+53)` is representable. -/
theorem mul2_rep {q : ℚ} {g : ℤ} (hm : Mul2 q g) (hg : -1074 ≤ g)
    (hb : |q| ≤ 2^(g+53)) : Rep q := by
  obtain ⟨k, hk⟩ := hm
  rw [hk] at hb ⊢
  exact rep_of_grid hg hb

/-- A value that lives on its own rounding grid is representable. -/
theorem rep_of_mul2_cexp {q : ℚ} (h : Mul2 q (cexp q)) : Rep q :=
  mul2_rep h (cexp_ge q) (le_of_lt (abs_lt_cexp53 q))

theorem roundQ_eq_self_of_mul2 {q : ℚ} (h : Mul2 q (cexp q)) : roundQ q = q :=
  roundQ_eq_self (rep_of_mul2_cexp h)

/-! ### The two central exactness theorems -/

/-- The rounding error of a floating-point addition is itself representable
(no extra hypothesis is needed: gradual underflow makes it exact). -/
theorem add_resid_rep {a b : ℚ} (ha : Rep a) (hb : Rep b) :
    Rep ((a + b) - roundQ (a + b)) := by
  -- reduce to |a| ≤ |b|
  suffices hside : ∀ a b : ℚ, Rep a → Rep b → |a| ≤ |b| →
      Rep ((a + b) - roundQ (a + b)) by
    rcases le_total |a| |b| with h | h
    · exact hside a b ha hb h
    · rw [add_comm]
      exact hside b a hb ha h
  intro a b ha hb hab
  by_cases ha0 : a = 0
  · subst ha0
    rw [zero_add, roundQ_eq_self hb, sub_self]
    exact rep_zero
  have hb0 : b ≠ 0 := by
    intro hb0
    rw [hb0] at hab
    simp only [abs_zero] at hab
    exact ha0 (abs_eq_zero.mp (le_antisymm hab (abs_nonneg a)))
  have hce : cexp a ≤ cexp b := cexp_mono ha0 hab
  have hmul : Mul2 (a + b) (cexp a) :=
    (rep_mul2 ha).add ((rep_mul2 hb).of_le hce)
  rcases le_or_lt (cexp (a + b)) (cexp a) with hc | hc
  · rw [roundQ_eq_self_of_mul2 (hmul.of_le hc), sub_self]
    exact rep_zero
  · have hrm : Mul2 ((a + b) - roundQ (a + b)) (cexp a) :=
      hmul.sub ((roundQ_mul2 (a+b)).of_le (le_of_lt hc))
    have hbound : |(a + b) - roundQ (a + b)| ≤ |a| := by
      calc |(a + b) - roundQ (a + b)| = |(a + b) - roundQ (a+b)| := rfl
      _ ≤ |(a + b) - b| := roundQ_min hb
      _ = |a| := by ring_nf
    exact mul2_rep hrm (cexp_ge a)
      (le_trans hbound (le_of_lt (abs_lt_cexp53 a)))

/-- Sterbenz: if `b/2 ≤ a ≤ 2b` then `a - b` is exactly representable. -/
theorem sterbenz {a b : ℚ} (ha : Rep a) (hb : Rep b) (h1 : b/2 ≤ a) (h2 : a ≤ 2*b) :
    Rep (a - b) := by
  have hb2a : b ≤ 2*a := by
    have h1' := h1
    rw [div_le_iff₀ (by norm_num : (0:ℚ) < 2)] at h1'
    rwa [mul_comm] at h1'
  have hb0 : 0 ≤ b := by
    have h3 := sub_nonneg.mpr (le_trans h1 h2)
    rw [show 2*b - b/2 = (3/2)*b by ring] at h3
    exact (mul_nonneg_iff_of_pos_left (by norm_num)).mp h3
  have ha0 : 0 ≤ a := le_trans (div_nonneg hb0 (by norm_num)) h1
  have habs1 : |a - b| ≤ a := by
    rw [abs_le]
    exact ⟨by rw [neg_le_sub_iff_le_add, ← two_mul]; exact hb2a, sub_le_self a hb0⟩
  have habs2 : |a - b| ≤ b := by
    rw [abs_le]
    refine ⟨?_, ?_⟩
    · rw [neg_le_sub_iff_le_add]
      exact le_add_of_nonneg_left ha0
    · rw [sub_le_iff_le_add, ← two_mul]
      exact h2
  have hmul : Mul2 (a - b) (min (cexp a) (cexp b)) :=
    ((rep_mul2 ha).of_le (min_le_left _ _)).sub ((rep_mul2 hb).of_le (min_le_right _ _))
  apply mul2_rep hmul (le_min (cexp_ge a) (cexp_ge b))
  rcases le_total (cexp a) (cexp b) with h | h
  · rw [min_eq_left h]
    calc |a - b| ≤ a := habs1
    _ = |a| := (abs_of_nonneg ha0).symm
    _ ≤ 2^(cexp a + 53) := le_of_lt (abs_lt_cexp53 a)
  · rw [min_eq_right h]
    calc |a - b| ≤ b := habs2
    _ = |b| := (abs_of_nonneg hb0).symm
    _ ≤ 2^(cexp b + 53) := le_of_lt (abs_lt_cexp53 b)

/-! ### Half-ulp bound relative to the rounded value -/

/-- IEEE-754 binary64 values.  A finite value carries its sign bit (so that
`-0.0` and `+0.0` are distinct data, as in the hardware format) together with
its exact rational value. -/
inductive F64 : Type
  | fin (s : Bool) (q : ℚ)
  | inf (s : Bool)
  | nan

/-- Well-formedness: the rational value of a finite float is representable,
within range, and the sign bit agrees with the sign of a nonzero value. -/
def WF : F64 → Prop
  | .fin s q => Rep q ∧ |q| ≤ maxFin ∧ (q ≠ 0 → s = decide (q < 0))
  | _ => True

/-- The rational value of a float (0 for infinities and NaN). -/
def val : F64 → ℚ
  | .fin _ q => q
  | _ => 0

/-- Rounding a nonzero exact rational result into the format: round to
nearest, ties to even, overflow to infinity; a zero or underflowed result
gets the sign of the exact value (IEEE round-to-nearest semantics). -/
def roundF (q : ℚ) : F64 :=
  if maxFin < |roundQ q| then .inf (decide (q < 0))
  else .fin (decide (q < 0)) (roundQ q)

def fneg : F64 → F64
  | .fin s q => .fin (!s) (-q)
  | .inf s => .inf (!s)
  | .nan => .nan

/-- IEEE-754 addition. -/
def fadd : F64 → F64 → F64
  | .nan, _ => .nan
  | _, .nan => .nan
  | .inf s, .inf t => if s = t then .inf s else .nan
  | .inf s, .fin _ _ => .inf s
  | .fin _ _, .inf t => .inf t
  | .fin s p, .fin t q =>
      if p + q = 0 then
        if p = 0 ∧ q = 0 then .fin (s && t) 0 else .fin false 0
      else roundF (p + q)

/-- IEEE-754 subtraction (`a - b = a + (-b)`, as in IEEE). -/
def fsub (a b : F64) : F64 := fadd a (fneg b)

/-- IEEE-754 multiplication. -/
def fmul : F64 → F64 → F64
  | .nan, _ => .nan
  | _, .nan => .nan
  | .inf s, .inf t => .inf (xor s t)
  | .inf s, .fin t q => if q = 0 then .nan else .inf (xor s t)
  | .fin s p, .inf t => if p = 0 then .nan else .inf (xor s t)
  | .fin s p, .fin t q =>
      if p = 0 ∨ q = 0 then .fin (xor s t) 0
      else roundF (p * q)

/-- IEEE-754 fused multiply-add: `a*b + c` with a single rounding. -/
def ffma : F64 → F64 → F64 → F64
  | .nan, _, _ => .nan
  | _, .nan, _ => .nan
  | _, _, .nan => .nan
  | .inf s, .inf t, c =>
      match c with
      | .inf u => if u = xor s t then .inf u else .nan
      | _ => .inf (xor s t)
  | .inf s, .fin t q, c =>
      if q = 0 then .nan
      else match c with
      | .inf u => if u = xor s t then .inf u else .nan
      | _ => .inf (xor s t)
  | .fin s p, .inf t, c =>
      if p = 0 then .nan
      else match c with
      | .inf u => if u = xor s t then .inf u else .nan
      | _ => .inf (xor s t)
  | .fin _ _, .fin _ _, .inf u => .inf u
  | .fin s p, .fin t q, .fin u r =>
      if p * q + r = 0 then
        if p * q = 0 ∧ r = 0 then .fin (xor s t && u) 0 else .fin false 0
      else roundF (p * q + r)

/-! ### Embedding of the C double-double core

The functions below are line-by-line translations of the C sources; each
`fadd`/`fsub`/`fmul`/`ffma` corresponds to one floating-point operation of
the C expression, evaluated in C operator order. -/

/-- `dd_real` of both C files: a pair of doubles. -/
structure dd_real : Type where
  hi : F64
  lo : F64

/-- `two_sum` (identical in float128_benchmark.c and float128_bitcompare.c):
`s = a + b; v = s - a; err = (a - (s - v)) + (b - v)`. -/
def two_sum (a b : F64) : dd_real :=
  let s := fadd a b
  let v := fsub s a
  let err := fadd (fsub a (fsub s v)) (fsub b v)
  ⟨s, err⟩

/-- `quick_two_sum` (identical in both files): `s = a + b; err = b - (s - a)`. -/
def quick_two_sum (a b : F64) : dd_real :=
  let s := fadd a b
  let err := fsub b (fsub s a)
  ⟨s, err⟩

/-- `SPLIT_CONST = 134217729.0 = 2^27 + 1` (float128_benchmark.c). -/
def SPLIT_CONST : F64 := .fin false 134217729

/-- `split_double` (float128_benchmark.c):
`temp = SPLIT_CONST * a; hi = temp - (temp - a); lo = a - hi`. -/
def split_double (a : F64) : F64 × F64 :=
  let temp := fmul SPLIT_CONST a
  let hi := fsub temp (fsub temp a)
  let lo := fsub a hi
  (hi, lo)

/-- `two_prod` of float128_benchmark.c (split-based):
`p = a*b; err = ((a_hi*b_hi - p) + a_hi*b_lo + a_lo*b_hi) + a_lo*b_lo`. -/
def two_prod (a b : F64) : dd_real :=
  let p := fmul a b
  let ah := (split_double a).1
  let al := (split_double a).2
  let bh := (split_double b).1
  let bl := (split_double b).2
  let err := fadd (fadd (fadd (fsub (fmul ah bh) p) (fmul ah bl)) (fmul al bh))
      (fmul al bl)
  ⟨p, err⟩

/-- `two_prod` of float128_bitcompare.c (fma-based):
`p = a*b; e = fma(a, b, -p)`. -/
def two_prod_fma (a b : F64) : dd_real :=
  let p := fmul a b
  let e := ffma a b (fneg p)
  ⟨p, e⟩

/-- `dd_add` (identical in both files):
`s = two_sum(a.hi, b.hi); lo_sum = a.lo + b.lo + s.lo;
 return quick_two_sum(s.hi, lo_sum)`. -/
def dd_add (a b : dd_real) : dd_real :=
  let s := two_sum a.hi b.hi
  let lo_sum := fadd (fadd a.lo b.lo) s.lo
  quick_two_sum s.hi lo_sum

/-- `dd_add_d` (float128_benchmark.c):
`s = two_sum(a.hi, b); lo_sum = a.lo + s.lo; return quick_two_sum(s.hi, lo_sum)`. -/
def dd_add_d (a : dd_real) (b : F64) : dd_real :=
  let s := two_sum a.hi b
  let lo_sum := fadd a.lo s.lo
  quick_two_sum s.hi lo_sum

/-- `dd_mul` of float128_bitcompare.c:
`p = two_prod(a.hi, b.hi); p.lo += a.hi * b.lo + a.lo * b.hi;
 return quick_two_sum(p.hi, p.lo)`. -/
def dd_mul_fma (a b : dd_real) : dd_real :=
  let p := two_prod_fma a.hi b.hi
  let plo := fadd p.lo (fadd (fmul a.hi b.lo) (fmul a.lo b.hi))
  quick_two_sum p.hi plo

/-- `dd_to_double` (float128_benchmark.c): `a.hi + a.lo`. -/
def dd_to_double (a : dd_real) : F64 := fadd a.hi a.lo

/-- `dd_from_double` (both files): `(x, 0.0)`. -/
def dd_from_double (x : F64) : dd_real := ⟨x, .fin false 0⟩

/-! Unfolding equations (the `let`s of the definitions are definitional). -/

theorem two_sum_def (a b : F64) :
    two_sum a b =
      ⟨fadd a b,
       fadd (fsub a (fsub (fadd a b) (fsub (fadd a b) a)))
            (fsub b (fsub (fadd a b) a))⟩ := rfl

theorem quick_two_sum_def (a b : F64) :
    quick_two_sum a b = ⟨fadd a b, fsub b (fsub (fadd a b) a)⟩ := rfl

theorem split_double_def (a : F64) :
    split_double a =
      (fsub (fmul SPLIT_CONST a) (fsub (fmul SPLIT_CONST a) a),
       fsub a (fsub (fmul SPLIT_CONST a) (fsub (fmul SPLIT_CONST a) a))) := rfl

theorem two_prod_def (a b : F64) :
    two_prod a b =
      ⟨fmul a b,
       fadd (fadd (fadd (fsub (fmul (split_double a).1 (split_double b).1) (fmul a b))
                        (fmul (split_double a).1 (split_double b).2))
                  (fmul (split_double a).2 (split_double b).1))
            (fmul (split_double a).2 (split_double b).2)⟩ := rfl

theorem two_prod_fma_def (a b : F64) :
    two_prod_fma a b = ⟨fmul a b, ffma a b (fneg (fmul a b))⟩ := rfl

theorem dd_add_def (a b : dd_real) :
    dd_add a b =
      quick_two_sum (two_sum a.hi b.hi).hi
        (fadd (fadd a.lo b.lo) (two_sum a.hi b.hi).lo) := rfl

theorem dd_add_d_def (a : dd_real) (b : F64) :
    dd_add_d a b =
      quick_two_sum (two_sum a.hi b).hi (fadd a.lo (two_sum a.hi b).lo) := rfl

theorem maxFin_eq : maxFin = (2^53 - 1) * 2^(971:ℤ) := by
  rw [show ((971:ℤ)) = ((971:ℕ):ℤ) by norm_num, zpow_natCast]
  rfl

theorem maxFin_eq' : maxFin = (2^54 - 2) * 2^(970:ℤ) := by
  rw [maxFin_eq, show ((971:ℤ)) = 970 + 1 by norm_num, two_zpow_succ]
  ring

theorem pow1023_lt_maxFin : (2:ℚ)^(1023:ℤ) < maxFin := by
  rw [maxFin_eq', show ((1023:ℤ)) = 53 + 970 by norm_num, two_zpow_add]
  exact mul_lt_mul_of_pos_right (by norm_num) (two_zpow_pos _)

theorem pow1023_le_maxFin : (2:ℚ)^(1023:ℤ) ≤ maxFin := le_of_lt pow1023_lt_maxFin

theorem maxFin_pos : (0:ℚ) < maxFin :=
  lt_trans (two_zpow_pos 1023) pow1023_lt_maxFin

theorem maxFin_lt_pow1024 : maxFin < (2:ℚ)^(1024:ℤ) := by
  rw [maxFin_eq, show ((1024:ℤ)) = 53 + 971 by norm_num, two_zpow_add]
  exact mul_lt_mul_of_pos_right (by norm_num) (two_zpow_pos _)

theorem zpow_le_maxFin {e : ℤ} (he : e ≤ 1023) : (2:ℚ)^e ≤ maxFin :=
  le_trans (two_zpow_mono he) pow1023_le_maxFin

theorem one_le_maxFin : (1:ℚ) ≤ maxFin := by
  have h := zpow_le_maxFin (show (0:ℤ) ≤ 1023 by norm_num)
  rwa [zpow_zero] at h

theorem abs_one_le : |(1:ℚ)| ≤ maxFin := by
  rw [abs_one]
  exact one_le_maxFin

theorem mul_pow970_le_maxFin {m : ℚ} (h : m ≤ 2^54 - 2) : m * 2^(970:ℤ) ≤ maxFin := by
  rw [maxFin_eq']
  exact mul_le_mul_of_nonneg_right h (le_of_lt (two_zpow_pos _))

theorem mul_pow971_le_maxFin {m : ℚ} (h : m ≤ 2^53 - 1) : m * 2^(971:ℤ) ≤ maxFin := by
  rw [maxFin_eq]
  exact mul_le_mul_of_nonneg_right h (le_of_lt (two_zpow_pos _))

theorem rep_maxFin : Rep maxFin :=
  ⟨2^53 - 1, 971, by norm_num, by norm_num, by rw [maxFin_eq]; push_cast; ring⟩

theorem roundQ_nonneg {q : ℚ} (h : 0 ≤ q) : 0 ≤ roundQ q := by
  rw [← roundQ_zero]
  exact roundQ_mono h

theorem roundQ_nonpos {q : ℚ} (h : q ≤ 0) : roundQ q ≤ 0 := by
  rw [← roundQ_zero]
  exact roundQ_mono h

theorem roundF_wf (q : ℚ) : WF (roundF q) := by
  unfold roundF
  split_ifs with h
  · trivial
  · push_neg at h
    refine ⟨roundQ_rep q, h, ?_⟩
    intro h0
    rcases lt_trichotomy q 0 with hq | hq | hq
    · have h1 : roundQ q ≤ 0 := roundQ_nonpos (le_of_lt hq)
      have h2 : roundQ q < 0 := lt_of_le_of_ne h1 h0
      simp [hq, h2]
    · subst hq
      rw [roundQ_zero] at h0
      exact absurd rfl h0
    · have h1 : 0 ≤ roundQ q := roundQ_nonneg (le_of_lt hq)
      have h2 : 0 < roundQ q := lt_of_le_of_ne h1 (Ne.symm h0)
      simp [not_lt.mpr (le_of_lt hq), not_lt.mpr (le_of_lt h2)]

theorem wf_fadd (a b : F64) : WF (fadd a b) := by
  rcases a with ⟨s, p⟩ | s | _ <;> rcases b with ⟨t, q⟩ | t | _ <;>
    simp only [fadd] <;> try trivial
  · split_ifs with h1 h2
    · exact ⟨rep_zero, by simpa using le_of_lt maxFin_pos, by intro h; exact absurd rfl h⟩
    · exact ⟨rep_zero, by simpa using le_of_lt maxFin_pos, by intro h; exact absurd rfl h⟩
    · exact roundF_wf _
  · split_ifs <;> trivial

theorem wf_fneg {a : F64} (h : WF a) : WF (fneg a) := by
  unfold fneg
  rcases a with ⟨s, p⟩ | s | _ <;> try trivial
  obtain ⟨h1, h2, h3⟩ := h
  refine ⟨rep_neg h1, by simpa using h2, ?_⟩
  intro h0
  have hp : p ≠ 0 := by intro hp; rw [hp] at h0; exact h0 (by norm_num)
  have := h3 hp
  rcases lt_trichotomy p 0 with hq | hq | hq
  · simp [this, hq, not_lt.mpr (le_of_lt hq)]
  · exact absurd hq hp
  · simp [this, hq, not_lt.mpr (le_of_lt hq)]

theorem wf_fsub (a b : F64) : WF (fsub a b) := wf_fadd a (fneg b)

theorem wf_fmul (a b : F64) : WF (fmul a b) := by
  rcases a with ⟨s, p⟩ | s | _ <;> rcases b with ⟨t, q⟩ | t | _ <;>
    simp only [fmul] <;> try trivial
  · split_ifs with h1
    · exact ⟨rep_zero, by simpa using le_of_lt maxFin_pos, by intro h; exact absurd rfl h⟩
    · exact roundF_wf _
  · split_ifs <;> trivial
  · split_ifs <;> trivial

theorem wf_ffma (a b c : F64) : WF (ffma a b c) := by
  rcases a with ⟨s, p⟩ | s | _ <;> rcases b with ⟨t, q⟩ | t | _ <;>
    rcases c with ⟨u, r⟩ | u | _ <;> simp only [ffma] <;> try trivial
  all_goals try (split_ifs <;> trivial)
  split_ifs with h1 h2
  · exact ⟨rep_zero, by simpa using le_of_lt maxFin_pos, by intro h; exact absurd rfl h⟩
  · exact ⟨rep_zero, by simpa using le_of_lt maxFin_pos, by intro h; exact absurd rfl h⟩
  · exact roundF_wf _

/-- Rounding a representable in-range value is the identity (with the sign
bit of the exact value). -/
theorem roundF_exact {q : ℚ} (h : Rep q) (hb : |q| ≤ maxFin) :
    roundF q = .fin (decide (q < 0)) q := by
  unfold roundF
  rw [roundQ_eq_self h, if_neg (not_lt.mpr hb)]

theorem fadd_fin {s t : Bool} {p q : ℚ} (h : p + q ≠ 0) :
    fadd (.fin s p) (.fin t q) = roundF (p + q) := by
  simp [fadd, h]

theorem fmul_fin {s t : Bool} {p q : ℚ} (hp : p ≠ 0) (hq : q ≠ 0) :
    fmul (.fin s p) (.fin t q) = roundF (p * q) := by
  simp [fmul, hp, hq]

theorem fsub_fin {s t : Bool} {p q : ℚ} (h : p - q ≠ 0) :
    fsub (.fin s p) (.fin t q) = roundF (p - q) := by
  unfold fsub fneg
  rw [fadd_fin (by rw [← sub_eq_add_neg]; exact h), sub_eq_add_neg]

/-- Addition with an exact zero sum of nonzero operands gives `+0`. -/
theorem fadd_cancel {s t : Bool} {p q : ℚ} (h : p + q = 0) (hp : p ≠ 0) :
    fadd (.fin s p) (.fin t q) = .fin false 0 := by
  simp [fadd, h, hp]

/-- Finite floats (both zeros included). -/
def IsFinite : F64 → Prop
  | .fin _ _ => True
  | _ => False

/-! ### Concrete-evaluation helpers -/

theorem roundF_eval {q : ℚ} (h : |roundQ q| ≤ maxFin) :
    roundF q = .fin (decide (q < 0)) (roundQ q) := by
  unfold roundF
  rw [if_neg (not_lt.mpr h)]

theorem fadd_eval_pos {s t : Bool} {p q r : ℚ} (hpos : 0 < p + q)
    (hr : roundQ (p + q) = r) (hov : |r| ≤ maxFin) :
    fadd (.fin s p) (.fin t q) = .fin false r := by
  rw [fadd_fin (ne_of_gt hpos), roundF_eval (by rw [hr]; exact hov), hr]
  simp [not_lt.mpr (le_of_lt hpos)]

theorem fadd_eval_neg {s t : Bool} {p q r : ℚ} (hneg : p + q < 0)
    (hr : roundQ (p + q) = r) (hov : |r| ≤ maxFin) :
    fadd (.fin s p) (.fin t q) = .fin true r := by
  rw [fadd_fin (ne_of_lt hneg), roundF_eval (by rw [hr]; exact hov), hr]
  simp [hneg]

theorem fsub_eval_pos {s t : Bool} {p q r : ℚ} (hpos : 0 < p - q)
    (hr : roundQ (p - q) = r) (hov : |r| ≤ maxFin) :
    fsub (.fin s p) (.fin t q) = .fin false r := by
  unfold fsub fneg
  rw [show p - q = p + -q from by ring] at hpos hr
  exact fadd_eval_pos hpos hr hov

theorem fsub_eval_neg {s t : Bool} {p q r : ℚ} (hneg : p - q < 0)
    (hr : roundQ (p - q) = r) (hov : |r| ≤ maxFin) :
    fsub (.fin s p) (.fin t q) = .fin true r := by
  unfold fsub fneg
  rw [show p - q = p + -q from by ring] at hneg hr
  exact fadd_eval_neg hneg hr hov

theorem fmul_eval_pos {s t : Bool} {p q r : ℚ} (hpos : 0 < p * q)
    (hr : roundQ (p * q) = r) (hov : |r| ≤ maxFin) :
    fmul (.fin s p) (.fin t q) = .fin false r := by
  have hp : p ≠ 0 := by rintro rfl; simp at hpos
  have hq : q ≠ 0 := by rintro rfl; simp at hpos
  rw [fmul_fin hp hq, roundF_eval (by rw [hr]; exact hov), hr]
  simp [not_lt.mpr (le_of_lt hpos)]

theorem fmul_eval_neg {s t : Bool} {p q r : ℚ} (hneg : p * q < 0)
    (hr : roundQ (p * q) = r) (hov : |r| ≤ maxFin) :
    fmul (.fin s p) (.fin t q) = .fin true r := by
  have hp : p ≠ 0 := by rintro rfl; simp at hneg
  have hq : q ≠ 0 := by rintro rfl; simp at hneg
  rw [fmul_fin hp hq, roundF_eval (by rw [hr]; exact hov), hr]
  simp [hneg]

/-- Evaluate `roundQ` at a concrete point: supply the binade `e` of `q` and
the rounded mantissa `n`.  Normal range (`-1021 ≤ e`), no tie. -/
theorem roundQ_eval {q : ℚ} (e n : ℤ) (hlow : 2^(e-1) ≤ |q|) (hhigh : |q| < 2^e)
    (hemin : -1021 ≤ e) (hn : |q / 2^(e - 53) - n| < 1/2) :
    roundQ q = n * 2^(e - 53) := by
  have hm : mag q = e := mag_unique hlow hhigh
  have hc : cexp q = e - 53 := by simp [cexp, hm]; omega
  unfold roundQ
  rw [hc, rne_eq_of_lt_half _ n hn]

/-- Same, tie case (rounded mantissa even). -/
theorem roundQ_eval_tie {q : ℚ} (e n : ℤ) (hlow : 2^(e-1) ≤ |q|) (hhigh : |q| < 2^e)
    (hemin : -1021 ≤ e) (hn : |q / 2^(e - 53) - n| ≤ 1/2) (hev : 2 ∣ n) :
    roundQ q = n * 2^(e - 53) := by
  have hm : mag q = e := mag_unique hlow hhigh
  have hc : cexp q = e - 53 := by simp [cexp, hm]; omega
  unfold roundQ
  rw [hc, rne_eq_of_tie_even _ n hn hev]

/-- Evaluate `roundQ` in the subnormal range. -/
theorem roundQ_eval_sub {q : ℚ} (n : ℤ) (hhigh : |q| < 2^(-1021:ℤ))
    (hn : |q / 2^(-1074:ℤ) - n| < 1/2) :
    roundQ q = n * 2^(-1074:ℤ) := by
  by_cases hq : q = 0
  · subst hq
    have hn2 : |(n:ℚ)| < 1/2 := by
      have h2 := hn
      rw [zero_div, zero_sub, abs_neg] at h2
      exact h2
    have hn3 : |n| < 1 := by
      have : ((|n|:ℤ):ℚ) < 1 := by push_cast; exact lt_trans hn2 (by norm_num)
      exact_mod_cast this
    have hn0 : n = 0 := by rw [abs_lt] at hn3; omega
    subst hn0
    rw [roundQ_zero]
    norm_num
  · have hc : cexp q = -1074 := by
      have := mag_le_of_abs_lt hhigh hq
      simp only [cexp]
      omega
    unfold roundQ
    rw [hc, rne_eq_of_lt_half _ n hn]

/-! ### Claim C5: round-trip of the scalar conversions -/

/-- C5 counterexample: `toScalar (fromScalar (-0.0))` is `+0.0`, which is not
the same binary64 datum as `-0.0` (the claim asserts the round-trip returns
exactly `x` even for negative zero). -/
theorem claim_C5_counterexample :
    dd_to_double (dd_from_double (F64.fin true 0)) = F64.fin false 0 ∧
    F64.fin false 0 ≠ F64.fin true 0 := by
  constructor
  · simp [dd_to_double, dd_from_double, fadd]
  · simp

/-- C5 (amended): for every well-formed finite `x` other than `-0.0`,
`dd_to_double (dd_from_double x)` returns exactly `x`; at `x = -0.0` the
result is `+0.0` (numerically equal but a different datum). -/
theorem claim_C5_roundtrip (x : F64) (hwf : WF x) (hfin : IsFinite x)
    (hneg : x ≠ F64.fin true 0) :
    dd_to_double (dd_from_double x) = x := by
  rcases x with ⟨s, q⟩ | s | _
  · by_cases hq : q = 0
    · subst hq
      have hs : s = false := by
        rcases s with _ | _
        · rfl
        · exact absurd rfl hneg
      subst hs
      simp [dd_to_double, dd_from_double, fadd]
    · obtain ⟨h1, h2, h3⟩ := hwf
      have : q + 0 ≠ 0 := by simpa using hq
      simp only [dd_to_double, dd_from_double]
      rw [fadd_fin this]
      rw [show q + 0 = q from by ring, roundF_exact h1 h2, h3 hq]
  · simp [IsFinite] at hfin
  · simp [IsFinite] at hfin

/-- C5 witness: the amended round-trip at `x = 1.0`. -/
theorem claim_C5_witness :
    WF (F64.fin false 1) ∧ dd_to_double (dd_from_double (F64.fin false 1)) = F64.fin false 1 := by
  have hwf : WF (F64.fin false 1) := by
    refine ⟨⟨1, 0, by norm_num, by norm_num, by norm_num⟩, abs_one_le, ?_⟩
    intro h
    norm_num
  exact ⟨hwf, claim_C5_roundtrip _ hwf trivial (by simp)⟩

/-! ### Claim C9: cancellation preservation -/

/-- The binary64 value of the C literal `1e-16`. -/
def d16 : ℚ := 8112963841460668 / 2^106

theorem rep_d16 : Rep d16 := by
  refine ⟨8112963841460668, -106, by norm_num, by norm_num, ?_⟩
  rw [show ((-106:ℤ)) = -((106:ℕ):ℤ) by norm_num, zpow_neg, zpow_natCast]
  rw [d16, div_eq_mul_inv]
  norm_num

theorem d16_pos : 0 < d16 := by norm_num [d16]

theorem abs_d16_le : |d16| ≤ maxFin := by
  rw [abs_of_pos d16_pos]
  exact le_trans (by norm_num [d16]) one_le_maxFin

theorem rep_one : Rep (1:ℚ) := ⟨1, 0, by norm_num, by norm_num, by norm_num⟩

theorem fadd_zero_sign (s t : Bool) : fadd (.fin s 0) (.fin t 0) = .fin (s && t) 0 := by
  simp [fadd]

theorem fsub_cancel {s t : Bool} {p q : ℚ} (h : p - q = 0) (hp : p ≠ 0) :
    fsub (.fin s p) (.fin t q) = .fin false 0 := by
  unfold fsub fneg
  exact fadd_cancel (by rw [← sub_eq_add_neg]; exact h) hp

/-- `fl(1 + d16) = 1`: the small term is entirely absorbed. -/
theorem round_one_add_d16 : roundQ (1 + d16) = 1 := by
  have h := roundQ_eval (q := 1 + d16) 1 (2^52)
    (by rw [abs_of_pos (by norm_num [d16])]; norm_num [d16])
    (by rw [abs_of_pos (by norm_num [d16])]; norm_num [d16])
    (by norm_num)
    (by rw [abs_of_pos (by norm_num [d16])]; norm_num [d16])
  rw [h]
  norm_num

/-- The sum step of the double-double computation: `fl(1 + d16)` with exact
residual `d16` recovered by `two_sum`. -/
theorem two_sum_one_d16 :
    two_sum (F64.fin false 1) (F64.fin false d16) = ⟨.fin false 1, .fin false d16⟩ := by
  rw [two_sum_def]
  have hs : fadd (F64.fin false 1) (F64.fin false d16) = .fin false 1 :=
    fadd_eval_pos (by norm_num [d16]) round_one_add_d16 abs_one_le
  rw [hs]
  have hv : fsub (F64.fin false 1) (F64.fin false 1) = .fin false 0 :=
    fsub_cancel (by ring) (by norm_num)
  rw [hv]
  have hsv : fsub (F64.fin false 1) (F64.fin false 0) = .fin false 1 := by
    apply fsub_eval_pos (by norm_num)
    · rw [show (1:ℚ) - 0 = 1 from by ring]
      exact roundQ_eq_self rep_one
    · exact abs_one_le
  rw [hsv, hv]
  have ht2 : fsub (F64.fin false d16) (F64.fin false 0) = .fin false d16 := by
    apply fsub_eval_pos (by norm_num [d16])
    · rw [show d16 - 0 = d16 from by ring]
      exact roundQ_eq_self rep_d16
    · exact abs_d16_le
  rw [ht2]
  have he : fadd (F64.fin false 0) (F64.fin false d16) = .fin false d16 := by
    apply fadd_eval_pos (by norm_num [d16])
    · rw [show (0:ℚ) + d16 = d16 from by ring]
      exact roundQ_eq_self rep_d16
    · exact abs_d16_le
  rw [he]

/-- C9: computing `(1 + 1e-16) - 1` in double-double recovers `1e-16`
exactly: `toScalar (addScalar (add (fromScalar 1) (fromScalar 1e-16)) (-1))`
returns precisely the binary64 value of `1e-16`, whereas the plain float64
computation `(1.0 + 1e-16) - 1.0` returns `+0.0`. -/
theorem claim_C9_cancellation :
    dd_to_double (dd_add_d (dd_add (dd_from_double (F64.fin false 1))
        (dd_from_double (F64.fin false d16))) (F64.fin true (-1)))
      = F64.fin false d16
    ∧ fsub (fadd (F64.fin false 1) (F64.fin false d16)) (F64.fin false 1)
      = F64.fin false 0 := by
  have habs_d16 := abs_d16_le
  have hd16 : d16 ≠ 0 := ne_of_gt d16_pos
  -- the double-double sum R1 = dd_add (1,0) (d16,0) = (1, d16)
  have hR1 : dd_add (dd_from_double (F64.fin false 1)) (dd_from_double (F64.fin false d16))
      = ⟨.fin false 1, .fin false d16⟩ := by
    rw [dd_add_def]
    simp only [dd_from_double]
    rw [two_sum_one_d16]
    dsimp only
    have hz : fadd (F64.fin false 0) (F64.fin false 0) = .fin false 0 := by
      have := fadd_zero_sign false false
      simpa using this
    rw [hz]
    have hlo : fadd (F64.fin false 0) (F64.fin false d16) = .fin false d16 := by
      apply fadd_eval_pos (by norm_num [d16])
      · rw [show (0:ℚ) + d16 = d16 from by ring]
        exact roundQ_eq_self rep_d16
      · exact habs_d16
    rw [hlo]
    rw [quick_two_sum_def]
    have hs : fadd (F64.fin false 1) (F64.fin false d16) = .fin false 1 :=
      fadd_eval_pos (by norm_num [d16]) round_one_add_d16 abs_one_le
    rw [hs]
    have hv : fsub (F64.fin false 1) (F64.fin false 1) = .fin false 0 :=
      fsub_cancel (by ring) (by norm_num)
    rw [hv]
    have he : fsub (F64.fin false d16) (F64.fin false 0) = .fin false d16 := by
      apply fsub_eval_pos (by norm_num [d16])
      · rw [show d16 - 0 = d16 from by ring]
        exact roundQ_eq_self rep_d16
      · exact habs_d16
    rw [he]
  rw [hR1]
  -- R2 = dd_add_d (1, d16) (-1) = (d16, 0)
  have hts : two_sum (F64.fin false 1) (F64.fin true (-1)) = ⟨.fin false 0, .fin false 0⟩ := by
    rw [two_sum_def]
    have hs : fadd (F64.fin false 1) (F64.fin true (-1)) = .fin false 0 :=
      fadd_cancel (by ring) (by norm_num)
    rw [hs]
    have hv : fsub (F64.fin false 0) (F64.fin false 1) = .fin true (-1) := by
      apply fsub_eval_neg (by norm_num)
      · rw [show (0:ℚ) - 1 = -1 from by ring]
        exact roundQ_eq_self (rep_neg rep_one)
      · rw [abs_neg]
        exact abs_one_le
    rw [hv]
    have hsv : fsub (F64.fin false 0) (F64.fin true (-1)) = .fin false 1 := by
      apply fsub_eval_pos (by norm_num)
      · rw [show (0:ℚ) - (-1) = 1 from by ring]
        exact roundQ_eq_self rep_one
      · exact abs_one_le
    rw [hsv]
    have ht1 : fsub (F64.fin false 1) (F64.fin false 1) = .fin false 0 :=
      fsub_cancel (by ring) (by norm_num)
    rw [ht1]
    have ht2 : fsub (F64.fin true (-1)) (F64.fin true (-1)) = .fin false 0 :=
      fsub_cancel (by ring) (by norm_num)
    rw [ht2]
    have := fadd_zero_sign false false
    simp only [Bool.and_self] at this
    rw [this]
  constructor
  · rw [dd_add_d_def]
    dsimp only
    rw [hts]
    dsimp only
    have hlo : fadd (F64.fin false d16) (F64.fin false 0) = .fin false d16 := by
      apply fadd_eval_pos (by norm_num [d16])
      · rw [show d16 + 0 = d16 from by ring]
        exact roundQ_eq_self rep_d16
      · exact habs_d16
    rw [hlo]
    rw [quick_two_sum_def]
    have hs2 : fadd (F64.fin false 0) (F64.fin false d16) = .fin false d16 := by
      apply fadd_eval_pos (by norm_num [d16])
      · rw [show (0:ℚ) + d16 = d16 from by ring]
        exact roundQ_eq_self rep_d16
      · exact habs_d16
    rw [hs2]
    have hv2 : fsub (F64.fin false d16) (F64.fin false 0) = .fin false d16 := by
      apply fsub_eval_pos (by norm_num [d16])
      · rw [show d16 - 0 = d16 from by ring]
        exact roundQ_eq_self rep_d16
      · exact habs_d16
    rw [hv2]
    have he2 : fsub (F64.fin false d16) (F64.fin false d16) = .fin false 0 :=
      fsub_cancel (by ring) hd16
    rw [he2]
    unfold dd_to_double
    apply fadd_eval_pos (by norm_num [d16])
    · rw [show d16 + 0 = d16 from by ring]
      exact roundQ_eq_self rep_d16
    · exact habs_d16
  · have hs : fadd (F64.fin false 1) (F64.fin false d16) = .fin false 1 :=
      fadd_eval_pos (by norm_num [d16]) round_one_add_d16 abs_one_le
    rw [hs]
    exact fsub_cancel (by ring) (by norm_num)

/-! ### Claim C8: addScalar agrees with add on an embedded scalar -/

/-- A nonzero multiple of the bottom grid never rounds to zero. -/
theorem roundQ_ne_zero {p : ℚ} (hm : Mul2 p (-1074)) (h0 : p ≠ 0) : roundQ p ≠ 0 := by
  obtain ⟨k, hk⟩ := hm
  have hk0 : k ≠ 0 := by
    rintro rfl
    rw [hk] at h0
    simp at h0
  rcases lt_trichotomy p 0 with hp | hp | hp
  · have hkneg : (k:ℚ) ≤ -1 := by
      have h5 : k < 0 := by
        by_contra hkc
        push_neg at hkc
        have : 0 ≤ (k:ℚ) * 2^(-1074:ℤ) :=
          mul_nonneg (by exact_mod_cast hkc) (le_of_lt (two_zpow_pos _))
        rw [← hk] at this
        exact absurd this (not_le.mpr hp)
      have h6 : k ≤ -1 := by omega
      exact_mod_cast h6
    have hple : p ≤ -(2^(-1074:ℤ)) := by
      rw [hk]
      calc (k:ℚ) * 2^(-1074:ℤ) ≤ (-1) * 2^(-1074:ℤ) :=
            mul_le_mul_of_nonneg_right hkneg (le_of_lt (two_zpow_pos _))
      _ = -(2^(-1074:ℤ)) := by ring
    have := roundQ_mono hple
    rw [roundQ_eq_self (rep_neg (rep_two_zpow le_rfl))] at this
    intro hcon
    rw [hcon] at this
    exact absurd this (not_le.mpr (neg_lt_zero.mpr (two_zpow_pos _)))
  · exact absurd hp h0
  · have hkpos : (1:ℚ) ≤ k := by
      have : 0 < k := by
        by_contra hkc
        push_neg at hkc
        have : (k:ℚ) * 2^(-1074:ℤ) ≤ 0 :=
          mul_nonpos_of_nonpos_of_nonneg (by exact_mod_cast hkc) (le_of_lt (two_zpow_pos _))
        rw [← hk] at this
        exact absurd this (not_le.mpr hp)
      exact_mod_cast this
    have hple : (2^(-1074:ℤ):ℚ) ≤ p := by
      rw [hk]
      calc (2^(-1074:ℤ):ℚ) = 1 * 2^(-1074:ℤ) := by ring
      _ ≤ (k:ℚ) * 2^(-1074:ℤ) :=
            mul_le_mul_of_nonneg_right hkpos (le_of_lt (two_zpow_pos _))
    have := roundQ_mono hple
    rw [roundQ_eq_self (rep_two_zpow le_rfl)] at this
    intro hcon
    rw [hcon] at this
    exact absurd this (not_le.mpr (two_zpow_pos _))

theorem rep_mul2_bot {q : ℚ} (h : Rep q) : Mul2 q (-1074) :=
  (rep_mul2 h).of_le (cexp_ge q)

/-- With well-formed operands, `fadd` returns `-0.0` only on `-0.0 + -0.0`. -/
theorem fadd_negZero_iff {a b : F64} (ha : WF a) (hb : WF b) :
    fadd a b = .fin true 0 ↔ a = .fin true 0 ∧ b = .fin true 0 := by
  rcases a with ⟨s, p⟩ | s | _ <;> rcases b with ⟨t, q⟩ | t | _ <;>
    simp only [fadd]
  case fin.fin =>
    constructor
    · intro h
      split_ifs at h with h1 h2
      · obtain ⟨hp0, hq0⟩ := h2
        subst hp0; subst hq0
        injection h with hst _
        rw [Bool.and_eq_true] at hst
        exact ⟨by rw [hst.1], by rw [hst.2]⟩
      · exact absurd h (by simp)
      · exfalso
        unfold roundF at h
        rcases lt_or_le maxFin |roundQ (p + q)| with h3 | h3
        · rw [if_pos h3] at h
          exact absurd h (by simp)
        · rw [if_neg (not_lt.mpr h3)] at h
          injection h with hdec hval
          exact roundQ_ne_zero ((rep_mul2_bot ha.1).add (rep_mul2_bot hb.1)) h1 hval
    · rintro ⟨h1, h2⟩
      injection h1 with hs hp
      injection h2 with ht hq
      subst hp; subst hq; subst hs; subst ht
      simp
  case inf.inf => split_ifs <;> simp
  all_goals simp

/-- For well-formed inputs the error word of `two_sum` is never `-0.0`. -/
theorem two_sum_err_ne_negZero {a b : F64} (ha : WF a) (hb : WF b) :
    (two_sum a b).lo ≠ F64.fin true 0 := by
  rw [two_sum_def]
  intro hcon
  simp only at hcon
  set s := fadd a b with hs
  set v := fsub s a with hv
  set u := fsub s v with hu
  have ht1 : WF (fsub a u) := wf_fsub a u
  have ht2 : WF (fsub b v) := wf_fsub b v
  rw [fadd_negZero_iff ht1 ht2] at hcon
  obtain ⟨h1, h2⟩ := hcon
  -- fsub x y = -0 forces x = -0 and y = +0
  have hwa : WF a := ha
  have e1 : a = .fin true 0 ∧ fneg u = .fin true 0 := by
    rw [← fadd_negZero_iff ha (wf_fneg (wf_fsub s v))]
    exact h1
  have e2 : b = .fin true 0 ∧ fneg v = .fin true 0 := by
    rw [← fadd_negZero_iff hb (wf_fneg (wf_fsub s a))]
    exact h2
  -- so a = b = -0; compute the actual u: it is -0, so fneg u = +0, contradiction
  have ha0 : a = .fin true 0 := e1.1
  have hb0 : b = .fin true 0 := e2.1
  have hscomp : s = .fin true 0 := by
    rw [hs, ha0, hb0]
    simp [fadd]
  have hvcomp : v = .fin false 0 := by
    rw [hv, hscomp, ha0]
    simp [fsub, fneg, fadd]
  have hucomp : u = .fin true 0 := by
    rw [hu, hscomp, hvcomp]
    simp [fsub, fneg, fadd]
  rw [hucomp] at e1
  simp [fneg] at e1

/-- C8: `dd_add_d A b` coincides (bit for bit) with
`dd_add A (dd_from_double b)` for all well-formed inputs. -/
theorem claim_C8_addScalar (Ahi Alo b : F64) (h1 : WF Ahi) (h2 : WF Alo)
    (h3 : WF b) :
    dd_add_d ⟨Ahi, Alo⟩ b = dd_add ⟨Ahi, Alo⟩ (dd_from_double b) := by
  rw [dd_add_d_def, dd_add_def]
  simp only [dd_from_double]
  -- both sides are quick_two_sum of the same hi with the two lo-sums;
  -- show the lo-sums coincide: fadd Alo e = fadd (fadd Alo (+0)) e
  suffices hlo : fadd Alo ((two_sum Ahi b).lo)
      = fadd (fadd Alo (.fin false 0)) ((two_sum Ahi b).lo) by
    rw [← hlo]
  set e := (two_sum Ahi b).lo with he
  have hewf : WF e := by
    rw [he, two_sum_def]
    exact wf_fadd _ _
  rcases Alo with ⟨s, q⟩ | s | _
  · by_cases hq : q = 0
    · subst hq
      rcases s with _ | _
      · -- +0: fadd (+0) (+0) = +0
        have : fadd (F64.fin false 0) (F64.fin false 0) = .fin false 0 := by
          simp [fadd]
        rw [this]
      · -- -0: fadd (-0) (+0) = +0; need fadd (-0) e = fadd (+0) e
        have hz : fadd (F64.fin true 0) (F64.fin false 0) = .fin false 0 := by
          simp [fadd]
        rw [hz]
        -- e is never -0, so both sides agree
        rcases e with ⟨u, r⟩ | u | _
        · by_cases hr : r = 0
          · subst hr
            have hune : F64.fin u 0 ≠ F64.fin true 0 := by
              rw [he]
              exact two_sum_err_ne_negZero h1 h3
            have hu : u = false := by
              rcases u with _ | _
              · rfl
              · exact absurd rfl hune
            subst hu
            simp [fadd]
          · -- r ≠ 0: both are roundF (0 + r)
            have e1 : fadd (F64.fin true 0) (F64.fin u r) = roundF (0 + r) :=
              fadd_fin (by simpa using hr)
            have e2 : fadd (F64.fin false 0) (F64.fin u r) = roundF (0 + r) :=
              fadd_fin (by simpa using hr)
            rw [e1, e2]
        · simp [fadd]
        · simp [fadd]
    · -- Alo nonzero: fadd Alo (+0) = Alo exactly
      have : fadd (F64.fin s q) (F64.fin false 0) = F64.fin s q := by
        rw [fadd_fin (by simpa using hq), show q + 0 = q from by ring,
            roundF_exact h2.1 h2.2.1, h2.2.2 hq]
      rw [this]
  · have : fadd (F64.inf s) (F64.fin false 0) = F64.inf s := by simp [fadd]
    rw [this]
  · have : fadd F64.nan (F64.fin false 0) = F64.nan := by simp [fadd]
    rw [this]

/-- C8 witness: the equivalence at `A = (1, 0), b = 1`. -/
theorem claim_C8_witness :
    WF (F64.fin false 1) ∧
    dd_add_d ⟨F64.fin false 1, F64.fin false 0⟩ (F64.fin false 1)
      = dd_add ⟨F64.fin false 1, F64.fin false 0⟩ (dd_from_double (F64.fin false 1)) := by
  have hwf1 : WF (F64.fin false 1) := ⟨rep_one, abs_one_le, by intro h; norm_num⟩
  have hwf0 : WF (F64.fin false 0) :=
    ⟨rep_zero, by simpa using le_of_lt maxFin_pos, by intro h; exact absurd rfl h⟩
  exact ⟨hwf1, claim_C8_addScalar _ _ _ hwf1 hwf0 hwf1⟩

/-! ### Value-level lemmas for the operations -/

theorem val_fneg (x : F64) : val (fneg x) = -(val x) := by
  rcases x with ⟨s, q⟩ | s | _ <;> simp [fneg, val]

theorem isFinite_fneg {x : F64} (h : IsFinite x) : IsFinite (fneg x) := by
  rcases x with ⟨s, q⟩ | s | _ <;> simp_all [fneg, IsFinite]

theorem val_fadd_round {x y : F64} (hfx : IsFinite x) (hfy : IsFinite y)
    (hov : |roundQ (val x + val y)| ≤ maxFin) :
    IsFinite (fadd x y) ∧ val (fadd x y) = roundQ (val x + val y) := by
  rcases x with ⟨s, p⟩ | s | _ <;> rcases y with ⟨t, q⟩ | t | _ <;>
    try simp [IsFinite] at hfx hfy
  simp only [val] at hov ⊢
  by_cases h0 : p + q = 0
  · rw [h0, roundQ_zero]
    simp only [fadd, if_pos h0]
    split_ifs <;> exact ⟨trivial, rfl⟩
  · rw [fadd_fin h0, roundF_eval hov]
    exact ⟨trivial, rfl⟩

theorem val_fadd_exact {x y : F64} (hfx : IsFinite x) (hfy : IsFinite y)
    (hrep : Rep (val x + val y)) (hb : |val x + val y| ≤ maxFin) :
    IsFinite (fadd x y) ∧ val (fadd x y) = val x + val y := by
  have h := val_fadd_round hfx hfy (by rw [roundQ_eq_self hrep]; exact hb)
  rwa [roundQ_eq_self hrep] at h

theorem val_fsub_round {x y : F64} (hfx : IsFinite x) (hfy : IsFinite y)
    (hov : |roundQ (val x - val y)| ≤ maxFin) :
    IsFinite (fsub x y) ∧ val (fsub x y) = roundQ (val x - val y) := by
  unfold fsub
  have h := val_fadd_round hfx (isFinite_fneg hfy)
    (by rw [val_fneg, ← sub_eq_add_neg]; exact hov)
  rwa [val_fneg, ← sub_eq_add_neg] at h

theorem val_fsub_exact {x y : F64} (hfx : IsFinite x) (hfy : IsFinite y)
    (hrep : Rep (val x - val y)) (hb : |val x - val y| ≤ maxFin) :
    IsFinite (fsub x y) ∧ val (fsub x y) = val x - val y := by
  have h := val_fsub_round hfx hfy (by rw [roundQ_eq_self hrep]; exact hb)
  rwa [roundQ_eq_self hrep] at h

theorem val_fmul_round {x y : F64} (hfx : IsFinite x) (hfy : IsFinite y)
    (hov : |roundQ (val x * val y)| ≤ maxFin) :
    IsFinite (fmul x y) ∧ val (fmul x y) = roundQ (val x * val y) := by
  rcases x with ⟨s, p⟩ | s | _ <;> rcases y with ⟨t, q⟩ | t | _ <;>
    try simp [IsFinite] at hfx hfy
  simp only [val] at hov ⊢
  by_cases h0 : p = 0 ∨ q = 0
  · have hpq : p * q = 0 := by
      rcases h0 with h | h <;> rw [h] <;> ring
    rw [hpq, roundQ_zero]
    simp only [fmul, if_pos h0]
    constructor <;> trivial
  · push_neg at h0
    rw [fmul_fin h0.1 h0.2, roundF_eval hov]
    exact ⟨trivial, rfl⟩

theorem val_fmul_exact {x y : F64} (hfx : IsFinite x) (hfy : IsFinite y)
    (hrep : Rep (val x * val y)) (hb : |val x * val y| ≤ maxFin) :
    IsFinite (fmul x y) ∧ val (fmul x y) = val x * val y := by
  have h := val_fmul_round hfx hfy (by rw [roundQ_eq_self hrep]; exact hb)
  rwa [roundQ_eq_self hrep] at h

theorem rep_double {a : ℚ} (h : Rep a) : Rep (2 * a) := by
  obtain ⟨m, e, hm, he, hq⟩ := h
  refine ⟨m, e + 1, hm, bot_le_add _ he (by norm_num), ?_⟩
  rw [hq, two_zpow_add]
  push_cast
  ring

theorem abs_le_canon {a : ℚ} (h : Rep a) : |a| ≤ (2^53 - 1) * 2^(cexp a) := by
  obtain ⟨k, hk, hkb⟩ := rep_canon h
  have habs : |a| = |(k:ℚ)| * 2^(cexp a) := by
    conv_lhs => rw [hk]
    rw [abs_mul, abs_of_pos (two_zpow_pos _)]
  rw [habs]
  apply mul_le_mul_of_nonneg_right _ (le_of_lt (two_zpow_pos _))
  have h1 : |k| ≤ 2^53 - 1 := Int.le_sub_one_iff.mpr hkb
  have h2 : ((|k|:ℤ):ℚ) ≤ ((2^53 - 1 : ℤ):ℚ) := by exact_mod_cast h1
  push_cast at h2
  calc |(k:ℚ)| ≤ 9007199254740991 := by simpa using h2
  _ = 2^53 - 1 := by norm_num

/-! ### Fast2Sum: the subtraction `round(a+b) - a` is exact when `|b| ≤ |a|` -/

/-- The rounding error of an addition is at most the magnitude of either
summand. -/
theorem resid_le_left {a b : ℚ} (ha : Rep a) :
    |(a + b) - roundQ (a + b)| ≤ |b| := by
  calc |(a + b) - roundQ (a + b)| ≤ |(a + b) - a| := roundQ_min ha
  _ = |b| := by ring_nf

theorem fast2sum_sub_exact {a b : ℚ} (ha : Rep a) (hb : Rep b) (hab : |b| ≤ |a|) :
    Rep (roundQ (a + b) - a) ∧ |roundQ (a + b) - a| ≤ |a| := by
  -- reduce to 0 ≤ a by sign symmetry
  suffices hside : ∀ a b : ℚ, Rep a → Rep b → |b| ≤ |a| → 0 ≤ a →
      Rep (roundQ (a + b) - a) ∧ |roundQ (a + b) - a| ≤ |a| by
    rcases le_total 0 a with h | h
    · exact hside a b ha hb hab h
    · obtain ⟨h1, h2⟩ := hside (-a) (-b) (rep_neg ha) (rep_neg hb)
        (by rwa [abs_neg, abs_neg]) (neg_nonneg.mpr h)
      rw [show -a + -b = -(a + b) by ring, roundQ_neg] at h1 h2
      constructor
      · have h3 := rep_neg h1
        rw [show -(-roundQ (a + b) - -a) = roundQ (a + b) - a by ring] at h3
        exact h3
      · rw [show -roundQ (a + b) - -a = -(roundQ (a + b) - a) by ring, abs_neg,
            abs_neg] at h2
        exact h2
  intro a b ha hb hab ha0
  by_cases hb0 : b = 0
  · rw [hb0, add_zero, roundQ_eq_self ha, sub_self]
    exact ⟨rep_zero, by simpa using abs_nonneg a⟩
  have ha0' : a ≠ 0 := by
    intro h
    rw [h] at hab
    simp only [abs_zero] at hab
    exact hb0 (abs_eq_zero.mp (le_antisymm hab (abs_nonneg b)))
  have hapos : 0 < a := lt_of_le_of_ne ha0 (Ne.symm ha0')
  have haabs : |a| = a := abs_of_pos hapos
  rw [haabs] at hab
  rcases le_or_lt 0 b with hbpos | hbneg
  · -- same sign: a ≤ a + b ≤ 2a, everything on the grid of a
    have hble : b ≤ a := le_trans (le_abs_self b) hab
    have hub : a + b ≤ 2 * a := by rw [two_mul]; exact add_le_add_left hble a
    have hlb : a ≤ a + b := le_add_of_nonneg_right hbpos
    have hs_ge : a ≤ roundQ (a + b) := by
      calc a = roundQ a := (roundQ_eq_self ha).symm
      _ ≤ roundQ (a + b) := roundQ_mono hlb
    have hs_le : roundQ (a + b) ≤ 2 * a := by
      calc roundQ (a + b) ≤ roundQ (2 * a) := roundQ_mono hub
      _ = 2 * a := roundQ_eq_self (rep_double ha)
    have hmagle : mag a ≤ mag (a + b) :=
      mag_mono ha0'
        (by rw [haabs, abs_of_pos (add_pos_of_pos_of_nonneg hapos hbpos)]; exact hlb)
    have hce : cexp a ≤ cexp (a + b) := by
      simp only [cexp] at *
      omega
    have hmul : Mul2 (roundQ (a + b) - a) (cexp a) :=
      ((roundQ_mul2 (a + b)).of_le hce).sub (rep_mul2 ha)
    have habs2 : |roundQ (a + b) - a| ≤ a := by
      rw [abs_of_nonneg (sub_nonneg.mpr hs_ge)]
      rw [two_mul] at hs_le
      exact sub_le_iff_le_add.mpr hs_le
    refine ⟨mul2_rep hmul (cexp_ge a) ?_, by rw [haabs]; exact habs2⟩
    calc |roundQ (a + b) - a| ≤ a := habs2
    _ = |a| := haabs.symm
    _ ≤ 2^(cexp a + 53) := le_of_lt (abs_lt_cexp53 a)
  · -- opposite signs: -a ≤ b < 0
    have hnba : -b ≤ a := by have h := hab; rwa [abs_of_neg hbneg] at h
    have hbge : -a ≤ b := neg_le.mpr hnba
    have hlb : 0 ≤ a + b := neg_le_iff_add_nonneg.mp hnba
    have hub : a + b ≤ a := add_le_of_nonpos_right (le_of_lt hbneg)
    have hs_ge : 0 ≤ roundQ (a + b) := roundQ_nonneg hlb
    have hs_le : roundQ (a + b) ≤ a := by
      calc roundQ (a + b) ≤ roundQ a := roundQ_mono hub
      _ = a := roundQ_eq_self ha
    have habs2 : |roundQ (a + b) - a| ≤ a := by
      rw [abs_of_nonpos (sub_nonpos.mpr hs_le), neg_sub]
      exact sub_le_self a hs_ge
    rcases le_or_lt (a/2) (-b) with hbig | hsmall
    · -- massive cancellation: Sterbenz makes the sum exact
      have hrepab : Rep (a + b) := by
        have h1 : (-b)/2 ≤ a :=
          le_trans (div_le_self (neg_nonneg.mpr (le_of_lt hbneg)) one_le_two) hnba
        have h2 : a ≤ 2 * -b := by
          rw [div_le_iff₀ (by norm_num : (0:ℚ) < 2), mul_comm] at hbig
          exact hbig
        have := sterbenz ha (rep_neg hb) h1 h2
        rw [show a - -b = a + b by ring] at this
        exact this
      rw [roundQ_eq_self hrepab, show a + b - a = b by ring]
      exact ⟨hb, by rw [haabs]; exact hab⟩
    · -- partial cancellation: a/2 < a + b ≤ a
      have hsum_pos : a/2 < a + b := by
        have h := sub_lt_sub_left hsmall a
        rwa [sub_neg_eq_add, sub_half] at h
      rcases le_or_lt (cexp a) (cexp (a + b)) with hce | hce
      · -- the grid of a suffices
        have hmul : Mul2 (roundQ (a + b) - a) (cexp a) :=
          ((roundQ_mul2 (a + b)).of_le hce).sub (rep_mul2 ha)
        refine ⟨mul2_rep hmul (cexp_ge a) ?_, by rw [haabs]; exact habs2⟩
        calc |roundQ (a + b) - a| ≤ a := habs2
        _ = |a| := haabs.symm
        _ ≤ 2^(cexp a + 53) := le_of_lt (abs_lt_cexp53 a)
      · -- cexp (a+b) < cexp a: then cexp a is not clamped and the sum sits
        -- one binade below a
        have hca : cexp a = mag a - 53 := by
          have h1 := cexp_ge (a + b)
          simp only [cexp] at hce ⊢
          omega
      -- a + b > a/2 ≥ 2^(mag a - 2)
        have hab_low : (2:ℚ)^(mag a - 2) ≤ |a + b| := by
          rw [abs_of_nonneg hlb]
          have h1 : (2:ℚ)^(mag a - 1) ≤ a := by
            have := mag_low ha0'
            rwa [haabs] at this
          have h3 : (2:ℚ)^(mag a - 2) ≤ a/2 := by
            rw [le_div_iff₀ (by norm_num : (0:ℚ) < 2), mul_comm, ← two_zpow_succ,
              show mag a - 2 + 1 = mag a - 1 by ring]
            exact h1
          exact le_of_lt (lt_of_le_of_lt h3 hsum_pos)
        have habne : a + b ≠ 0 := ne_of_gt (lt_trans (half_pos hapos) hsum_pos)
        have hmagab : mag a - 1 ≤ mag (a + b) := by
          have := mag_ge_of_le_abs hab_low habne
          omega
        have hceab : cexp (a + b) = cexp a - 1 := by
          have hge := cexp_ge (a + b)
          simp only [cexp] at hce hge hca ⊢
          omega
        have hmul : Mul2 (roundQ (a + b) - a) (cexp a - 1) :=
          ((roundQ_mul2 (a + b)).of_le (le_of_eq hceab.symm)).sub
            ((rep_mul2 ha).of_le (sub_le_self _ (by norm_num)))
        refine ⟨mul2_rep hmul (by have := cexp_ge (a + b); omega) ?_,
          by rw [haabs]; exact habs2⟩
        -- |s - a| ≤ -b + 2^(cexp a - 2) < 2^(cexp a + 52)
        have hr := roundQ_err (a + b)
        rw [hceab] at hr
        have h1 : |roundQ (a + b) - a| ≤ -b + 2^(cexp a - 1 - 1) := by
          have h2 : |roundQ (a + b) - a| ≤ |roundQ (a + b) - (a + b)| + |b| := by
            calc |roundQ (a + b) - a| = |(roundQ (a + b) - (a + b)) + b| := by ring_nf
            _ ≤ |roundQ (a + b) - (a + b)| + |b| := abs_add _ _
          have h3 : |roundQ (a + b) - (a + b)| ≤ 2^(cexp a - 1 - 1) := by
            rw [abs_sub_comm]
            exact hr
          rw [abs_of_neg hbneg] at h2
          exact le_trans h2 (by rw [add_comm]; exact add_le_add_left h3 (-b))
        have hcanon : a ≤ (2^53 - 1) * 2^(cexp a) := by
          have := abs_le_canon ha
          rwa [haabs] at this
        -- put everything over the grid 2^(cexp a - 2)
        have e1 : (2:ℚ)^(cexp a) = 2 * (2 * 2^(cexp a - 2)) := by
          conv_lhs => rw [show cexp a = 2 + (cexp a - 2) by ring]
          rw [two_zpow_add]
          norm_num
          ring
        have e3 : (2:ℚ)^((cexp a - 1) + 53) = 2^54 * 2^(cexp a - 2) := by
          conv_lhs => rw [show (cexp a - 1) + 53 = 54 + (cexp a - 2) by ring]
          rw [two_zpow_add]
          norm_num
        have hforward : |roundQ (a + b) - a| ≤ 2^((cexp a - 1) + 53) := by
          have hpos2 := two_zpow_pos (cexp a - 2)
          calc |roundQ (a + b) - a| ≤ -b + 2^(cexp a - 1 - 1) := h1
          _ ≤ a/2 + 2^(cexp a - 2) := by
              rw [show cexp a - 1 - 1 = cexp a - 2 by ring]
              exact add_le_add_right (le_of_lt hsmall) _
          _ ≤ ((2^53 - 1) * 2^(cexp a))/2 + 2^(cexp a - 2) :=
              add_le_add_right ((div_le_div_right (by norm_num : (0:ℚ) < 2)).mpr hcanon) _
          _ = (2^54 - 1) * 2^(cexp a - 2) := by rw [e1]; ring
          _ ≤ 2^54 * 2^(cexp a - 2) :=
              mul_le_mul_of_nonneg_right (by norm_num) (le_of_lt hpos2)
          _ = 2^((cexp a - 1) + 53) := e3.symm
        exact hforward

/-! ### Toolkit for the Knuth 2Sum analysis -/

theorem abs_sub_le_add (x y : ℚ) : |x - y| ≤ |x| + |y| := by
  calc |x - y| = |x + -y| := by rw [sub_eq_add_neg]
  _ ≤ |x| + |-y| := abs_add x (-y)
  _ = |x| + |y| := by rw [abs_neg]

theorem two_zpow_le_iff {x y : ℤ} : (2:ℚ)^x ≤ 2^y ↔ x ≤ y := by
  constructor
  · intro h
    by_contra hc
    push_neg at hc
    have h2 : (2:ℚ)^(y+1) ≤ 2^x := two_zpow_mono (Int.add_one_le_iff.mpr hc)
    rw [two_zpow_succ] at h2
    have h3 := two_zpow_pos y
    exact absurd (le_trans h2 h) (not_le.mpr (lt_two_mul_self h3))
  · exact two_zpow_mono

/-- A nonzero multiple of `2^g` has magnitude at least `2^g`. -/
theorem mul2_lb {q : ℚ} {g : ℤ} (h : Mul2 q g) (hq : q ≠ 0) : (2:ℚ)^g ≤ |q| := by
  obtain ⟨k, hk⟩ := h
  have hkne : k ≠ 0 := by
    rintro rfl
    apply hq
    rw [hk]
    push_cast
    ring
  have h1 : (1:ℚ) ≤ |(k:ℚ)| := by
    have h2 : (1:ℤ) ≤ |k| := by
      rcases lt_or_gt_of_ne hkne with h | h
      · rw [abs_of_neg h]; omega
      · rw [abs_of_pos h]; omega
    have h3 : ((1:ℤ):ℚ) ≤ ((|k|:ℤ):ℚ) := by exact_mod_cast h2
    push_cast at h3
    exact h3
  rw [hk, abs_mul, abs_of_pos (two_zpow_pos g)]
  calc (2:ℚ)^g = 1 * 2^g := (one_mul _).symm
  _ ≤ |(k:ℚ)| * 2^g := mul_le_mul_of_nonneg_right h1 (le_of_lt (two_zpow_pos g))

/-- Distinct multiples of `2^g` are separated by at least `2^g` (in magnitude). -/
theorem mul2_abs_sep {x y : ℚ} {g : ℤ} (hx : Mul2 x g) (hy : Mul2 y g)
    (h : |x| < |y|) : |x| + 2^g ≤ |y| := by
  have hd : Mul2 (|y| - |x|) g := by
    rcases hx with ⟨kx, hkx⟩
    rcases hy with ⟨ky, hky⟩
    refine ⟨|ky| - |kx|, ?_⟩
    rw [hkx, hky, abs_mul, abs_mul, abs_of_pos (two_zpow_pos g)]
    push_cast
    ring
  have hne : |y| - |x| ≠ 0 := ne_of_gt (sub_pos.mpr h)
  have hlb := mul2_lb hd hne
  rw [abs_of_pos (sub_pos.mpr h)] at hlb
  rw [add_comm]
  exact le_sub_iff_add_le.mp hlb

theorem cexp_two_mul {b : ℚ} (hb : b ≠ 0) : cexp (2*b) ≤ cexp b + 1 := by
  have hmag : mag (2*b) = mag b + 1 := by
    apply mag_unique
    · have h1 : (2:ℚ)^(mag b - 1) ≤ |b| := mag_low hb
      have h2 : (2:ℚ)^(mag b + 1 - 1) = 2 * 2^(mag b - 1) := by
        rw [show mag b + 1 - 1 = (mag b - 1) + 1 by ring, two_zpow_succ]
      rw [h2, abs_mul, (by norm_num : |(2:ℚ)| = 2)]
      exact mul_le_mul_of_nonneg_left h1 (by norm_num)
    · have h1 : |b| < 2^(mag b) := mag_high b
      rw [two_zpow_succ, abs_mul, (by norm_num : |(2:ℚ)| = 2)]
      exact mul_lt_mul_of_pos_left h1 (by norm_num)
  simp only [cexp, hmag]
  omega

/-- A value whose rounding exponent is above the subnormal floor fills its
binade: `2^(cexp q + 52) ≤ |q|`. -/
theorem normal_lb {q : ℚ} (hq : q ≠ 0) (h : -1074 < cexp q) :
    (2:ℚ)^(cexp q + 52) ≤ |q| := by
  have hc : cexp q + 52 = mag q - 1 := by
    simp only [cexp] at h ⊢
    omega
  rw [hc]
  exact mag_low hq

theorem cexp_le_971 {q : ℚ} (hq : q ≠ 0) (h : |q| ≤ maxFin) : cexp q ≤ 971 := by
  have hm : mag q ≤ 1024 := mag_le_of_abs_lt
    (lt_of_le_of_lt h maxFin_lt_pow1024) hq
  simp only [cexp]
  omega

theorem isFinite_data {z : F64} (h : IsFinite z) : ∃ s q, z = .fin s q := by
  rcases z with ⟨s, q⟩ | s | _
  · exact ⟨s, q, rfl⟩
  · simp [IsFinite] at h
  · simp [IsFinite] at h

/-! ### Knuth 2Sum: exactness of both virtual subtractions

With `s = round(a+b)`, `t = s - a` and `v = round(t)`, the quantities `s - v`
and `b - v` are exactly representable.  The hard case is `|a| < |b|` with an
inexact sum; there the grid/counting analysis below applies. -/

theorem knuth_hard {a b : ℚ} (ha : Rep a) (hb : Rep b) (hbM : |b| ≤ maxFin)
    (hab : |a| < |b|) (hr : (a + b) - roundQ (a + b) ≠ 0) :
    Rep (roundQ (a + b) - roundQ (roundQ (a + b) - a)) ∧
    |roundQ (a + b) - roundQ (roundQ (a + b) - a)| ≤ maxFin ∧
    Rep (b - roundQ (roundQ (a + b) - a)) ∧
    |b - roundQ (roundQ (a + b) - a)| ≤ maxFin := by
  have hbne : b ≠ 0 := by
    intro h0
    rw [h0, abs_zero] at hab
    exact absurd hab (not_lt.mpr (abs_nonneg a))
  have hane : a ≠ 0 := by
    intro h0
    apply hr
    rw [h0, zero_add, roundQ_eq_self hb, sub_self]
  have habne : a + b ≠ 0 := by
    intro h0
    apply hr
    rw [h0, roundQ_zero, sub_zero]
  have hg : cexp a ≤ cexp b := cexp_mono hane (le_of_lt hab)
  have habs2b : |a + b| ≤ |2 * b| := by
    rw [abs_mul, (by norm_num : |(2:ℚ)| = 2), two_mul]
    calc |a + b| ≤ |a| + |b| := abs_add a b
    _ ≤ |b| + |b| := add_le_add_right (le_of_lt hab) _
  have hm_ub : cexp (a + b) ≤ cexp b + 1 :=
    le_trans (cexp_mono habne habs2b) (cexp_two_mul hbne)
  have hr_half : |(a + b) - roundQ (a + b)| ≤ 2^(cexp (a + b) - 1) := roundQ_err (a + b)
  have hrla : |(a + b) - roundQ (a + b)| ≤ |a| := by
    have h1 : |(b + a) - roundQ (b + a)| ≤ |a| := resid_le_left hb
    rwa [add_comm b a] at h1
  have hmulab : Mul2 (a + b) (cexp a) := (rep_mul2 ha).add ((rep_mul2 hb).of_le hg)
  have hg_le_m : cexp a ≤ cexp (a + b) := by
    by_contra hlt
    push_neg at hlt
    have h1 : Mul2 ((a + b) - roundQ (a + b)) (cexp (a + b)) :=
      (hmulab.of_le (le_of_lt hlt)).sub (roundQ_mul2 (a + b))
    have h2 := mul2_lb h1 hr
    have h3 : (2:ℚ)^(cexp (a + b)) ≤ 2^(cexp (a + b) - 1) := le_trans h2 hr_half
    have h4 := two_zpow_le_iff.mp h3
    omega
  have hrmul : Mul2 ((a + b) - roundQ (a + b)) (cexp a) :=
    hmulab.sub ((roundQ_mul2 (a + b)).of_le hg_le_m)
  have hm_lb : cexp a + 1 ≤ cexp (a + b) := by
    have h1 : (2:ℚ)^(cexp a) ≤ 2^(cexp (a + b) - 1) :=
      le_trans (mul2_lb hrmul hr) hr_half
    have h2 := two_zpow_le_iff.mp h1
    omega
  have htbr : roundQ (a + b) - a = b - ((a + b) - roundQ (a + b)) := by ring
  have ht_ne : roundQ (a + b) - a ≠ 0 := by
    rw [htbr]
    intro h0
    have h1 : b = (a + b) - roundQ (a + b) := sub_eq_zero.mp h0
    have h2 : |b| ≤ |a| := by rw [h1]; exact hrla
    exact absurd h2 (not_le.mpr hab)
  have habs_t2b : |roundQ (a + b) - a| ≤ |2 * b| := by
    rw [abs_mul, (by norm_num : |(2:ℚ)| = 2), htbr, two_mul]
    calc |b - ((a + b) - roundQ (a + b))|
        ≤ |b| + |(a + b) - roundQ (a + b)| := abs_sub_le_add _ _
    _ ≤ |b| + |a| := add_le_add_left hrla _
    _ ≤ |b| + |b| := add_le_add_left (le_of_lt hab) _
  have hct_ub : cexp (roundQ (a + b) - a) ≤ cexp b + 1 :=
    le_trans (cexp_mono ht_ne habs_t2b) (cexp_two_mul hbne)
  have hrbound : |(a + b) - roundQ (a + b)| ≤ 2^(cexp b) :=
    le_trans hr_half (two_zpow_mono (sub_le_iff_le_add.mpr hm_ub))
  -- lower bound on the exponent of t = s - a
  have hct_lb : cexp a ≤ cexp (roundQ (a + b) - a) := by
    rcases eq_or_lt_of_le hg with hEq | hLt
    · rcases eq_or_lt_of_le (cexp_ge a) with hBot | hNorm
      · calc cexp a = -1074 := hBot.symm
        _ ≤ cexp (roundQ (a + b) - a) := cexp_ge _
      · have hA : (2:ℚ)^(cexp a + 52) ≤ |a| := normal_lb hane hNorm
        have hSep : |a| + 2^(cexp a) ≤ |b| :=
          mul2_abs_sep (rep_mul2 ha) ((rep_mul2 hb).of_le hg) hab
        have h3 : |(a + b) - roundQ (a + b)| ≤ 2^(cexp a) := by
          rw [hEq]; exact hrbound
        have hT : (2:ℚ)^(cexp a + 52) ≤ |roundQ (a + b) - a| := by
          rw [htbr]
          have h1 : |b| - |(a + b) - roundQ (a + b)| ≤
              |b - ((a + b) - roundQ (a + b))| := abs_sub_abs_le_abs_sub _ _
          exact le_trans (le_trans hA (le_trans (le_sub_iff_add_le.mpr hSep)
            (sub_le_sub_left h3 _))) h1
        have hMag : cexp a + 52 + 1 ≤ mag (roundQ (a + b) - a) :=
          mag_ge_of_le_abs hT ht_ne
        simp only [cexp] at hMag ⊢
        omega
    · have hbNorm : (2:ℚ)^(cexp b + 52) ≤ |b| :=
        normal_lb hbne (by have := cexp_ge a; omega)
      have hT : (2:ℚ)^(cexp b + 51) ≤ |roundQ (a + b) - a| := by
        rw [htbr]
        have h1 : |b| - |(a + b) - roundQ (a + b)| ≤
            |b - ((a + b) - roundQ (a + b))| := abs_sub_abs_le_abs_sub _ _
        have h2 : (2:ℚ)^(cexp b) ≤ 2^(cexp b + 51) :=
          two_zpow_mono (le_add_of_nonneg_right (by norm_num))
        have h4 : (2:ℚ)^(cexp b + 51) = 2^(cexp b + 52) - 2^(cexp b + 51) := by
          rw [show cexp b + 52 = (cexp b + 51) + 1 by ring, two_zpow_succ]
          ring
        rw [h4]
        exact le_trans (sub_le_sub hbNorm (le_trans hrbound h2)) h1
      have hMag : cexp b + 51 + 1 ≤ mag (roundQ (a + b) - a) := mag_ge_of_le_abs hT ht_ne
      simp only [cexp] at hMag hLt ⊢
      omega
  -- second rounding: error bounds
  have hTV_r : |(roundQ (a + b) - a) - roundQ (roundQ (a + b) - a)| ≤
      |(a + b) - roundQ (a + b)| := by
    have h1 : |(roundQ (a + b) - a) - roundQ (roundQ (a + b) - a)| ≤
        |(roundQ (a + b) - a) - b| := roundQ_min hb
    have h2 : (roundQ (a + b) - a) - b = -((a + b) - roundQ (a + b)) := by ring
    rwa [h2, abs_neg] at h1
  have hTV_half : |(roundQ (a + b) - a) - roundQ (roundQ (a + b) - a)| ≤
      2^(cexp (roundQ (a + b) - a) - 1) := roundQ_err _
  have hVmul : Mul2 (roundQ (roundQ (a + b) - a)) (cexp (roundQ (a + b) - a)) :=
    roundQ_mul2 _
  have hcb971 : cexp b ≤ 971 := cexp_le_971 hbne hbM
  have hbv_id : b - roundQ (roundQ (a + b) - a) =
      ((a + b) - roundQ (a + b)) +
      ((roundQ (a + b) - a) - roundQ (roundQ (a + b) - a)) := by ring
  have hsv_id : roundQ (a + b) - roundQ (roundQ (a + b) - a) =
      a + ((roundQ (a + b) - a) - roundQ (roundQ (a + b) - a)) := by ring
  have habc : |a| ≤ (2^53 - 1) * 2^(cexp a) := abs_le_canon ha
  -- when the second rounding happens on a much coarser grid, the sum exponent
  -- is itself within two of it
  have hm_ct_of : cexp a + 2 ≤ cexp (roundQ (a + b) - a) →
      cexp (a + b) ≤ cexp (roundQ (a + b) - a) + 2 := by
    intro hct2
    by_contra hcon
    push_neg at hcon
    have hmnorm0 : (2:ℚ)^(cexp (a + b) + 52) ≤ |a + b| :=
      normal_lb habne (by have := cexp_ge (roundQ (a + b) - a); omega)
    have hmnorm : (9007199254740992:ℚ) * 2^(cexp (a + b) - 1) ≤ |a + b| := by
      calc (9007199254740992:ℚ) * 2^(cexp (a + b) - 1)
          = 2^(53 + (cexp (a + b) - 1)) := by rw [two_zpow_add]; norm_num
      _ = 2^(cexp (a + b) + 52) := by
          rw [show (53:ℤ) + (cexp (a + b) - 1) = cexp (a + b) + 52 by ring]
      _ ≤ |a + b| := hmnorm0
    have h1 : |a + (roundQ (a + b) - a) + ((a + b) - roundQ (a + b))| ≤
        |a| + |roundQ (a + b) - a| + |(a + b) - roundQ (a + b)| := by
      calc |a + (roundQ (a + b) - a) + ((a + b) - roundQ (a + b))|
          ≤ |a + (roundQ (a + b) - a)| + |(a + b) - roundQ (a + b)| := abs_add _ _
      _ ≤ |a| + |roundQ (a + b) - a| + |(a + b) - roundQ (a + b)| :=
          add_le_add_right (abs_add a (roundQ (a + b) - a)) _
    have h1' : |a + b| ≤ |a| + |roundQ (a + b) - a| + |(a + b) - roundQ (a + b)| := by
      have he : a + (roundQ (a + b) - a) + ((a + b) - roundQ (a + b)) = a + b := by
        ring
      rwa [he] at h1
    have f1 : |a| < 562949953421312 * 2^(cexp (a + b) - 1) := by
      calc |a| < 2^(cexp a + 53) := abs_lt_cexp53 a
      _ ≤ 2^(49 + (cexp (a + b) - 1)) := two_zpow_mono (by omega)
      _ = 562949953421312 * 2^(cexp (a + b) - 1) := by rw [two_zpow_add]; norm_num
    have f2 : |roundQ (a + b) - a| < 2251799813685248 * 2^(cexp (a + b) - 1) := by
      calc |roundQ (a + b) - a| < 2^(cexp (roundQ (a + b) - a) + 53) := abs_lt_cexp53 _
      _ ≤ 2^(51 + (cexp (a + b) - 1)) := two_zpow_mono (by omega)
      _ = 2251799813685248 * 2^(cexp (a + b) - 1) := by rw [two_zpow_add]; norm_num
    have hX := two_zpow_pos (cexp (a + b) - 1)
    have hlt : |a + b| < 2814749767106561 * 2^(cexp (a + b) - 1) := by
      calc |a + b| ≤ |a| + |roundQ (a + b) - a| + |(a + b) - roundQ (a + b)| := h1'
      _ < 562949953421312 * 2^(cexp (a + b) - 1) +
          2251799813685248 * 2^(cexp (a + b) - 1) + 2^(cexp (a + b) - 1) :=
        add_lt_add_of_lt_of_le (add_lt_add f1 f2) hr_half
      _ = 2814749767106561 * 2^(cexp (a + b) - 1) := by ring
    exact absurd ((mul_lt_mul_right hX).mp (lt_of_le_of_lt hmnorm hlt)) (by norm_num)
  constructor
  · -- Rep (s - v)
    rcases le_or_lt (cexp (roundQ (a + b) - a)) (cexp a + 1) with hct | hct
    · have hmul : Mul2 (roundQ (a + b) - roundQ (roundQ (a + b) - a)) (cexp a) :=
        ((roundQ_mul2 (a + b)).of_le hg_le_m).sub (hVmul.of_le hct_lb)
      apply mul2_rep hmul (cexp_ge a)
      have h1 : |(roundQ (a + b) - a) - roundQ (roundQ (a + b) - a)| ≤ 2^(cexp a) :=
        le_trans hTV_half (two_zpow_mono (sub_le_iff_le_add.mpr hct))
      rw [hsv_id]
      calc |a + ((roundQ (a + b) - a) - roundQ (roundQ (a + b) - a))|
          ≤ |a| + |(roundQ (a + b) - a) - roundQ (roundQ (a + b) - a)| := abs_add _ _
      _ ≤ (2^53 - 1) * 2^(cexp a) + 2^(cexp a) := add_le_add habc h1
      _ = 2^(53:ℤ) * 2^(cexp a) := by norm_num; ring
      _ = 2^(cexp a + 53) := by rw [two_zpow_add]; ring
    · have hmct := hm_ct_of (le_trans (le_of_eq (by ring)) (Int.add_one_le_iff.mpr hct))
      rcases le_or_lt (cexp (a + b)) (cexp (roundQ (a + b) - a)) with hmc | hmc
      · have hmul : Mul2 (roundQ (a + b) - roundQ (roundQ (a + b) - a))
            (cexp (a + b)) := (roundQ_mul2 (a + b)).sub (hVmul.of_le hmc)
        apply mul2_rep hmul (cexp_ge (a + b))
        have b1 : |a| ≤ 2^(cexp (a + b) + 52) :=
          le_of_lt (lt_of_lt_of_le (abs_lt_cexp53 a)
            (two_zpow_mono (le_trans (le_of_eq (by ring)) (add_le_add_right hm_lb 52))))
        have b2 : |(roundQ (a + b) - a) - roundQ (roundQ (a + b) - a)| ≤
            2^(cexp (a + b) + 52) :=
          le_trans (le_trans hTV_r hr_half)
            (two_zpow_mono (le_trans (sub_le_self _ (by norm_num))
              (le_add_of_nonneg_right (by norm_num))))
        rw [hsv_id]
        calc |a + ((roundQ (a + b) - a) - roundQ (roundQ (a + b) - a))|
            ≤ |a| + |(roundQ (a + b) - a) - roundQ (roundQ (a + b) - a)| := abs_add _ _
        _ ≤ 2^(cexp (a + b) + 52) + 2^(cexp (a + b) + 52) := add_le_add b1 b2
        _ = 2^(cexp (a + b) + 52 + 1) := by rw [two_zpow_succ]; ring
        _ ≤ 2^(cexp (a + b) + 53) := two_zpow_mono (add_pair_le (by norm_num))
      · have hmul : Mul2 (roundQ (a + b) - roundQ (roundQ (a + b) - a))
            (cexp (roundQ (a + b) - a)) :=
          ((roundQ_mul2 (a + b)).of_le (le_of_lt hmc)).sub hVmul
        apply mul2_rep hmul (cexp_ge _)
        have b1 : |a| ≤ 2^(cexp (roundQ (a + b) - a) + 51) :=
          le_of_lt (lt_of_lt_of_le (abs_lt_cexp53 a)
            (two_zpow_mono (le_trans (le_of_eq (by ring))
              (add_le_add_right (Int.add_one_le_iff.mpr hct) 51))))
        have b2 : |(roundQ (a + b) - a) - roundQ (roundQ (a + b) - a)| ≤
            2^(cexp (roundQ (a + b) - a) + 51) :=
          le_trans hTV_half (two_zpow_mono (le_trans (sub_le_self _ (by norm_num))
            (le_add_of_nonneg_right (by norm_num))))
        rw [hsv_id]
        calc |a + ((roundQ (a + b) - a) - roundQ (roundQ (a + b) - a))|
            ≤ |a| + |(roundQ (a + b) - a) - roundQ (roundQ (a + b) - a)| := abs_add _ _
        _ ≤ 2^(cexp (roundQ (a + b) - a) + 51) +
            2^(cexp (roundQ (a + b) - a) + 51) := add_le_add b1 b2
        _ = 2^(cexp (roundQ (a + b) - a) + 51 + 1) := by rw [two_zpow_succ]; ring
        _ ≤ 2^(cexp (roundQ (a + b) - a) + 53) := two_zpow_mono (add_pair_le (by norm_num))
  refine ⟨?_, ?_, ?_⟩
  · -- |s - v| ≤ maxFin
    rw [hsv_id]
    rcases le_or_lt (cexp (roundQ (a + b) - a)) (cexp a + 1) with hct | hct
    · have hSep : |a| + 2^(cexp a) ≤ |b| :=
        mul2_abs_sep (rep_mul2 ha) ((rep_mul2 hb).of_le hg) hab
      have h1 : |(roundQ (a + b) - a) - roundQ (roundQ (a + b) - a)| ≤ 2^(cexp a) :=
        le_trans hTV_half (two_zpow_mono (sub_le_iff_le_add.mpr hct))
      calc |a + ((roundQ (a + b) - a) - roundQ (roundQ (a + b) - a))|
          ≤ |a| + |(roundQ (a + b) - a) - roundQ (roundQ (a + b) - a)| := abs_add _ _
      _ ≤ |a| + 2^(cexp a) := add_le_add_left h1 _
      _ ≤ |b| := hSep
      _ ≤ maxFin := hbM
    · have h1 : |a| ≤ (2^53 - 1) * 2^(cexp (roundQ (a + b) - a) - 2) := by
        calc |a| ≤ (2^53 - 1) * 2^(cexp a) := habc
        _ ≤ (2^53 - 1) * 2^(cexp (roundQ (a + b) - a) - 2) :=
            mul_le_mul_of_nonneg_left
              (two_zpow_mono (le_sub_iff_add_le.mpr
                (le_trans (le_of_eq (by ring)) (Int.add_one_le_iff.mpr hct))))
              (by norm_num)
      have h2 : |(roundQ (a + b) - a) - roundQ (roundQ (a + b) - a)| ≤
          2 * 2^(cexp (roundQ (a + b) - a) - 2) := by
        calc |(roundQ (a + b) - a) - roundQ (roundQ (a + b) - a)|
            ≤ 2^(cexp (roundQ (a + b) - a) - 1) := hTV_half
        _ = 2 * 2^(cexp (roundQ (a + b) - a) - 2) := by
            rw [show cexp (roundQ (a + b) - a) - 1 =
                (cexp (roundQ (a + b) - a) - 2) + 1 by ring, two_zpow_succ]
      have h3 : (2:ℚ)^(cexp (roundQ (a + b) - a) - 2) ≤ 2^(970:ℤ) :=
        two_zpow_mono (sub_le_iff_le_add.mpr
          (le_trans hct_ub (le_trans (add_le_add_right hcb971 1) (le_of_eq (by norm_num)))))
      calc |a + ((roundQ (a + b) - a) - roundQ (roundQ (a + b) - a))|
          ≤ |a| + |(roundQ (a + b) - a) - roundQ (roundQ (a + b) - a)| := abs_add _ _
      _ ≤ (2^53 - 1) * 2^(cexp (roundQ (a + b) - a) - 2) +
          2 * 2^(cexp (roundQ (a + b) - a) - 2) := add_le_add h1 h2
      _ = (2^53 + 1) * 2^(cexp (roundQ (a + b) - a) - 2) := by ring
      _ ≤ (2^53 + 1) * 2^(970:ℤ) :=
          mul_le_mul_of_nonneg_left h3 (by norm_num)
      _ ≤ maxFin := mul_pow970_le_maxFin (by norm_num)
  · -- Rep (b - v)
    rcases le_or_lt (cexp (roundQ (a + b) - a)) (cexp a + 1) with hct | hct
    · have hmul : Mul2 (b - roundQ (roundQ (a + b) - a)) (cexp a) :=
        ((rep_mul2 hb).of_le hg).sub (hVmul.of_le hct_lb)
      apply mul2_rep hmul (cexp_ge a)
      have h1 : |(roundQ (a + b) - a) - roundQ (roundQ (a + b) - a)| ≤ 2^(cexp a) :=
        le_trans hTV_half (two_zpow_mono (sub_le_iff_le_add.mpr hct))
      have h2 : |(a + b) - roundQ (a + b)| ≤ (2^53 - 1) * 2^(cexp a) :=
        le_trans hrla habc
      rw [hbv_id]
      calc |((a + b) - roundQ (a + b)) +
            ((roundQ (a + b) - a) - roundQ (roundQ (a + b) - a))|
          ≤ |(a + b) - roundQ (a + b)| +
            |(roundQ (a + b) - a) - roundQ (roundQ (a + b) - a)| := abs_add _ _
      _ ≤ (2^53 - 1) * 2^(cexp a) + 2^(cexp a) := add_le_add h2 h1
      _ = 2^(53:ℤ) * 2^(cexp a) := by norm_num; ring
      _ = 2^(cexp a + 53) := by rw [two_zpow_add]; ring
    · have hmct := hm_ct_of (le_trans (le_of_eq (by ring)) (Int.add_one_le_iff.mpr hct))
      have hmul : Mul2 (b - roundQ (roundQ (a + b) - a))
          (cexp (roundQ (a + b) - a) - 1) :=
        ((rep_mul2 hb).of_le (sub_le_iff_le_add.mpr hct_ub)).sub
          (hVmul.of_le (sub_le_self _ (by norm_num)))
      apply mul2_rep hmul (by have := cexp_ge a; omega)
      have h1 : |(a + b) - roundQ (a + b)| ≤ 2^(cexp (roundQ (a + b) - a) + 1) :=
        le_trans hr_half (two_zpow_mono (sub_le_iff_le_add.mpr
          (le_trans hmct (le_of_eq (by ring)))))
      have h2 : |(roundQ (a + b) - a) - roundQ (roundQ (a + b) - a)| ≤
          2^(cexp (roundQ (a + b) - a) + 1) :=
        le_trans hTV_half (two_zpow_mono (le_trans (sub_le_self _ (by norm_num))
          (le_add_of_nonneg_right (by norm_num))))
      rw [hbv_id]
      calc |((a + b) - roundQ (a + b)) +
            ((roundQ (a + b) - a) - roundQ (roundQ (a + b) - a))|
          ≤ |(a + b) - roundQ (a + b)| +
            |(roundQ (a + b) - a) - roundQ (roundQ (a + b) - a)| := abs_add _ _
      _ ≤ 2^(cexp (roundQ (a + b) - a) + 1) +
          2^(cexp (roundQ (a + b) - a) + 1) := add_le_add h1 h2
      _ = 2 * 2^(cexp (roundQ (a + b) - a) + 1) := by ring
      _ = 2^(cexp (roundQ (a + b) - a) + 1 + 1) := (two_zpow_succ _).symm
      _ ≤ 2^(cexp (roundQ (a + b) - a) - 1 + 53) := two_zpow_mono
          (le_trans
            (le_of_eq (show cexp (roundQ (a + b) - a) + 1 + 1
              = cexp (roundQ (a + b) - a) - 1 + 3 by ring))
            (add_le_add_left (by norm_num) _))
  · -- |b - v| ≤ maxFin
    rw [hbv_id]
    have h1 : |(a + b) - roundQ (a + b)| ≤ 2^(971:ℤ) :=
      le_trans hr_half (two_zpow_mono (sub_le_iff_le_add.mpr
        (le_trans hm_ub (add_le_add_right hcb971 1))))
    have h2 : |(roundQ (a + b) - a) - roundQ (roundQ (a + b) - a)| ≤ 2^(971:ℤ) :=
      le_trans hTV_half (two_zpow_mono (sub_le_iff_le_add.mpr
        (le_trans hct_ub (add_le_add_right hcb971 1))))
    calc |((a + b) - roundQ (a + b)) +
          ((roundQ (a + b) - a) - roundQ (roundQ (a + b) - a))|
        ≤ |(a + b) - roundQ (a + b)| +
          |(roundQ (a + b) - a) - roundQ (roundQ (a + b) - a)| := abs_add _ _
    _ ≤ 2^(971:ℤ) + 2^(971:ℤ) := add_le_add h1 h2
    _ ≤ maxFin := by
        rw [← two_mul, ← two_zpow_succ]
        exact zpow_le_maxFin (by norm_num)

/-- Knuth's 2Sum kernel in full generality: for representable in-range `a`,
`b`, both virtual subtractions of `two_sum` are exact. -/
theorem knuth_core {a b : ℚ} (ha : Rep a) (hb : Rep b)
    (haM : |a| ≤ maxFin) (hbM : |b| ≤ maxFin) :
    Rep (roundQ (a + b) - roundQ (roundQ (a + b) - a)) ∧
    |roundQ (a + b) - roundQ (roundQ (a + b) - a)| ≤ maxFin ∧
    Rep (b - roundQ (roundQ (a + b) - a)) ∧
    |b - roundQ (roundQ (a + b) - a)| ≤ maxFin := by
  rcases le_or_lt |b| |a| with hba | hab
  · obtain ⟨hT, hTle⟩ := fast2sum_sub_exact ha hb hba
    have hveq : roundQ (roundQ (a + b) - a) = roundQ (a + b) - a :=
      roundQ_eq_self hT
    rw [hveq]
    have h1 : roundQ (a + b) - (roundQ (a + b) - a) = a := by ring
    have h2 : b - (roundQ (a + b) - a) = (a + b) - roundQ (a + b) := by ring
    rw [h1, h2]
    exact ⟨ha, haM, add_resid_rep ha hb, le_trans (resid_le_left ha) hbM⟩
  · by_cases hr : (a + b) - roundQ (a + b) = 0
    · have hs_eq : roundQ (a + b) = a + b := (sub_eq_zero.mp hr).symm
      have ht_eq : roundQ (a + b) - a = b := by rw [hs_eq]; ring
      rw [ht_eq, roundQ_eq_self hb]
      have h1 : roundQ (a + b) - b = a := by rw [hs_eq]; ring
      rw [h1, sub_self]
      exact ⟨ha, haM, rep_zero, by rw [abs_zero]; exact le_of_lt maxFin_pos⟩
    · exact knuth_hard ha hb hbM hab hr

/-! ### Data-level characterization of `two_sum` -/

/-- `fadd` on finite data, as an if-expression on exact values. -/
theorem fadd_data {s t : Bool} {p q : ℚ} (hne : ¬(p = 0 ∧ q = 0))
    (hov : |roundQ (p + q)| ≤ maxFin) :
    fadd (.fin s p) (.fin t q) =
      if p + q = 0 then .fin false 0
      else .fin (decide (p + q < 0)) (roundQ (p + q)) := by
  by_cases h0 : p + q = 0
  · rw [if_pos h0]
    simp [fadd, h0, hne]
  · rw [if_neg h0, fadd_fin h0, roundF_eval hov]

/-- `fsub` on finite data, as an if-expression on exact values. -/
theorem fsub_data {s t : Bool} {p q : ℚ} (hne : ¬(p = 0 ∧ q = 0))
    (hov : |roundQ (p - q)| ≤ maxFin) :
    fsub (.fin s p) (.fin t q) =
      if p - q = 0 then .fin false 0
      else .fin (decide (p - q < 0)) (roundQ (p - q)) := by
  have hgoal : fsub (.fin s p) (.fin t q) = fadd (.fin s p) (.fin (!t) (-q)) := rfl
  have hne2 : ¬(p = 0 ∧ -q = 0) := by
    intro h
    exact hne ⟨h.1, neg_eq_zero.mp h.2⟩
  rw [hgoal, fadd_data hne2 (by rw [← sub_eq_add_neg]; exact hov), ← sub_eq_add_neg]

/-- The `two_sum` error word is the canonical float of the exact residual
`(a+b) - round(a+b)`; in particular it is `+0` whenever the rounded sum is
exact.  The hypotheses say that neither the rounded sum nor the intermediate
`round(s - a)` overflows. -/
theorem two_sum_lo_data {x y : F64} (hx : WF x) (hy : WF y)
    (hfx : IsFinite x) (hfy : IsFinite y)
    (hov1 : |roundQ (val x + val y)| ≤ maxFin)
    (hov2 : |roundQ (roundQ (val x + val y) - val x)| ≤ maxFin) :
    (two_sum x y).lo =
      if (val x + val y) - roundQ (val x + val y) = 0 then .fin false 0
      else .fin (decide ((val x + val y) - roundQ (val x + val y) < 0))
             ((val x + val y) - roundQ (val x + val y)) := by
  obtain ⟨sx, p, hxe⟩ := isFinite_data hfx
  obtain ⟨sy, q, hye⟩ := isFinite_data hfy
  subst hxe
  subst hye
  simp only [val] at hov1 hov2 ⊢
  obtain ⟨hp_rep, hp_le, hp_sign⟩ := hx
  obtain ⟨hq_rep, hq_le, hq_sign⟩ := hy
  by_cases hp : p = 0
  · subst hp
    by_cases hq : q = 0
    · subst hq
      have hcond : ((0:ℚ) + 0) - roundQ (0 + 0) = 0 := by
        rw [add_zero, roundQ_zero]
        ring
      rw [if_pos hcond, two_sum_def]
      dsimp only
      simp only [fsub, fneg, neg_zero, fadd_zero_sign]
      cases sx <;> cases sy <;> rfl
    · have hsy := hq_sign hq
      have hcond : ((0:ℚ) + q) - roundQ (0 + q) = 0 := by
        rw [zero_add, roundQ_eq_self hq_rep]
        ring
      rw [if_pos hcond]
      have hs : fadd (F64.fin sx 0) (F64.fin sy q) = F64.fin sy q := by
        rw [fadd_fin (by rw [zero_add]; exact hq), zero_add,
           roundF_exact hq_rep hq_le, ← hsy]
      have hv : fsub (F64.fin sy q) (F64.fin sx 0) = F64.fin sy q := by
        have h2 : fsub (F64.fin sy q) (F64.fin sx 0)
            = fadd (F64.fin sy q) (F64.fin (!sx) (-0)) := rfl
        rw [h2, neg_zero, fadd_fin (by rw [add_zero]; exact hq), add_zero,
           roundF_exact hq_rep hq_le, ← hsy]
      have hw : fsub (F64.fin sy q) (F64.fin sy q) = F64.fin false 0 :=
        fsub_cancel (sub_self q) hq
      have hd1 : fsub (F64.fin sx 0) (F64.fin false 0) = F64.fin sx 0 := by
        have h2 : fsub (F64.fin sx 0) (F64.fin false 0)
            = fadd (F64.fin sx 0) (F64.fin true (-0)) := rfl
        rw [h2, neg_zero, fadd_zero_sign, Bool.and_true]
      rw [two_sum_def]
      dsimp only
      rw [hs, hv, hw, hd1, fadd_zero_sign, Bool.and_false]
  · by_cases hq : q = 0
    · have hsx := hp_sign hp
      subst hq
      have hcond : (p + (0:ℚ)) - roundQ (p + 0) = 0 := by
        rw [add_zero, roundQ_eq_self hp_rep]
        ring
      rw [if_pos hcond]
      have hs : fadd (F64.fin sx p) (F64.fin sy 0) = F64.fin sx p := by
        rw [fadd_fin (by rw [add_zero]; exact hp), add_zero,
           roundF_exact hp_rep hp_le, ← hsx]
      have hv : fsub (F64.fin sx p) (F64.fin sx p) = F64.fin false 0 :=
        fsub_cancel (sub_self p) hp
      have hw : fsub (F64.fin sx p) (F64.fin false 0) = F64.fin sx p := by
        have h2 : fsub (F64.fin sx p) (F64.fin false 0)
            = fadd (F64.fin sx p) (F64.fin true (-0)) := rfl
        rw [h2, neg_zero, fadd_fin (by rw [add_zero]; exact hp), add_zero,
           roundF_exact hp_rep hp_le, ← hsx]
      have hd2 : fsub (F64.fin sy 0) (F64.fin false 0) = F64.fin sy 0 := by
        have h2 : fsub (F64.fin sy 0) (F64.fin false 0)
            = fadd (F64.fin sy 0) (F64.fin true (-0)) := rfl
        rw [h2, neg_zero, fadd_zero_sign, Bool.and_true]
      rw [two_sum_def]
      dsimp only
      rw [hs, hv, hw, hv, hd2, fadd_zero_sign, Bool.false_and]
    · -- both operands nonzero: the interesting case
      by_cases hr0 : (p + q) - roundQ (p + q) = 0
      · rw [if_pos hr0]
        have hspq : roundQ (p + q) = p + q := (sub_eq_zero.mp hr0).symm
        by_cases hpq0 : p + q = 0
        · have hs : fadd (F64.fin sx p) (F64.fin sy q) = F64.fin false 0 :=
            fadd_cancel hpq0 hp
          have hv : fsub (F64.fin false (0:ℚ)) (F64.fin sx p)
              = F64.fin (decide (-p < 0)) (-p) := by
            rw [fsub_fin (by rw [zero_sub]; exact neg_ne_zero.mpr hp), zero_sub,
               roundF_exact (rep_neg hp_rep) (by rw [abs_neg]; exact hp_le)]
          have hw : fsub (F64.fin false (0:ℚ)) (F64.fin (decide (-p < 0)) (-p))
              = F64.fin (decide (p < 0)) p := by
            rw [fsub_fin (by rw [zero_sub, neg_neg]; exact hp),
               show (0:ℚ) - -p = p by ring, roundF_exact hp_rep hp_le]
          have hd1 : fsub (F64.fin sx p) (F64.fin (decide (p < 0)) p)
              = F64.fin false 0 := fsub_cancel (sub_self p) hp
          have hd2 : fsub (F64.fin sy q) (F64.fin (decide (-p < 0)) (-p))
              = F64.fin false 0 := by
            have h2 : fsub (F64.fin sy q) (F64.fin (decide (-p < 0)) (-p))
                = fadd (F64.fin sy q) (F64.fin (!decide (-p < 0)) (- -p)) := rfl
            rw [h2, neg_neg]
            exact fadd_cancel (by rw [add_comm]; exact hpq0) hq
          rw [two_sum_def]
          dsimp only
          rw [hs, hv, hw, hd1, hd2, fadd_zero_sign, Bool.and_false]
        · have hreppq : Rep (p + q) := by
            rw [← hspq]
            exact roundQ_rep _
          have hlepq : |p + q| ≤ maxFin := by
            rw [← hspq]
            exact hov1
          have hs : fadd (F64.fin sx p) (F64.fin sy q)
              = F64.fin (decide (p + q < 0)) (p + q) := by
            rw [fadd_fin hpq0, roundF_exact hreppq hlepq]
          have hv : fsub (F64.fin (decide (p + q < 0)) (p + q)) (F64.fin sx p)
              = F64.fin (decide (q < 0)) q := by
            rw [fsub_fin (by rw [show p + q - p = q by ring]; exact hq),
               show p + q - p = q by ring, roundF_exact hq_rep hq_le]
          have hw : fsub (F64.fin (decide (p + q < 0)) (p + q))
              (F64.fin (decide (q < 0)) q) = F64.fin (decide (p < 0)) p := by
            rw [fsub_fin (by rw [show p + q - q = p by ring]; exact hp),
               show p + q - q = p by ring, roundF_exact hp_rep hp_le]
          have hd1 : fsub (F64.fin sx p) (F64.fin (decide (p < 0)) p)
              = F64.fin false 0 := fsub_cancel (sub_self p) hp
          have hd2 : fsub (F64.fin sy q) (F64.fin (decide (q < 0)) q)
              = F64.fin false 0 := fsub_cancel (sub_self q) hq
          rw [two_sum_def]
          dsimp only
          rw [hs, hv, hw, hd1, hd2, fadd_zero_sign, Bool.and_false]
      · rw [if_neg hr0]
        have hpq0 : p + q ≠ 0 := by
          intro h
          apply hr0
          rw [h, roundQ_zero, sub_zero]
        have hS0 : roundQ (p + q) ≠ 0 :=
          roundQ_ne_zero ((rep_mul2_bot hp_rep).add (rep_mul2_bot hq_rep)) hpq0
        obtain ⟨hsvR, hsvM, hbvR, hbvM⟩ := knuth_core hp_rep hq_rep hp_le hq_le
        have hrla2 : |(p + q) - roundQ (p + q)| ≤ |p| := by
          have h1 : |(q + p) - roundQ (q + p)| ≤ |p| := resid_le_left hq_rep
          rwa [add_comm q p] at h1
        have hTVr : |(roundQ (p + q) - p) - roundQ (roundQ (p + q) - p)| ≤
            |(p + q) - roundQ (p + q)| := by
          have h1 : |(roundQ (p + q) - p) - roundQ (roundQ (p + q) - p)| ≤
              |(roundQ (p + q) - p) - q| := roundQ_min hq_rep
          have h2 : (roundQ (p + q) - p) - q = -((p + q) - roundQ (p + q)) := by ring
          rwa [h2, abs_neg] at h1
        have hd1_rep : Rep (p - (roundQ (p + q) - roundQ (roundQ (p + q) - p))) := by
          have hid : p - (roundQ (p + q) - roundQ (roundQ (p + q) - p)) =
              -((roundQ (p + q) - p) - roundQ (roundQ (p + q) - p)) := by ring
          rw [hid]
          apply rep_neg
          have h1 := add_resid_rep (roundQ_rep (p + q)) (rep_neg hp_rep)
          rwa [← sub_eq_add_neg] at h1
        have hd1_le : |p - (roundQ (p + q) - roundQ (roundQ (p + q) - p))| ≤ maxFin := by
          have hid : p - (roundQ (p + q) - roundQ (roundQ (p + q) - p)) =
              -((roundQ (p + q) - p) - roundQ (roundQ (p + q) - p)) := by ring
          rw [hid, abs_neg]
          exact le_trans hTVr (le_trans hrla2 hp_le)
        -- the computed data, step by step
        have hs : fadd (F64.fin sx p) (F64.fin sy q)
            = F64.fin (decide (p + q < 0)) (roundQ (p + q)) := by
          rw [fadd_fin hpq0, roundF_eval hov1]
        obtain ⟨sv, hv⟩ : ∃ sv, fsub (F64.fin (decide (p + q < 0)) (roundQ (p + q)))
            (F64.fin sx p) = F64.fin sv (roundQ (roundQ (p + q) - p)) := by
          rw [fsub_data (fun h => hS0 h.1) hov2]
          by_cases hT0 : roundQ (p + q) - p = 0
          · rw [if_pos hT0, hT0, roundQ_zero]
            exact ⟨false, rfl⟩
          · rw [if_neg hT0]
            exact ⟨_, rfl⟩
        obtain ⟨sw, hw⟩ : ∃ sw, fsub (F64.fin (decide (p + q < 0)) (roundQ (p + q)))
            (F64.fin sv (roundQ (roundQ (p + q) - p)))
            = F64.fin sw (roundQ (p + q) - roundQ (roundQ (p + q) - p)) := by
          rw [fsub_data (fun h => hS0 h.1)
            (by rw [roundQ_eq_self hsvR]; exact hsvM)]
          by_cases h0 : roundQ (p + q) - roundQ (roundQ (p + q) - p) = 0
          · rw [if_pos h0]
            exact ⟨false, by rw [h0]⟩
          · rw [if_neg h0, roundQ_eq_self hsvR]
            exact ⟨_, rfl⟩
        obtain ⟨s1, hd1⟩ : ∃ s1, fsub (F64.fin sx p)
            (F64.fin sw (roundQ (p + q) - roundQ (roundQ (p + q) - p)))
            = F64.fin s1 (p - (roundQ (p + q) - roundQ (roundQ (p + q) - p))) := by
          rw [fsub_data (fun h => hp h.1)
            (by rw [roundQ_eq_self hd1_rep]; exact hd1_le)]
          by_cases h0 : p - (roundQ (p + q) - roundQ (roundQ (p + q) - p)) = 0
          · rw [if_pos h0]
            exact ⟨false, by rw [h0]⟩
          · rw [if_neg h0, roundQ_eq_self hd1_rep]
            exact ⟨_, rfl⟩
        obtain ⟨s2, hd2⟩ : ∃ s2, fsub (F64.fin sy q)
            (F64.fin sv (roundQ (roundQ (p + q) - p)))
            = F64.fin s2 (q - roundQ (roundQ (p + q) - p)) := by
          rw [fsub_data (fun h => hq h.1)
            (by rw [roundQ_eq_self hbvR]; exact hbvM)]
          by_cases h0 : q - roundQ (roundQ (p + q) - p) = 0
          · rw [if_pos h0]
            exact ⟨false, by rw [h0]⟩
          · rw [if_neg h0, roundQ_eq_self hbvR]
            exact ⟨_, rfl⟩
        rw [two_sum_def]
        dsimp only
        rw [hs, hv, hw, hd1, hd2]
        have hsum : (p - (roundQ (p + q) - roundQ (roundQ (p + q) - p))) +
            (q - roundQ (roundQ (p + q) - p)) = (p + q) - roundQ (p + q) := by ring
        rw [fadd_data (by intro h; apply hr0; rw [← hsum, h.1, h.2]; ring)
          (by rw [hsum, roundQ_eq_self (add_resid_rep hp_rep hq_rep)]
              exact le_trans hrla2 hp_le), hsum, if_neg hr0,
          roundQ_eq_self (add_resid_rep hp_rep hq_rep)]

/-- Value-level exactness of `two_sum`. -/
theorem two_sum_val {x y : F64} (hx : WF x) (hy : WF y)
    (hfx : IsFinite x) (hfy : IsFinite y)
    (hov1 : |roundQ (val x + val y)| ≤ maxFin)
    (hov2 : |roundQ (roundQ (val x + val y) - val x)| ≤ maxFin) :
    IsFinite (two_sum x y).hi ∧ IsFinite (two_sum x y).lo ∧
    val (two_sum x y).hi = roundQ (val x + val y) ∧
    val (two_sum x y).hi + val (two_sum x y).lo = val x + val y := by
  obtain ⟨hsfin, hsval⟩ := val_fadd_round hfx hfy hov1
  have hhi : (two_sum x y).hi = fadd x y := rfl
  have hlo := two_sum_lo_data hx hy hfx hfy hov1 hov2
  rw [hhi, hlo]
  refine ⟨hsfin, ?_, hsval, ?_⟩
  · split_ifs <;> trivial
  · rw [hsval]
    split_ifs with h
    · show roundQ (val x + val y) + 0 = val x + val y
      rw [add_zero]
      exact (sub_eq_zero.mp h).symm
    · show roundQ (val x + val y) +
        (val x + val y - roundQ (val x + val y)) = val x + val y
      ring

/-! ### Claim C7: the `quick_two_sum` contract -/

theorem wf_rep {x : F64} (hx : WF x) (hfx : IsFinite x) :
    Rep (val x) ∧ |val x| ≤ maxFin := by
  rcases x with ⟨s, q⟩ | s | _
  · exact ⟨hx.1, hx.2.1⟩
  · simp [IsFinite] at hfx
  · simp [IsFinite] at hfx

/-- Fast2Sum at the datatype level: with `|b| ≤ |a|` and no overflow,
`quick_two_sum` returns the rounded sum and the exact residual. -/
theorem quick_two_sum_spec {x y : F64} (hx : WF x) (hy : WF y)
    (hfx : IsFinite x) (hfy : IsFinite y) (hab : |val y| ≤ |val x|)
    (hov : |roundQ (val x + val y)| ≤ maxFin) :
    IsFinite (quick_two_sum x y).hi ∧ IsFinite (quick_two_sum x y).lo ∧
    val (quick_two_sum x y).hi = roundQ (val x + val y) ∧
    val (quick_two_sum x y).hi + val (quick_two_sum x y).lo = val x + val y := by
  obtain ⟨ha, hax⟩ := wf_rep hx hfx
  obtain ⟨hb, hbx⟩ := wf_rep hy hfy
  rw [quick_two_sum_def]
  obtain ⟨hsfin, hsval⟩ := val_fadd_round hfx hfy hov
  obtain ⟨hL1, hL2⟩ := fast2sum_sub_exact ha hb hab
  have hurep : Rep (val (fadd x y) - val x) := by rw [hsval]; exact hL1
  have hubnd : |val (fadd x y) - val x| ≤ maxFin := by
    rw [hsval]
    exact le_trans hL2 hax
  obtain ⟨hufin, huval⟩ := val_fsub_exact hsfin hfx hurep hubnd
  have hrrep : Rep (val y - val (fsub (fadd x y) x)) := by
    rw [huval, hsval, show val y - (roundQ (val x + val y) - val x)
        = (val x + val y) - roundQ (val x + val y) by ring]
    exact add_resid_rep ha hb
  have hrbnd : |val y - val (fsub (fadd x y) x)| ≤ maxFin := by
    rw [huval, hsval, show val y - (roundQ (val x + val y) - val x)
        = (val x + val y) - roundQ (val x + val y) by ring]
    exact le_trans (resid_le_left ha) hbx
  obtain ⟨hefin, heval⟩ := val_fsub_exact hfy hufin hrrep hrbnd
  refine ⟨hsfin, hefin, hsval, ?_⟩
  rw [heval, huval, hsval]
  ring

/-- C7 counterexample: on finite inputs violating the precondition
(`|a| < |b|`, here `a = 2^1023`, `b = maxFin`), `quick_two_sum` does *not*
return finite values: it returns `(+inf, -inf)`. -/
theorem claim_C7_counterexample :
    |val (F64.fin false ((2:ℚ)^(1023:ℤ)))| < |val (F64.fin false maxFin)| ∧
    quick_two_sum (F64.fin false ((2:ℚ)^(1023:ℤ))) (F64.fin false maxFin)
      = ⟨F64.inf false, F64.inf true⟩ := by
  constructor
  · simp only [val]
    rw [abs_of_pos (two_zpow_pos _), abs_of_pos maxFin_pos]
    exact pow1023_lt_maxFin
  · rw [quick_two_sum_def]
    have he23 : (2:ℚ)^(1023:ℤ) = 2^52 * 2^(971:ℤ) := by
      rw [show ((1023:ℤ)) = 52 + 971 by norm_num, two_zpow_add]
      norm_num
    have hsum : (2:ℚ)^(1023:ℤ) + maxFin = 3 * 2^(1023:ℤ) - 2^(971:ℤ) := by
      rw [he23, maxFin_eq]
      ring
    have hround : roundQ ((2:ℚ)^(1023:ℤ) + maxFin) = 3 * 2^(1023:ℤ) := by
      rw [hsum]
      have hqeq : (3 * 2^(1023:ℤ) - 2^(971:ℤ) : ℚ) = (3 * 2^52 - 1) * 2^(971:ℤ) := by
        rw [he23]
        ring
      have hdiv : ((3 * 2^(1023:ℤ) - 2^(971:ℤ)) / 2^(972:ℤ) : ℚ) = 3 * 2^51 - 1/2 := by
        rw [div_eq_iff (two_zpow_ne_zero _), hqeq,
          show ((972:ℤ)) = 971 + 1 by norm_num, two_zpow_succ]
        ring
      have hqpos : (0:ℚ) < (3 * 2^52 - 1) * 2^(971:ℤ) :=
        mul_pos (by norm_num) (two_zpow_pos _)
      have h := roundQ_eval_tie (q := 3 * 2^(1023:ℤ) - 2^(971:ℤ)) 1025 (3 * 2^51)
        (by rw [hqeq, abs_of_pos hqpos,
              show ((1025:ℤ)) - 1 = 53 + 971 by norm_num, two_zpow_add]
            exact mul_le_mul_of_nonneg_right (by norm_num) (le_of_lt (two_zpow_pos _)))
        (by rw [hqeq, abs_of_pos hqpos,
              show ((1025:ℤ)) = 54 + 971 by norm_num, two_zpow_add]
            exact mul_lt_mul_of_pos_right (by norm_num) (two_zpow_pos _))
        (by norm_num)
        (by rw [show ((1025:ℤ) - 53) = (972:ℤ) by norm_num, hdiv,
              show (3:ℚ) * 2^51 - 1/2 - ((3 * 2^51 : ℤ):ℚ) = -(1/2) by push_cast; ring,
              abs_neg, abs_of_pos (by norm_num : (0:ℚ) < 1/2)])
        (by norm_num)
      rw [h, he23]
      push_cast
      ring
    have hs : fadd (F64.fin false ((2:ℚ)^(1023:ℤ))) (F64.fin false maxFin)
        = F64.inf false := by
      rw [fadd_fin (ne_of_gt (add_pos (two_zpow_pos _) maxFin_pos))]
      unfold roundF
      rw [if_pos (by
        rw [hround, abs_of_pos (mul_pos (by norm_num) (two_zpow_pos _))]
        refine lt_of_lt_of_le maxFin_lt_pow1024 ?_
        rw [show ((1024:ℤ)) = 1023 + 1 by norm_num, two_zpow_succ]
        exact mul_le_mul_of_nonneg_right (by norm_num) (le_of_lt (two_zpow_pos _)))]
      have : ¬ ((2:ℚ)^(1023:ℤ) + maxFin < 0) :=
        not_lt.mpr (le_of_lt (add_pos (two_zpow_pos _) maxFin_pos))
      simp [this]
    rw [hs]
    have hu : fsub (F64.inf false) (F64.fin false ((2:ℚ)^(1023:ℤ)))
        = F64.inf false := by
      simp [fsub, fneg, fadd]
    rw [hu]
    have he : fsub (F64.fin false maxFin) (F64.inf false) = F64.inf true := by
      simp [fsub, fneg, fadd]
    rw [he]

/-- C7 (amended): for finite `a`, `b` with `|a| ≥ |b|` and no overflow of the
rounded sum, `quick_two_sum` returns `s = round(a+b)` together with the exact
residual, so that `s + e = a + b` in exact arithmetic; the function is total
on all inputs, but on precondition-violating inputs the results may be
non-finite and the residual wrong. -/
theorem claim_C7_quick_two_sum (x y : F64) (hx : WF x) (hy : WF y)
    (hfx : IsFinite x) (hfy : IsFinite y) (hab : |val y| ≤ |val x|)
    (hov : |roundQ (val x + val y)| ≤ maxFin) :
    val (quick_two_sum x y).hi = roundQ (val x + val y) ∧
    val (quick_two_sum x y).hi + val (quick_two_sum x y).lo = val x + val y ∧
    IsFinite (quick_two_sum x y).hi ∧ IsFinite (quick_two_sum x y).lo := by
  obtain ⟨h1, h2, h3, h4⟩ := quick_two_sum_spec hx hy hfx hfy hab hov
  exact ⟨h3, h4, h1, h2⟩

/-- C7 witness: the amended contract applied at `a = 1`, `b = 1e-16`. -/
theorem claim_C7_witness :
    |val (F64.fin false d16)| ≤ |val (F64.fin false 1)| ∧
    val (quick_two_sum (F64.fin false 1) (F64.fin false d16)).hi
        + val (quick_two_sum (F64.fin false 1) (F64.fin false d16)).lo
      = 1 + d16 := by
  have hwf1 : WF (F64.fin false 1) := ⟨rep_one, abs_one_le, by intro h; norm_num⟩
  have hwfd : WF (F64.fin false d16) :=
    ⟨rep_d16, abs_d16_le, by intro h; simp [not_lt.mpr (le_of_lt d16_pos)]⟩
  have habs : |val (F64.fin false d16)| ≤ |val (F64.fin false 1)| := by
    simp only [val]
    rw [abs_of_pos d16_pos]
    norm_num [d16]
  refine ⟨habs, ?_⟩
  have h := claim_C7_quick_two_sum (F64.fin false 1) (F64.fin false d16)
    hwf1 hwfd trivial trivial habs
    (by simp only [val]; rw [round_one_add_d16]; exact abs_one_le)
  exact h.2.1

/-! ### Claim C1: exactness of `two_sum` -/

theorem big_sum_eq : -((2^53 - 5) * 2^(970:ℤ)) + maxFin = (2^53 + 3) * 2^(970:ℤ) := by
  rw [maxFin_eq']
  ring

theorem big_sum_pos : 0 < -((2^53 - 5) * 2^(970:ℤ)) + maxFin := by
  rw [big_sum_eq]
  exact mul_pos (by norm_num) (two_zpow_pos _)

theorem round_big :
    roundQ (-((2^53 - 5) * 2^(970:ℤ)) + maxFin) = (2^52 + 2) * 2^(971:ℤ) := by
  have hqeq : -((2^53 - 5) * 2^(970:ℤ)) + maxFin = (2^53 + 3) * 2^(970:ℤ) := big_sum_eq
  have hdiv : (-((2^53 - 5) * 2^(970:ℤ)) + maxFin) / 2^(971:ℤ) = 2^52 + 3/2 := by
    rw [div_eq_iff (two_zpow_ne_zero _), hqeq,
      show ((971:ℤ)) = 970 + 1 by norm_num, two_zpow_succ]
    ring
  have h := roundQ_eval_tie (q := -((2^53 - 5) * 2^(970:ℤ)) + maxFin) 1024 (2^52 + 2)
    (by rw [hqeq, abs_of_pos (mul_pos (by norm_num) (two_zpow_pos _)),
          show ((1024:ℤ)) - 1 = 53 + 970 by norm_num, two_zpow_add]
        exact mul_le_mul_of_nonneg_right (by norm_num) (le_of_lt (two_zpow_pos _)))
    (by rw [hqeq, abs_of_pos (mul_pos (by norm_num) (two_zpow_pos _)),
          show ((1024:ℤ)) = 54 + 970 by norm_num, two_zpow_add]
        exact mul_lt_mul_of_pos_right (by norm_num) (two_zpow_pos _))
    (by norm_num)
    (by rw [show ((1024:ℤ) - 53) = (971:ℤ) by norm_num, hdiv,
          show (2:ℚ)^52 + 3/2 - ((2^52 + 2 : ℤ):ℚ) = -(1/2) by push_cast; ring,
          abs_neg, abs_of_pos (by norm_num : (0:ℚ) < 1/2)])
    (by norm_num)
  rw [h]
  push_cast
  norm_num

theorem round_big2 :
    roundQ ((2^52 + 2) * 2^(971:ℤ) - -((2^53 - 5) * 2^(970:ℤ))) = 2^(1024:ℤ) := by
  have hqeq : ((2^52 + 2) * 2^(971:ℤ) - -((2^53 - 5) * 2^(970:ℤ)) : ℚ)
      = (2^54 - 1) * 2^(970:ℤ) := by
    rw [show ((971:ℤ)) = 970 + 1 by norm_num, two_zpow_succ]
    ring
  have hdiv : (((2^52 + 2) * 2^(971:ℤ) - -((2^53 - 5) * 2^(970:ℤ))) / 2^(971:ℤ) : ℚ)
      = 2^53 - 1/2 := by
    rw [div_eq_iff (two_zpow_ne_zero _), hqeq,
      show ((971:ℤ)) = 970 + 1 by norm_num, two_zpow_succ]
    ring
  have h := roundQ_eval_tie
    (q := (2^52 + 2) * 2^(971:ℤ) - -((2^53 - 5) * 2^(970:ℤ))) 1024 (2^53)
    (by rw [hqeq, abs_of_pos (mul_pos (by norm_num) (two_zpow_pos _)),
          show ((1024:ℤ)) - 1 = 53 + 970 by norm_num, two_zpow_add]
        exact mul_le_mul_of_nonneg_right (by norm_num) (le_of_lt (two_zpow_pos _)))
    (by rw [hqeq, abs_of_pos (mul_pos (by norm_num) (two_zpow_pos _)),
          show ((1024:ℤ)) = 54 + 970 by norm_num, two_zpow_add]
        exact mul_lt_mul_of_pos_right (by norm_num) (two_zpow_pos _))
    (by norm_num)
    (by rw [show ((1024:ℤ) - 53) = (971:ℤ) by norm_num, hdiv,
          show (2:ℚ)^53 - 1/2 - ((2^53 : ℤ):ℚ) = -(1/2) by push_cast; ring,
          abs_neg, abs_of_pos (by norm_num : (0:ℚ) < 1/2)])
    (by norm_num)
  rw [h]
  push_cast
  norm_num

/-- `two_sum` at `a = -(2^53-5)*2^970`, `b = DBL_MAX`: the rounded sum is
finite, but the intermediate `s - a` overflows and the error word is NaN. -/
theorem two_sum_big_eval :
    two_sum (F64.fin true (-((2^53 - 5) * 2^(970:ℤ)))) (F64.fin false maxFin)
      = ⟨F64.fin false ((2^52 + 2) * 2^(971:ℤ)), F64.nan⟩ := by
  have hs : fadd (F64.fin true (-((2^53 - 5) * 2^(970:ℤ)))) (F64.fin false maxFin)
      = F64.fin false ((2^52 + 2) * 2^(971:ℤ)) :=
    fadd_eval_pos big_sum_pos round_big
      (by rw [abs_of_pos (mul_pos (by norm_num) (two_zpow_pos _))]
          exact mul_pow971_le_maxFin (by norm_num))
  have hv : fsub (F64.fin false ((2^52 + 2) * 2^(971:ℤ)))
      (F64.fin true (-((2^53 - 5) * 2^(970:ℤ)))) = F64.inf false := by
    have hvpos : (0:ℚ) < (2^52 + 2) * 2^(971:ℤ) - -((2^53 - 5) * 2^(970:ℤ)) := by
      rw [sub_neg_eq_add]
      exact add_pos (mul_pos (by norm_num) (two_zpow_pos _))
        (mul_pos (by norm_num) (two_zpow_pos _))
    rw [fsub_fin (ne_of_gt hvpos)]
    unfold roundF
    rw [if_pos (by rw [round_big2, abs_of_pos (two_zpow_pos _)]; exact maxFin_lt_pow1024)]
    rw [decide_eq_false (not_lt.mpr (le_of_lt hvpos))]
  have hw2 : fsub (F64.fin false ((2^52 + 2) * 2^(971:ℤ))) (F64.inf false)
      = F64.inf true := by simp [fsub, fneg, fadd]
  have hd1 : fsub (F64.fin true (-((2^53 - 5) * 2^(970:ℤ)))) (F64.inf true)
      = F64.inf false := by simp [fsub, fneg, fadd]
  have hd2 : fsub (F64.fin false maxFin) (F64.inf false) = F64.inf true := by
    simp [fsub, fneg, fadd]
  have herr : fadd (F64.inf false) (F64.inf true) = F64.nan := by simp [fadd]
  rw [two_sum_def, hs, hv, hw2, hd1, hd2, herr]

/-- Same operands in the other order: all intermediates stay finite and the
error word is the exact residual `-2^970`. -/
theorem two_sum_big_eval_swap :
    two_sum (F64.fin false maxFin) (F64.fin true (-((2^53 - 5) * 2^(970:ℤ))))
      = ⟨F64.fin false ((2^52 + 2) * 2^(971:ℤ)), F64.fin true (-(2^(970:ℤ)))⟩ := by
  have hrep6 : Rep ((2^53 - 6) * 2^(970:ℤ)) :=
    ⟨2^53 - 6, 970, by norm_num, by norm_num, by push_cast; ring⟩
  have hrep1 : Rep ((2:ℚ)^(970:ℤ)) := rep_two_zpow (by norm_num)
  have hs : fadd (F64.fin false maxFin) (F64.fin true (-((2^53 - 5) * 2^(970:ℤ))))
      = F64.fin false ((2^52 + 2) * 2^(971:ℤ)) :=
    fadd_eval_pos (by rw [add_comm]; exact big_sum_pos)
      (by rw [show maxFin + -(((2:ℚ)^53 - 5) * 2^(970:ℤ))
            = -((2^53 - 5) * 2^(970:ℤ)) + maxFin by ring]
          exact round_big)
      (by rw [abs_of_pos (mul_pos (by norm_num) (two_zpow_pos _))]
          exact mul_pow971_le_maxFin (by norm_num))
  have hv : fsub (F64.fin false ((2^52 + 2) * 2^(971:ℤ))) (F64.fin false maxFin)
      = F64.fin true (-((2^53 - 6) * 2^(970:ℤ))) :=
    fsub_eval_neg
      (by rw [maxFin_eq, sub_neg]
          exact mul_lt_mul_of_pos_right (by norm_num) (two_zpow_pos _))
      (by rw [show (2^52 + 2) * 2^(971:ℤ) - maxFin
            = -((2^53 - 6) * 2^(970:ℤ)) by
              rw [maxFin_eq', show ((971:ℤ)) = 970 + 1 by norm_num, two_zpow_succ]
              ring]
          exact roundQ_eq_self (rep_neg hrep6))
      (by rw [abs_neg, abs_of_pos (mul_pos (by norm_num) (two_zpow_pos _))]
          exact mul_pow970_le_maxFin (by norm_num))
  have hw : fsub (F64.fin false ((2^52 + 2) * 2^(971:ℤ)))
      (F64.fin true (-((2^53 - 6) * 2^(970:ℤ)))) = F64.fin false maxFin :=
    fsub_eval_pos
      (by rw [sub_neg_eq_add]
          exact add_pos (mul_pos (by norm_num) (two_zpow_pos _))
            (mul_pos (by norm_num) (two_zpow_pos _)))
      (by rw [show (2^52 + 2) * 2^(971:ℤ) - -((2^53 - 6) * 2^(970:ℤ))
            = maxFin by
              rw [maxFin_eq', show ((971:ℤ)) = 970 + 1 by norm_num, two_zpow_succ]
              ring]
          exact roundQ_eq_self rep_maxFin)
      (by rw [abs_of_pos maxFin_pos])
  have hd1 : fsub (F64.fin false maxFin) (F64.fin false maxFin) = F64.fin false 0 :=
    fsub_cancel (sub_self maxFin) (ne_of_gt maxFin_pos)
  have hd2 : fsub (F64.fin true (-((2^53 - 5) * 2^(970:ℤ))))
      (F64.fin true (-((2^53 - 6) * 2^(970:ℤ)))) = F64.fin true (-(2^(970:ℤ))) :=
    fsub_eval_neg
      (by rw [show -(((2:ℚ)^53 - 5) * 2^(970:ℤ)) - -((2^53 - 6) * 2^(970:ℤ))
            = -(2^(970:ℤ)) by ring]
          exact neg_lt_zero.mpr (two_zpow_pos _))
      (by rw [show -(((2:ℚ)^53 - 5) * 2^(970:ℤ)) - -((2^53 - 6) * 2^(970:ℤ))
            = -(2^(970:ℤ)) by ring]
          exact roundQ_eq_self (rep_neg hrep1))
      (by rw [abs_neg, abs_of_pos (two_zpow_pos _)]; exact zpow_le_maxFin (by norm_num))
  have herr : fadd (F64.fin false (0:ℚ)) (F64.fin true (-(2^(970:ℤ))))
      = F64.fin true (-(2^(970:ℤ))) :=
    fadd_eval_neg
      (by rw [zero_add]; exact neg_lt_zero.mpr (two_zpow_pos _))
      (by rw [zero_add]; exact roundQ_eq_self (rep_neg hrep1))
      (by rw [abs_neg, abs_of_pos (two_zpow_pos _)]; exact zpow_le_maxFin (by norm_num))
  rw [two_sum_def, hs, hv, hw, hd1, hd2, herr]

/-- C1 counterexample: at `a = -(2^53-5)*2^970`, `b = DBL_MAX` the rounded
sum `round(a+b)` does not overflow, yet `two_sum(a, b)` returns a NaN error
word (the intermediate `s - a` overflows to infinity), so `s + e` cannot
reconstruct `a + b`. -/
theorem claim_C1_counterexample :
    |roundQ (val (F64.fin true (-((2^53 - 5) * 2^(970:ℤ))))
      + val (F64.fin false maxFin))| ≤ maxFin ∧
    (two_sum (F64.fin true (-((2^53 - 5) * 2^(970:ℤ))))
      (F64.fin false maxFin)).lo = F64.nan := by
  constructor
  · simp only [val]
    rw [round_big, abs_of_pos (mul_pos (by norm_num) (two_zpow_pos _))]
    exact mul_pow971_le_maxFin (by norm_num)
  · rw [two_sum_big_eval]

/-- C1 (amended): `two_sum(a, b)` returns `s = round(a+b)` and the exact
residual, so that `s + e = a + b` in exact rational arithmetic, provided
neither the rounded sum nor the intermediate `round(s - a)` overflows. -/
theorem claim_C1_two_sum (x y : F64) (hx : WF x) (hy : WF y)
    (hfx : IsFinite x) (hfy : IsFinite y)
    (hov1 : |roundQ (val x + val y)| ≤ maxFin)
    (hov2 : |roundQ (roundQ (val x + val y) - val x)| ≤ maxFin) :
    val (two_sum x y).hi = roundQ (val x + val y) ∧
    val (two_sum x y).hi + val (two_sum x y).lo = val x + val y := by
  obtain ⟨h1, h2, h3, h4⟩ := two_sum_val hx hy hfx hfy hov1 hov2
  exact ⟨h3, h4⟩

/-- C1 witness: the amended exactness at `a = 1`, `b = 1e-16`. -/
theorem claim_C1_witness :
    val (two_sum (F64.fin false 1) (F64.fin false d16)).hi +
      val (two_sum (F64.fin false 1) (F64.fin false d16)).lo = 1 + d16 := by
  have hwf1 : WF (F64.fin false 1) := ⟨rep_one, abs_one_le, by intro h; norm_num⟩
  have hwfd : WF (F64.fin false d16) :=
    ⟨rep_d16, abs_d16_le, by intro h; simp [not_lt.mpr (le_of_lt d16_pos)]⟩
  have h := claim_C1_two_sum (F64.fin false 1) (F64.fin false d16) hwf1 hwfd
    trivial trivial
    (by simp only [val]; rw [round_one_add_d16]; exact abs_one_le)
    (by simp only [val]
        rw [round_one_add_d16, sub_self, roundQ_zero, abs_zero]
        exact le_of_lt maxFin_pos)
  exact h.2

/-! ### Claim C6: commutativity of `dd_add` -/

/-- IEEE addition is commutative at the data level (including zero signs,
infinities and NaN). -/
theorem fadd_comm (a b : F64) : fadd a b = fadd b a := by
  rcases a with ⟨s, p⟩ | s | _ <;> rcases b with ⟨t, q⟩ | t | _ <;>
    simp only [fadd]
  · rw [add_comm q p, Bool.and_comm t s]
    by_cases h1 : p + q = 0
    · rw [if_pos h1, if_pos h1]
      by_cases h2 : p = 0
      · by_cases h3 : q = 0
        · rw [if_pos ⟨h2, h3⟩, if_pos ⟨h3, h2⟩]
        · rw [if_neg (fun h => h3 h.2), if_neg (fun h => h3 h.1)]
      · rw [if_neg (fun h => h2 h.1), if_neg (fun h => h2 h.2)]
    · rw [if_neg h1, if_neg h1]
  · by_cases h : s = t
    · rw [h]
    · rw [if_neg h, if_neg (fun hh => h hh.symm)]

/-- `two_sum` is order-insensitive when no intermediate overflows: both
orders produce the identical pair of floats. -/
theorem two_sum_comm {x y : F64} (hx : WF x) (hy : WF y)
    (hfx : IsFinite x) (hfy : IsFinite y)
    (hov1 : |roundQ (val x + val y)| ≤ maxFin)
    (hov2 : |roundQ (roundQ (val x + val y) - val x)| ≤ maxFin)
    (hov3 : |roundQ (roundQ (val x + val y) - val y)| ≤ maxFin) :
    two_sum x y = two_sum y x := by
  have h1 := two_sum_lo_data hx hy hfx hfy hov1 hov2
  have h2 := two_sum_lo_data hy hx hfy hfx
    (by rwa [add_comm (val y) (val x)])
    (by rwa [add_comm (val y) (val x)])
  have hhi : (two_sum x y).hi = (two_sum y x).hi := fadd_comm x y
  have hlo : (two_sum x y).lo = (two_sum y x).lo := by
    rw [h1, h2, add_comm (val y) (val x)]
  calc two_sum x y = ⟨(two_sum x y).hi, (two_sum x y).lo⟩ := rfl
  _ = ⟨(two_sum y x).hi, (two_sum y x).lo⟩ := by rw [hhi, hlo]
  _ = two_sum y x := rfl

/-- C6 counterexample: with `A = (-(2^53-5)*2^970, 0)` and `B = (DBL_MAX, 0)`
the two addition orders give different results: `add(A,B) = (NaN, NaN)` (the
intermediate `s - a` overflows) while `add(B,A) = (round(a+b), -2^970)`. -/
theorem claim_C6_counterexample :
    dd_add ⟨F64.fin true (-((2^53 - 5) * 2^(970:ℤ))), F64.fin false 0⟩
        ⟨F64.fin false maxFin, F64.fin false 0⟩ ≠
      dd_add ⟨F64.fin false maxFin, F64.fin false 0⟩
        ⟨F64.fin true (-((2^53 - 5) * 2^(970:ℤ))), F64.fin false 0⟩ := by
  have hz : fadd (F64.fin false (0:ℚ)) (F64.fin false 0) = F64.fin false 0 := by
    rw [fadd_zero_sign]
    rfl
  have hrep1 : Rep ((2:ℚ)^(970:ℤ)) := rep_two_zpow (by norm_num)
  have hL : dd_add ⟨F64.fin true (-((2^53 - 5) * 2^(970:ℤ))), F64.fin false 0⟩
      ⟨F64.fin false maxFin, F64.fin false 0⟩ = ⟨F64.nan, F64.nan⟩ := by
    rw [dd_add_def]
    dsimp only
    rw [two_sum_big_eval]
    dsimp only
    rw [hz]
    have h1 : fadd (F64.fin false (0:ℚ)) F64.nan = F64.nan := by simp [fadd]
    rw [h1, quick_two_sum_def]
    have h2 : fadd (F64.fin false ((2^52 + 2) * 2^(971:ℤ))) F64.nan = F64.nan := by
      simp [fadd]
    rw [h2]
    have h3 : ∀ z, fsub F64.nan z = F64.nan := by
      intro z
      simp [fsub, fadd]
    rw [h3]
  have hR : dd_add ⟨F64.fin false maxFin, F64.fin false 0⟩
      ⟨F64.fin true (-((2^53 - 5) * 2^(970:ℤ))), F64.fin false 0⟩
      = ⟨F64.fin false ((2^52 + 2) * 2^(971:ℤ)), F64.fin true (-(2^(970:ℤ)))⟩ := by
    rw [dd_add_def]
    dsimp only
    rw [two_sum_big_eval_swap]
    dsimp only
    rw [hz]
    have h1 : fadd (F64.fin false (0:ℚ)) (F64.fin true (-(2^(970:ℤ))))
        = F64.fin true (-(2^(970:ℤ))) :=
      fadd_eval_neg (by rw [zero_add]; exact neg_lt_zero.mpr (two_zpow_pos _))
        (by rw [zero_add]; exact roundQ_eq_self (rep_neg hrep1))
        (by rw [abs_neg, abs_of_pos (two_zpow_pos _)]; exact zpow_le_maxFin (by norm_num))
    rw [h1, quick_two_sum_def]
    have hbig2 : (2^52 + 2) * 2^(971:ℤ) + -(2^(970:ℤ))
        = -((2^53 - 5) * 2^(970:ℤ)) + maxFin := by
      rw [maxFin_eq', show ((971:ℤ)) = 970 + 1 by norm_num, two_zpow_succ]
      ring
    have h2 : fadd (F64.fin false ((2^52 + 2) * 2^(971:ℤ)))
        (F64.fin true (-(2^(970:ℤ)))) = F64.fin false ((2^52 + 2) * 2^(971:ℤ)) :=
      fadd_eval_pos (by rw [hbig2]; exact big_sum_pos)
        (by rw [hbig2]; exact round_big)
        (by rw [abs_of_pos (mul_pos (by norm_num) (two_zpow_pos _))]
            exact mul_pow971_le_maxFin (by norm_num))
    rw [h2]
    have h3 : fsub (F64.fin false ((2^52 + 2) * 2^(971:ℤ)))
        (F64.fin false ((2^52 + 2) * 2^(971:ℤ))) = F64.fin false 0 :=
      fsub_cancel (sub_self _) (ne_of_gt (mul_pos (by norm_num) (two_zpow_pos _)))
    rw [h3]
    have h4 : fsub (F64.fin true (-(2^(970:ℤ)))) (F64.fin false 0)
        = F64.fin true (-(2^(970:ℤ))) :=
      fsub_eval_neg (by rw [sub_zero]; exact neg_lt_zero.mpr (two_zpow_pos _))
        (by rw [sub_zero]; exact roundQ_eq_self (rep_neg hrep1))
        (by rw [abs_neg, abs_of_pos (two_zpow_pos _)]; exact zpow_le_maxFin (by norm_num))
    rw [h4]
  rw [hL, hR]
  simp

/-- C6 (amended): `dd_add(A, B)` and `dd_add(B, A)` are bit-identical for
pairs with well-formed finite heads, provided neither the rounded head sum
nor either intermediate `round(s - hi)` overflows (the low words may be
arbitrary, even NaN). -/
theorem claim_C6_add_comm (A B : dd_real) (h1 : WF A.hi) (h2 : WF B.hi)
    (hf1 : IsFinite A.hi) (hf2 : IsFinite B.hi)
    (hov1 : |roundQ (val A.hi + val B.hi)| ≤ maxFin)
    (hov2 : |roundQ (roundQ (val A.hi + val B.hi) - val A.hi)| ≤ maxFin)
    (hov3 : |roundQ (roundQ (val A.hi + val B.hi) - val B.hi)| ≤ maxFin) :
    dd_add A B = dd_add B A := by
  rw [dd_add_def, dd_add_def]
  rw [show two_sum B.hi A.hi = two_sum A.hi B.hi from
    (two_sum_comm h1 h2 hf1 hf2 hov1 hov2 hov3).symm]
  rw [fadd_comm B.lo A.lo]

/-- C6 witness: commutativity applied at `A = (1, +0)`, `B = (1e-16, +0)`. -/
theorem claim_C6_witness :
    dd_add ⟨F64.fin false 1, F64.fin false 0⟩ ⟨F64.fin false d16, F64.fin false 0⟩ =
    dd_add ⟨F64.fin false d16, F64.fin false 0⟩ ⟨F64.fin false 1, F64.fin false 0⟩ := by
  have hwf1 : WF (F64.fin false 1) := ⟨rep_one, abs_one_le, by intro h; norm_num⟩
  have hwfd : WF (F64.fin false d16) :=
    ⟨rep_d16, abs_d16_le, by intro h; simp [not_lt.mpr (le_of_lt d16_pos)]⟩
  exact claim_C6_add_comm ⟨F64.fin false 1, F64.fin false 0⟩
    ⟨F64.fin false d16, F64.fin false 0⟩ hwf1 hwfd trivial trivial
    (by simp only [val]; rw [round_one_add_d16]; exact abs_one_le)
    (by simp only [val]
        rw [round_one_add_d16, sub_self, roundQ_zero, abs_zero]
        exact le_of_lt maxFin_pos)
    (by simp only [val]
        rw [round_one_add_d16]
        have hle : roundQ (1 - d16) ≤ 1 := by
          calc roundQ (1 - d16) ≤ roundQ 1 := roundQ_mono (sub_le_self 1 (le_of_lt d16_pos))
          _ = 1 := roundQ_eq_self rep_one
        have hge : 0 ≤ roundQ (1 - d16) := roundQ_nonneg (by norm_num [d16])
        rw [abs_of_nonneg hge]
        calc roundQ (1 - d16) ≤ 1 := hle
        _ ≤ maxFin := one_le_maxFin)

/-! ### Claim C10: `dd_add` on scalar-embedded values reduces to `two_sum` -/

theorem fadd_pzero_pzero : fadd (F64.fin false (0:ℚ)) (F64.fin false 0)
    = F64.fin false 0 := by
  rw [fadd_zero_sign]
  rfl

theorem fsub_pzero_pzero : fsub (F64.fin false (0:ℚ)) (F64.fin false 0)
    = F64.fin false 0 := by
  rw [show fsub (F64.fin false (0:ℚ)) (F64.fin false 0)
      = fadd (F64.fin false 0) (F64.fin true (-0)) from rfl, neg_zero,
     fadd_zero_sign]
  rfl

/-- C10 counterexample: embedding two negative zeros and adding them loses
the sign of zero: `dd_add((-0,+0), (-0,+0)).hi = +0`, while
`two_sum(-0,-0).hi = -0`, so the two computations are not bit-identical. -/
theorem claim_C10_counterexample :
    dd_add (dd_from_double (F64.fin true 0)) (dd_from_double (F64.fin true 0)) ≠
      two_sum (F64.fin true 0) (F64.fin true 0) := by
  have h1 : fadd (F64.fin true (0:ℚ)) (F64.fin true 0) = F64.fin true 0 := by
    rw [fadd_zero_sign]
    rfl
  have h2 : fsub (F64.fin true (0:ℚ)) (F64.fin true 0) = F64.fin false 0 := by
    rw [show fsub (F64.fin true (0:ℚ)) (F64.fin true 0)
        = fadd (F64.fin true 0) (F64.fin false (-0)) from rfl, neg_zero,
       fadd_zero_sign]
    rfl
  have h3 : fsub (F64.fin true (0:ℚ)) (F64.fin false 0) = F64.fin true 0 := by
    rw [show fsub (F64.fin true (0:ℚ)) (F64.fin false 0)
        = fadd (F64.fin true 0) (F64.fin true (-0)) from rfl, neg_zero,
       fadd_zero_sign]
    rfl
  have h4 : fadd (F64.fin false (0:ℚ)) (F64.fin true 0) = F64.fin false 0 := by
    rw [fadd_zero_sign]
    rfl
  have hts : two_sum (F64.fin true 0) (F64.fin true 0)
      = ⟨F64.fin true 0, F64.fin false 0⟩ := by
    rw [two_sum_def, h1, h2, h3, h2, h4]
  have h5 : fadd (F64.fin true (0:ℚ)) (F64.fin false 0) = F64.fin false 0 := by
    rw [fadd_zero_sign]
    rfl
  have h6 : fsub (F64.fin false (0:ℚ)) (F64.fin true 0) = F64.fin false 0 := by
    rw [show fsub (F64.fin false (0:ℚ)) (F64.fin true 0)
        = fadd (F64.fin false 0) (F64.fin false (-0)) from rfl, neg_zero,
       fadd_zero_sign]
    rfl
  have hL : dd_add (dd_from_double (F64.fin true 0)) (dd_from_double (F64.fin true 0))
      = ⟨F64.fin false 0, F64.fin false 0⟩ := by
    rw [dd_add_def]
    dsimp only [dd_from_double]
    rw [hts]
    dsimp only
    rw [fadd_pzero_pzero, fadd_pzero_pzero, quick_two_sum_def, h5, h6,
       fsub_pzero_pzero]
  rw [hL, hts]
  simp

/-- C10 (amended): for finite well-formed `a`, `b`, not both `-0`, with no
overflow of the rounded sum or of the intermediate `round(s - a)`,
`dd_add(fromScalar(a), fromScalar(b))` is bit-identical to `two_sum(a, b)`;
in particular `hi + lo = a + b` exactly. -/
theorem claim_C10_embed (x y : F64) (hx : WF x) (hy : WF y)
    (hfx : IsFinite x) (hfy : IsFinite y)
    (hov1 : |roundQ (val x + val y)| ≤ maxFin)
    (hov2 : |roundQ (roundQ (val x + val y) - val x)| ≤ maxFin)
    (hz : ¬(x = F64.fin true 0 ∧ y = F64.fin true 0)) :
    dd_add (dd_from_double x) (dd_from_double y) = two_sum x y := by
  have hlo := two_sum_lo_data hx hy hfx hfy hov1 hov2
  obtain ⟨sx, p, hxe⟩ := isFinite_data hfx
  obtain ⟨sy, q, hye⟩ := isFinite_data hfy
  subst hxe
  subst hye
  simp only [val] at hov1 hov2 hlo
  obtain ⟨hp_rep, hp_le, _⟩ := hx
  obtain ⟨hq_rep, hq_le, _⟩ := hy
  by_cases hpq : p + q = 0
  · have hr0 : (p + q) - roundQ (p + q) = 0 := by
      rw [hpq, roundQ_zero, sub_zero]
    have hE : (two_sum (F64.fin sx p) (F64.fin sy q)).lo = F64.fin false 0 := by
      rw [hlo, if_pos hr0]
    have hS : fadd (F64.fin sx p) (F64.fin sy q) = F64.fin false 0 := by
      by_cases hp : p = 0
      · have hq : q = 0 := by rw [hp] at hpq; rwa [zero_add] at hpq
        subst hp
        subst hq
        rw [fadd_zero_sign]
        cases sx
        · rfl
        · cases sy
          · rfl
          · exact absurd ⟨rfl, rfl⟩ hz
      · exact fadd_cancel hpq hp
    have hts : two_sum (F64.fin sx p) (F64.fin sy q)
        = ⟨F64.fin false 0, F64.fin false 0⟩ := by
      calc two_sum (F64.fin sx p) (F64.fin sy q)
          = ⟨(two_sum (F64.fin sx p) (F64.fin sy q)).hi,
             (two_sum (F64.fin sx p) (F64.fin sy q)).lo⟩ := rfl
      _ = ⟨F64.fin false 0, F64.fin false 0⟩ := by
          rw [hE]
          exact congrArg (fun z => dd_real.mk z (F64.fin false 0)) hS
    rw [dd_add_def]
    dsimp only [dd_from_double]
    rw [hts]
    dsimp only
    rw [fadd_pzero_pzero, fadd_pzero_pzero, quick_two_sum_def, fadd_pzero_pzero,
       fsub_pzero_pzero, fsub_pzero_pzero]
  · have hSne : roundQ (p + q) ≠ 0 :=
      roundQ_ne_zero ((rep_mul2_bot hp_rep).add (rep_mul2_bot hq_rep)) hpq
    have hS : fadd (F64.fin sx p) (F64.fin sy q)
        = F64.fin (decide (p + q < 0)) (roundQ (p + q)) := by
      rw [fadd_fin hpq, roundF_eval hov1]
    have hr_rep : Rep ((p + q) - roundQ (p + q)) := add_resid_rep hp_rep hq_rep
    have hr_le : |(p + q) - roundQ (p + q)| ≤ maxFin :=
      le_trans (resid_le_left hp_rep) hq_le
    by_cases hr0 : (p + q) - roundQ (p + q) = 0
    · have hE : (two_sum (F64.fin sx p) (F64.fin sy q)).lo = F64.fin false 0 := by
        rw [hlo, if_pos hr0]
      have hts : two_sum (F64.fin sx p) (F64.fin sy q)
          = ⟨F64.fin (decide (p + q < 0)) (roundQ (p + q)), F64.fin false 0⟩ := by
        calc two_sum (F64.fin sx p) (F64.fin sy q)
            = ⟨(two_sum (F64.fin sx p) (F64.fin sy q)).hi,
               (two_sum (F64.fin sx p) (F64.fin sy q)).lo⟩ := rfl
        _ = _ := by
            rw [hE]
            exact congrArg (fun z => dd_real.mk z (F64.fin false 0)) hS
      have hreppq : Rep (roundQ (p + q)) := roundQ_rep _
      have hs2 : fadd (F64.fin (decide (p + q < 0)) (roundQ (p + q)))
          (F64.fin false 0) = F64.fin (decide (p + q < 0)) (roundQ (p + q)) := by
        rw [fadd_fin (by rw [add_zero]; exact hSne), add_zero,
           roundF_exact hreppq hov1]
        have hsgn : decide (roundQ (p + q) < 0) = decide (p + q < 0) := by
          have hpq_eq : roundQ (p + q) = p + q := (sub_eq_zero.mp hr0).symm
          rw [hpq_eq]
        rw [hsgn]
      have hq2 : fsub (F64.fin (decide (p + q < 0)) (roundQ (p + q)))
          (F64.fin (decide (p + q < 0)) (roundQ (p + q))) = F64.fin false 0 :=
        fsub_cancel (sub_self _) hSne
      rw [dd_add_def]
      dsimp only [dd_from_double]
      rw [hts]
      dsimp only
      rw [fadd_pzero_pzero, fadd_pzero_pzero, quick_two_sum_def, hs2, hq2,
         fsub_pzero_pzero]
    · have hE : (two_sum (F64.fin sx p) (F64.fin sy q)).lo
          = F64.fin (decide ((p + q) - roundQ (p + q) < 0))
              ((p + q) - roundQ (p + q)) := by
        rw [hlo, if_neg hr0]
      have hts : two_sum (F64.fin sx p) (F64.fin sy q)
          = ⟨F64.fin (decide (p + q < 0)) (roundQ (p + q)),
             F64.fin (decide ((p + q) - roundQ (p + q) < 0))
               ((p + q) - roundQ (p + q))⟩ := by
        calc two_sum (F64.fin sx p) (F64.fin sy q)
            = ⟨(two_sum (F64.fin sx p) (F64.fin sy q)).hi,
               (two_sum (F64.fin sx p) (F64.fin sy q)).lo⟩ := rfl
        _ = _ := by
            rw [hE]
            exact congrArg
              (fun z => dd_real.mk z (F64.fin (decide ((p + q) - roundQ (p + q) < 0))
                ((p + q) - roundQ (p + q)))) hS
      have hloSum : fadd (F64.fin false 0)
          (F64.fin (decide ((p + q) - roundQ (p + q) < 0)) ((p + q) - roundQ (p + q)))
          = F64.fin (decide ((p + q) - roundQ (p + q) < 0))
              ((p + q) - roundQ (p + q)) := by
        rw [fadd_fin (by rw [zero_add]; exact hr0), zero_add,
           roundF_exact hr_rep hr_le]
      have hs2 : fadd (F64.fin (decide (p + q < 0)) (roundQ (p + q)))
          (F64.fin (decide ((p + q) - roundQ (p + q) < 0)) ((p + q) - roundQ (p + q)))
          = F64.fin (decide (p + q < 0)) (roundQ (p + q)) := by
        rw [fadd_fin (by rw [show roundQ (p + q) + ((p + q) - roundQ (p + q))
              = p + q by ring]; exact hpq),
           show roundQ (p + q) + ((p + q) - roundQ (p + q)) = p + q by ring,
           roundF_eval hov1]
      have hq2 : fsub (F64.fin (decide (p + q < 0)) (roundQ (p + q)))
          (F64.fin (decide (p + q < 0)) (roundQ (p + q))) = F64.fin false 0 :=
        fsub_cancel (sub_self _) hSne
      have hq3 : fsub (F64.fin (decide ((p + q) - roundQ (p + q) < 0))
            ((p + q) - roundQ (p + q))) (F64.fin false 0)
          = F64.fin (decide ((p + q) - roundQ (p + q) < 0))
              ((p + q) - roundQ (p + q)) := by
        rw [fsub_fin (by rw [sub_zero]; exact hr0), sub_zero,
           roundF_exact hr_rep hr_le]
      rw [dd_add_def]
      dsimp only [dd_from_double]
      rw [hts]
      dsimp only
      rw [fadd_pzero_pzero, hloSum, quick_two_sum_def, hs2, hq2, hq3]

/-- C10 witness: the embedding identity at `a = 1`, `b = 1e-16`. -/
theorem claim_C10_witness :
    dd_add (dd_from_double (F64.fin false 1)) (dd_from_double (F64.fin false d16))
      = two_sum (F64.fin false 1) (F64.fin false d16) := by
  have hwf1 : WF (F64.fin false 1) := ⟨rep_one, abs_one_le, by intro h; norm_num⟩
  have hwfd : WF (F64.fin false d16) :=
    ⟨rep_d16, abs_d16_le, by intro h; simp [not_lt.mpr (le_of_lt d16_pos)]⟩
  exact claim_C10_embed (F64.fin false 1) (F64.fin false d16) hwf1 hwfd
    trivial trivial
    (by simp only [val]; rw [round_one_add_d16]; exact abs_one_le)
    (by simp only [val]
        rw [round_one_add_d16, sub_self, roundQ_zero, abs_zero]
        exact le_of_lt maxFin_pos)
    (by simp)

/-! ### Veltkamp splitting (`split_double`, `SPLIT_CONST = 2^27 + 1`) -/

theorem abs_roundQ_le {q : ℚ} {e : ℤ} (he : -1074 ≤ e) (h : |q| ≤ 2^e) :
    |roundQ q| ≤ 2^e := by
  rw [abs_le] at h ⊢
  constructor
  · have h1 := roundQ_mono h.1
    rwa [roundQ_neg, roundQ_eq_self (rep_two_zpow he)] at h1

  · have h1 := roundQ_mono h.2
    rwa [roundQ_eq_self (rep_two_zpow he)] at h1

/-- Veltkamp splitting at the exact-value level (normal operand): with
`T = round(C*a)` and `U = round(T - a)`, the high part `hi = T - U` and low
part `lo = a - hi` are computed exactly, recombine to `a`, and satisfy the
26-bit size bounds that make Dekker's four partial products exact. -/
theorem veltkamp {a hi lo : ℚ} (ha : Rep a) (h0 : a ≠ 0) (hn : -1074 < cexp a)
    (hhi : hi = roundQ (134217729 * a) - roundQ (roundQ (134217729 * a) - a))
    (hlo : lo = a - hi) :
    roundQ hi = hi ∧ roundQ lo = lo ∧ hi + lo = a ∧
    Mul2 hi (cexp a + 27) ∧ |hi| ≤ 2^(cexp a + 53) ∧
    Mul2 lo (cexp a) ∧ |lo| ≤ 2^(cexp a + 26) ∧
    |roundQ (134217729 * a)| ≤ 2^(cexp a + 81) ∧
    |roundQ (roundQ (134217729 * a) - a)| ≤ 2^(cexp a + 81) := by
  have hge : (-1074:ℤ) ≤ cexp a := cexp_ge a
  have habs_can : |a| ≤ (2^53 - 1) * 2^(cexp a) := abs_le_canon ha
  have hanorm : (2:ℚ)^(cexp a + 52) ≤ |a| := normal_lb h0 hn
  have hCa_mul : Mul2 (134217729 * a) (cexp a) := by
    obtain ⟨k, hk⟩ := rep_mul2 ha
    refine ⟨134217729 * k, ?_⟩
    push_cast
    conv_lhs => rw [hk]
    ring
  have hCa_ne : (134217729:ℚ) * a ≠ 0 := by
    intro h
    rcases mul_eq_zero.mp h with h | h
    · norm_num at h
    · exact h0 h
  have hCa_lb : (2:ℚ)^(cexp a + 79) ≤ |134217729 * a| := by
    rw [abs_mul, (by norm_num : |(134217729:ℚ)| = 134217729)]
    have h2 : (134217729:ℚ) * 2^(cexp a + 52) ≤ 134217729 * |a| :=
      mul_le_mul_of_nonneg_left hanorm (by norm_num)
    have h3 := two_zpow_pos (cexp a + 52)
    calc (2:ℚ)^(cexp a + 79) = 2^(27:ℤ) * 2^(cexp a + 52) := by
          rw [show cexp a + 79 = 27 + (cexp a + 52) by ring, two_zpow_add]
    _ ≤ 134217729 * |a| := by
          have h4 : (2:ℚ)^(27:ℤ) = 134217728 := by norm_num
          rw [h4]
          exact le_trans
            (mul_le_mul_of_nonneg_right (by norm_num) (le_of_lt h3)) h2
  have hCa_ub : |134217729 * a| < 2^(cexp a + 81) := by
    rw [abs_mul, (by norm_num : |(134217729:ℚ)| = 134217729)]
    have h1 : |a| < 2^(cexp a + 53) := abs_lt_cexp53 a
    have h3 := two_zpow_pos (cexp a + 53)
    calc (134217729:ℚ) * |a| < 134217729 * 2^(cexp a + 53) :=
          mul_lt_mul_of_pos_left h1 (by norm_num)
    _ < 2^(28:ℤ) * 2^(cexp a + 53) := by
          have h4 : (2:ℚ)^(28:ℤ) = 268435456 := by norm_num
          rw [h4]
          exact mul_lt_mul_of_pos_right (by norm_num) h3
    _ = 2^(cexp a + 81) := by
          rw [show cexp a + 81 = 28 + (cexp a + 53) by ring]
          exact (two_zpow_add 28 (cexp a + 53)).symm
  have hmagCa_lb := mag_ge_of_le_abs hCa_lb hCa_ne
  have hmagCa_ub := mag_le_of_abs_lt hCa_ub hCa_ne
  have hcexpCa_lb : cexp a + 27 ≤ cexp (134217729 * a) := by
    simp only [cexp] at hn hmagCa_lb ⊢
    omega
  have hcexpCa_ub : cexp (134217729 * a) ≤ cexp a + 28 := by
    simp only [cexp] at hmagCa_ub ⊢
    omega
  have hT_mul : Mul2 (roundQ (134217729 * a)) (cexp a + 27) :=
    (roundQ_mul2 _).of_le hcexpCa_lb
  have hdelta : |roundQ (134217729 * a) - 134217729 * a| ≤ 2^(cexp a + 27) := by
    have h1 := roundQ_err (134217729 * a)
    rw [abs_sub_comm]
    exact le_trans h1 (two_zpow_mono (sub_le_iff_le_add.mpr
      (le_trans hcexpCa_ub (le_of_eq (by ring)))))
  have hT_ub : |roundQ (134217729 * a)| ≤ 2^(cexp a + 81) :=
    abs_roundQ_le (bot_le_add _ hge (by norm_num)) (le_of_lt hCa_ub)
  have ht'_eq : roundQ (134217729 * a) - a
      = 134217728 * a + (roundQ (134217729 * a) - 134217729 * a) := by ring
  have ht'_mul : Mul2 (roundQ (134217729 * a) - a) (cexp a) :=
    (hT_mul.of_le (le_add_of_nonneg_right (by norm_num))).sub (rep_mul2 ha)
  have h128abs : |(134217728:ℚ) * a| = 134217728 * |a| := by
    rw [abs_mul, (by norm_num : |(134217728:ℚ)| = 134217728)]
  have ht'_ub : |roundQ (134217729 * a) - a| ≤ 2^(cexp a + 80) := by
    rw [ht'_eq]
    have h3 := two_zpow_pos (cexp a)
    calc |134217728 * a + (roundQ (134217729 * a) - 134217729 * a)|
        ≤ |(134217728:ℚ) * a| + |roundQ (134217729 * a) - 134217729 * a| := abs_add _ _
    _ ≤ 134217728 * ((2^53 - 1) * 2^(cexp a)) + 2^(cexp a + 27) := by
        rw [h128abs]
        exact add_le_add
          (mul_le_mul_of_nonneg_left habs_can (by norm_num : (0:ℚ) ≤ 134217728))
          hdelta
    _ = 2^(cexp a + 80) := by
        have e1 : (2:ℚ)^(cexp a + 27) = 134217728 * 2^(cexp a) := by
          rw [show cexp a + 27 = 27 + cexp a by ring, two_zpow_add 27 (cexp a)]
          norm_num
        have e2 : (2:ℚ)^(cexp a + 80) = 1208925819614629174706176 * 2^(cexp a) := by
          rw [show cexp a + 80 = 80 + cexp a by ring, two_zpow_add 80 (cexp a)]
          norm_num
        rw [e1, e2]
        ring
  have ht'_lb0 : 134217728 * |a| - 2^(cexp a + 27) ≤ |roundQ (134217729 * a) - a| := by
    rw [ht'_eq]
    have h1 : |(134217728:ℚ) * a| - |-(roundQ (134217729 * a) - 134217729 * a)| ≤
        |134217728 * a - -(roundQ (134217729 * a) - 134217729 * a)| :=
      abs_sub_abs_le_abs_sub _ _
    rw [abs_neg, sub_neg_eq_add, h128abs] at h1
    exact le_trans (sub_le_sub_left hdelta _) h1
  have ht'_ne : roundQ (134217729 * a) - a ≠ 0 := by
    intro hcon
    have h1 : 134217728 * |a| - 2^(cexp a + 27) ≤ 0 := by
      rw [hcon] at ht'_lb0
      simpa using ht'_lb0
    have h2 : (2:ℚ)^(cexp a + 79) ≤ 134217728 * |a| := by
      calc (2:ℚ)^(cexp a + 79) = 2^(27:ℤ) * 2^(cexp a + 52) := by
            rw [show cexp a + 79 = 27 + (cexp a + 52) by ring, two_zpow_add]
      _ ≤ 134217728 * |a| := by
            have h4 : (2:ℚ)^(27:ℤ) = 134217728 := by norm_num
            rw [h4]
            exact mul_le_mul_of_nonneg_left hanorm (by norm_num : (0:ℚ) ≤ 134217728)
    have h3 : (2:ℚ)^(cexp a + 27) < 2^(cexp a + 79) :=
      two_zpow_lt (add_lt_add_left (by norm_num) (cexp a))
    exact absurd (le_trans h2 (sub_nonpos.mp h1)) (not_le.mpr h3)
  have hcexpt'_lb : cexp a + 27 ≤ cexp (roundQ (134217729 * a) - a) := by
    have hdich : |a| = 2^(cexp a + 52) ∨ 2^(cexp a + 52) + 2^(cexp a) ≤ |a| := by
      rcases eq_or_lt_of_le hanorm with h | h
      · exact Or.inl h.symm
      · right
        have hZmul : Mul2 ((2:ℚ)^(cexp a + 52)) (cexp a) := by
          refine ⟨2^52, ?_⟩
          push_cast
          rw [show cexp a + 52 = 52 + cexp a by ring, two_zpow_add]
          norm_num
        have hsep := mul2_abs_sep hZmul (rep_mul2 ha)
          (by rw [abs_of_pos (two_zpow_pos _)]; exact h)
        rw [abs_of_pos (two_zpow_pos _)] at hsep
        exact hsep
    rcases hdich with hcase | hcase
    · have ha2 : a = 2^(cexp a + 52) ∨ a = -(2^(cexp a + 52)) :=
        abs_eq (le_of_lt (two_zpow_pos (cexp a + 52))) |>.mp hcase
      have hCa_rep : Rep (134217729 * a) := by
        rcases ha2 with h | h
        · rw [h]
          exact ⟨134217729, cexp a + 52, by norm_num, bot_le_add _ hge (by norm_num),
            by push_cast; ring⟩
        · rw [h]
          exact ⟨-134217729, cexp a + 52, by norm_num, bot_le_add _ hge (by norm_num),
            by push_cast; ring⟩
      have hT_eq : roundQ (134217729 * a) = 134217729 * a := roundQ_eq_self hCa_rep
      have h1 : roundQ (134217729 * a) - a = 134217728 * a := by rw [hT_eq]; ring
      rw [h1]
      have h2 : |(134217728:ℚ) * a| = 2^(cexp a + 79) := by
        rw [h128abs, hcase, show cexp a + 79 = 27 + (cexp a + 52) by ring,
          two_zpow_add 27 (cexp a + 52)]
        norm_num
      have h3 : mag (134217728 * a) = cexp a + 80 := by
        apply mag_unique
        · rw [show cexp a + 80 - 1 = cexp a + 79 by ring, h2]
        · rw [h2]
          exact two_zpow_lt (add_lt_add_left (by norm_num) (cexp a))
      have h4 : cexp (134217728 * a) = cexp a + 27 := by
        simp only [cexp, h3]
        omega
      omega
    · have h2 : (2:ℚ)^(cexp a + 79) ≤ |roundQ (134217729 * a) - a| := by
        have h3 : 134217728 * ((2:ℚ)^(cexp a + 52) + 2^(cexp a)) ≤ 134217728 * |a| :=
          mul_le_mul_of_nonneg_left hcase (by norm_num)
        have h4 : (134217728:ℚ) * 2^(cexp a + 52) = 2^(cexp a + 79) := by
          rw [show cexp a + 79 = 27 + (cexp a + 52) by ring,
            two_zpow_add 27 (cexp a + 52)]
          norm_num
        have h5 : (134217728:ℚ) * 2^(cexp a) = 2^(cexp a + 27) := by
          rw [show cexp a + 27 = 27 + cexp a by ring, two_zpow_add 27 (cexp a)]
          norm_num
        rw [mul_add, h4, h5] at h3
        exact le_trans (le_sub_iff_add_le.mpr h3) ht'_lb0
      have h6 := mag_ge_of_le_abs h2 ht'_ne
      simp only [cexp] at h6 hn ⊢
      omega
  have hcexpt'_ub : cexp (roundQ (134217729 * a) - a) ≤ cexp a + 28 := by
    have h1 := mag_le_of_abs_lt (lt_of_le_of_lt ht'_ub
      (two_zpow_lt (show cexp a + 80 < cexp a + 81 from
        add_lt_add_left (by norm_num) (cexp a)))) ht'_ne
    simp only [cexp] at h1 ⊢
    omega
  have hdelta' : |roundQ (roundQ (134217729 * a) - a) - (roundQ (134217729 * a) - a)| ≤
      2^(cexp a + 26) := by
    rcases lt_or_eq_of_le ht'_ub with h | h
    · have h1 : cexp (roundQ (134217729 * a) - a) ≤ cexp a + 27 := by
        have h2 := mag_le_of_abs_lt h ht'_ne
        simp only [cexp] at h2 ⊢
        omega
      calc |roundQ (roundQ (134217729 * a) - a) - (roundQ (134217729 * a) - a)|
          = |(roundQ (134217729 * a) - a) - roundQ (roundQ (134217729 * a) - a)| :=
            abs_sub_comm _ _
      _ ≤ 2^(cexp (roundQ (134217729 * a) - a) - 1) := roundQ_err _
      _ ≤ 2^(cexp a + 26) := two_zpow_mono (sub_le_iff_le_add.mpr
          (le_trans h1 (le_of_eq (by ring))))
    · have h2 : roundQ (roundQ (134217729 * a) - a) = roundQ (134217729 * a) - a := by
        rcases abs_eq (le_of_lt (two_zpow_pos _)) |>.mp h with h3 | h3 <;> rw [h3]
        · exact roundQ_eq_self (rep_two_zpow (bot_le_add _ hge (by norm_num)))
        · exact roundQ_eq_self (rep_neg (rep_two_zpow (bot_le_add _ hge (by norm_num))))
      rw [h2, sub_self, abs_zero]
      exact le_of_lt (two_zpow_pos _)
  have hU_ub : |roundQ (roundQ (134217729 * a) - a)| ≤ 2^(cexp a + 81) :=
    abs_roundQ_le (bot_le_add _ hge (by norm_num))
      (le_trans ht'_ub (two_zpow_mono (add_le_add_left (by norm_num) _)))
  have hhi_mul : Mul2 hi (cexp a + 27) := by
    rw [hhi]
    exact hT_mul.sub ((roundQ_mul2 _).of_le hcexpt'_lb)
  have hhi_alt : hi = a - (roundQ (roundQ (134217729 * a) - a) -
      (roundQ (134217729 * a) - a)) := by
    rw [hhi]
    ring
  have hhi_ub0 : |hi| ≤ (2^53 - 1) * 2^(cexp a) + 2^(cexp a + 26) := by
    rw [hhi_alt]
    calc |a - (roundQ (roundQ (134217729 * a) - a) - (roundQ (134217729 * a) - a))|
        ≤ |a| + |roundQ (roundQ (134217729 * a) - a) - (roundQ (134217729 * a) - a)| :=
          abs_sub_le_add _ _
    _ ≤ (2^53 - 1) * 2^(cexp a) + 2^(cexp a + 26) := add_le_add habs_can hdelta'
  have hhi_ub : |hi| ≤ 2^(cexp a + 53) := by
    by_contra hcon
    push_neg at hcon
    have hZ : Mul2 ((2:ℚ)^(cexp a + 53)) (cexp a + 27) := by
      refine ⟨2^26, ?_⟩
      push_cast
      rw [show cexp a + 53 = 26 + (cexp a + 27) by ring, two_zpow_add]
      norm_num
    have hsep := mul2_abs_sep hZ hhi_mul
      (by rw [abs_of_pos (two_zpow_pos _)]; exact hcon)
    rw [abs_of_pos (two_zpow_pos _)] at hsep
    have e1 : (2:ℚ)^(cexp a + 53) = 9007199254740992 * 2^(cexp a) := by
      rw [show cexp a + 53 = 53 + cexp a by ring, two_zpow_add]
      norm_num
    have e2 : (2:ℚ)^(cexp a + 27) = 134217728 * 2^(cexp a) := by
      rw [show cexp a + 27 = 27 + cexp a by ring, two_zpow_add]
      norm_num
    have e3 : (2:ℚ)^(cexp a + 26) = 67108864 * 2^(cexp a) := by
      rw [show cexp a + 26 = 26 + cexp a by ring, two_zpow_add]
      norm_num
    rw [e1, e2, ← add_mul] at hsep
    rw [e3, ← add_mul] at hhi_ub0
    have h3 := two_zpow_pos (cexp a)
    have hnum := le_of_mul_le_mul_right (le_trans hsep hhi_ub0) h3
    norm_num at hnum
  have hhi_rep : Rep hi :=
    mul2_rep hhi_mul (bot_le_add _ hge (by norm_num))
      (le_trans hhi_ub (two_zpow_mono (le_add_pair (by norm_num))))
  have hlo_eq : lo = roundQ (roundQ (134217729 * a) - a) -
      (roundQ (134217729 * a) - a) := by
    rw [hlo, hhi]
    ring
  have hlo_mul : Mul2 lo (cexp a) := by
    rw [hlo_eq]
    exact ((roundQ_mul2 _).of_le
      (le_trans (le_add_of_nonneg_right (by norm_num)) hcexpt'_lb)).sub ht'_mul
  have hlo_ub : |lo| ≤ 2^(cexp a + 26) := by
    rw [hlo_eq]
    exact hdelta'
  have hlo_rep : Rep lo :=
    mul2_rep hlo_mul hge
      (le_trans hlo_ub (two_zpow_mono (add_le_add_left (by norm_num) _)))
  refine ⟨?_, roundQ_eq_self hlo_rep, by rw [hlo]; ring, hhi_mul, hhi_ub,
    hlo_mul, hlo_ub, hT_ub, hU_ub⟩
  conv_lhs => rw [hhi]
  rw [roundQ_eq_self (by rw [← hhi]; exact hhi_rep)]
  rw [← hhi]

/-! ### Product residuals and the exact value of `split_double` -/

theorem abs_mul_le_zpow {x y : ℚ} {e f : ℤ} (hx : |x| ≤ 2^e) (hy : |y| ≤ 2^f) :
    |x * y| ≤ 2^(e + f) := by
  rw [abs_mul, two_zpow_add]
  exact mul_le_mul hx hy (abs_nonneg _) (le_of_lt (two_zpow_pos _))

/-- Exponent lower bound of a product of two normal values. -/
theorem cexp_mul_lb {A B : ℚ} (hA : A ≠ 0) (hB : B ≠ 0)
    (hnA : -1074 < cexp A) (hnB : -1074 < cexp B)
    (hG : -1074 ≤ cexp A + cexp B) :
    cexp A + cexp B + 52 ≤ cexp (A * B) := by
  have h1 : (2:ℚ)^(cexp A + 52) ≤ |A| := normal_lb hA hnA
  have h2 : (2:ℚ)^(cexp B + 52) ≤ |B| := normal_lb hB hnB
  have h3 : (2:ℚ)^(cexp A + cexp B + 104) ≤ |A * B| := by
    rw [abs_mul]
    calc (2:ℚ)^(cexp A + cexp B + 104) = 2^(cexp A + 52) * 2^(cexp B + 52) := by
          rw [← two_zpow_add]
          congr 1
          ring
    _ ≤ |A| * |B| := mul_le_mul h1 h2 (le_of_lt (two_zpow_pos _)) (abs_nonneg _)
  have h4 := mag_ge_of_le_abs h3 (mul_ne_zero hA hB)
  simp only [cexp] at h4 hnA hnB hG ⊢
  omega

theorem cexp_mul_ub {A B : ℚ} (hA : A ≠ 0) (hB : B ≠ 0)
    (hG : -1074 ≤ cexp A + cexp B) : cexp (A * B) ≤ cexp A + cexp B + 53 := by
  have h1 : |A| < 2^(cexp A + 53) := abs_lt_cexp53 A
  have h2 : |B| < 2^(cexp B + 53) := abs_lt_cexp53 B
  have h3 : |A * B| < 2^(cexp A + cexp B + 106) := by
    rw [abs_mul]
    calc |A| * |B| < 2^(cexp A + 53) * 2^(cexp B + 53) :=
          mul_lt_mul'' h1 h2 (abs_nonneg _) (abs_nonneg _)
    _ = 2^(cexp A + cexp B + 106) := by
          rw [← two_zpow_add]
          congr 1
          ring
  have h4 := mag_le_of_abs_lt h3 (mul_ne_zero hA hB)
  simp only [cexp] at h4 hG ⊢
  omega

/-- The residual of a rounded product of two normal values is representable,
lives on the product grid, and is at most half an ulp. -/
theorem prod_resid {A B : ℚ} (hA : A ≠ 0) (hB : B ≠ 0)
    (hrA : Rep A) (hrB : Rep B)
    (hnA : -1074 < cexp A) (hnB : -1074 < cexp B)
    (hG : -1074 ≤ cexp A + cexp B) :
    Mul2 (A * B - roundQ (A * B)) (cexp A + cexp B) ∧
    |A * B - roundQ (A * B)| ≤ 2^(cexp A + cexp B + 52) ∧
    Rep (A * B - roundQ (A * B)) := by
  have hab : Mul2 (A * B) (cexp A + cexp B) := (rep_mul2 hrA).mul (rep_mul2 hrB)
  have hlb := cexp_mul_lb hA hB hnA hnB hG
  have hm : Mul2 (A * B - roundQ (A * B)) (cexp A + cexp B) :=
    hab.sub ((roundQ_mul2 _).of_le
      (le_trans (le_add_of_nonneg_right (by norm_num)) hlb))
  have hb : |A * B - roundQ (A * B)| ≤ 2^(cexp A + cexp B + 52) := by
    have h1 := roundQ_err (A * B)
    have h2 := cexp_mul_ub hA hB hG
    exact le_trans h1 (two_zpow_mono (sub_le_iff_le_add.mpr
      (le_trans h2 (le_of_eq (by ring)))))
  exact ⟨hm, hb, mul2_rep hm hG
    (le_trans hb (two_zpow_mono (add_le_add_left (by norm_num) _)))⟩

/-- The two words produced by `split_double` on a normal, not-too-large
operand: they are computed exactly, recombine to the operand, and obey the
Veltkamp grid and size bounds. -/
theorem split_double_val {x : F64} (hx : WF x) (hfx : IsFinite x)
    (h0 : val x ≠ 0) (hn : -1074 < cexp (val x)) (hub : cexp (val x) ≤ 941) :
    IsFinite (split_double x).1 ∧ IsFinite (split_double x).2 ∧
    val (split_double x).1 + val (split_double x).2 = val x ∧
    Mul2 (val (split_double x).1) (cexp (val x) + 27) ∧
    |val (split_double x).1| ≤ 2^(cexp (val x) + 53) ∧
    Mul2 (val (split_double x).2) (cexp (val x)) ∧
    |val (split_double x).2| ≤ 2^(cexp (val x) + 26) := by
  obtain ⟨hrep, hmax⟩ := wf_rep hx hfx
  obtain ⟨hVr1, hVr2, hVsum, hVm1, hVb1, hVm2, hVb2, hVT, hVU⟩ :=
    veltkamp (a := val x) hrep h0 hn rfl rfl
  have hge : (-1074:ℤ) ≤ cexp (val x) := cexp_ge _
  have hCfin : IsFinite SPLIT_CONST := trivial
  have hvalC : val SPLIT_CONST = 134217729 := rfl
  have hovT : |roundQ (val SPLIT_CONST * val x)| ≤ maxFin := by
    rw [hvalC]
    exact le_trans hVT (zpow_le_maxFin (le_trans (add_le_add_right hub 81) (by norm_num)))
  obtain ⟨hTfin, hTval⟩ := val_fmul_round hCfin hfx hovT
  rw [hvalC] at hTval
  have hovU : |roundQ (val (fmul SPLIT_CONST x) - val x)| ≤ maxFin := by
    rw [hTval]
    exact le_trans hVU (zpow_le_maxFin (le_trans (add_le_add_right hub 81) (by norm_num)))
  obtain ⟨hUfin, hUval⟩ := val_fsub_round hTfin hfx hovU
  rw [hTval] at hUval
  have hhirep : Rep (roundQ (134217729 * val x) -
      roundQ (roundQ (134217729 * val x) - val x)) :=
    mul2_rep hVm1 (bot_le_add _ hge (by norm_num))
      (le_trans hVb1 (two_zpow_mono (le_add_pair (by norm_num))))
  have hhi_eq : val (fmul SPLIT_CONST x) - val (fsub (fmul SPLIT_CONST x) x)
      = roundQ (134217729 * val x) - roundQ (roundQ (134217729 * val x) - val x) := by
    rw [hTval, hUval]
  obtain ⟨hHfin, hHval⟩ := val_fsub_exact hTfin hUfin
    (by rw [hhi_eq]; exact hhirep)
    (by rw [hhi_eq]
        exact le_trans hVb1 (zpow_le_maxFin (le_trans (add_le_add_right hub 53) (by norm_num))))
  rw [hhi_eq] at hHval
  have hlorep : Rep (val x - (roundQ (134217729 * val x) -
      roundQ (roundQ (134217729 * val x) - val x))) :=
    mul2_rep hVm2 hge
      (le_trans hVb2 (two_zpow_mono (add_le_add_left (by norm_num) _)))
  have hlo_eq : val x - val (fsub (fmul SPLIT_CONST x) (fsub (fmul SPLIT_CONST x) x))
      = val x - (roundQ (134217729 * val x) -
          roundQ (roundQ (134217729 * val x) - val x)) := by
    rw [hHval]
  obtain ⟨hLfin, hLval⟩ := val_fsub_exact hfx hHfin
    (by rw [hlo_eq]; exact hlorep)
    (by rw [hlo_eq]
        exact le_trans hVb2 (zpow_le_maxFin (le_trans (add_le_add_right hub 26) (by norm_num))))
  rw [hlo_eq] at hLval
  have hp1 : (split_double x).1
      = fsub (fmul SPLIT_CONST x) (fsub (fmul SPLIT_CONST x) x) := by
    rw [split_double_def]
  have hp2 : (split_double x).2
      = fsub x (fsub (fmul SPLIT_CONST x) (fsub (fmul SPLIT_CONST x) x)) := by
    rw [split_double_def]
  rw [hp1, hp2, hHval, hLval]
  exact ⟨hHfin, hLfin, by ring, hVm1, hVb1, hVm2, hVb2⟩

/-- Dekker's error computation at the exact-value level: given Veltkamp
splittings of the two operands, every partial sum of the error expression is
representable (all grid and size bounds), and the chain telescopes to the
exact product residual. -/
theorem dekker_chain {A B AH AL BH BL : ℚ} {ca cb : ℤ}
    (hA : AH + AL = A) (hB : BH + BL = B)
    (hAHm : Mul2 AH (ca + 27)) (hAHb : |AH| ≤ 2^(ca + 53))
    (hALm : Mul2 AL ca) (hALb : |AL| ≤ 2^(ca + 26))
    (hBHm : Mul2 BH (cb + 27)) (hBHb : |BH| ≤ 2^(cb + 53))
    (hBLm : Mul2 BL cb) (hBLb : |BL| ≤ 2^(cb + 26))
    (hPm : Mul2 (roundQ (A * B)) (ca + cb + 52))
    (hrb : |A * B - roundQ (A * B)| ≤ 2^(ca + cb + 52))
    (hG1 : -1074 ≤ ca + cb) :
    (Rep (AH * BH) ∧ |AH * BH| ≤ 2^(ca + cb + 106)) ∧
    (Rep (AH * BL) ∧ |AH * BL| ≤ 2^(ca + cb + 79)) ∧
    (Rep (AL * BH) ∧ |AL * BH| ≤ 2^(ca + cb + 79)) ∧
    (Rep (AL * BL) ∧ |AL * BL| ≤ 2^(ca + cb + 52)) ∧
    (Rep (AH * BH - roundQ (A * B)) ∧
      |AH * BH - roundQ (A * B)| ≤ 2^(ca + cb + 81)) ∧
    (Rep (AH * BH - roundQ (A * B) + AH * BL) ∧
      |AH * BH - roundQ (A * B) + AH * BL| ≤ 2^(ca + cb + 80)) ∧
    (Rep (AH * BH - roundQ (A * B) + AH * BL + AL * BH) ∧
      |AH * BH - roundQ (A * B) + AH * BL + AL * BH| ≤ 2^(ca + cb + 53)) ∧
    AH * BH - roundQ (A * B) + AH * BL + AL * BH + AL * BL
      = A * B - roundQ (A * B) := by
  have hAHBLb : |AH * BL| ≤ 2^(ca + cb + 79) :=
    le_trans (abs_mul_le_zpow hAHb hBLb) (two_zpow_mono (two_off_le (by norm_num)))
  have hALBHb : |AL * BH| ≤ 2^(ca + cb + 79) :=
    le_trans (abs_mul_le_zpow hALb hBHb) (two_zpow_mono (two_off_le (by norm_num)))
  have hALBLb : |AL * BL| ≤ 2^(ca + cb + 52) :=
    le_trans (abs_mul_le_zpow hALb hBLb) (two_zpow_mono (two_off_le (by norm_num)))
  have hAHBHb : |AH * BH| ≤ 2^(ca + cb + 106) :=
    le_trans (abs_mul_le_zpow hAHb hBHb) (two_zpow_mono (two_off_le (by norm_num)))
  have hAHBHm : Mul2 (AH * BH) (ca + cb + 54) :=
    (hAHm.mul hBHm).of_le (le_two_off (by norm_num))
  have hAHBLm : Mul2 (AH * BL) (ca + cb + 27) := (hAHm.mul hBLm).of_le (le_of_eq (by ring))
  have hALBHm : Mul2 (AL * BH) (ca + cb + 27) := (hALm.mul hBHm).of_le (le_of_eq (by ring))
  have hALBLm : Mul2 (AL * BL) (ca + cb) := (hALm.mul hBLm).of_le le_rfl
  have z1 : (2:ℚ)^(ca + cb + 80) = 2 * 2^(ca + cb + 79) := by
    rw [show ca + cb + 80 = (ca + cb + 79) + 1 by ring, two_zpow_succ]
  have z2 : (2:ℚ)^(ca + cb + 81) = 2 * 2^(ca + cb + 80) := by
    rw [show ca + cb + 81 = (ca + cb + 80) + 1 by ring, two_zpow_succ]
  have z3 : (2:ℚ)^(ca + cb + 53) = 2 * 2^(ca + cb + 52) := by
    rw [show ca + cb + 53 = (ca + cb + 52) + 1 by ring, two_zpow_succ]
  have z4 : (2:ℚ)^(ca + cb + 52) ≤ 2^(ca + cb + 79) :=
    two_zpow_mono (add_le_add_left (by norm_num) _)
  have z5 : (2:ℚ)^(ca + cb + 53) ≤ 2^(ca + cb + 80) :=
    two_zpow_mono (add_le_add_left (by norm_num) _)
  have z6 : (2:ℚ)^(ca + cb + 53) ≤ 2^(ca + cb + 79) :=
    two_zpow_mono (add_le_add_left (by norm_num) _)
  have ht1_eq : AH * BH - roundQ (A * B)
      = -(AH * BL + AL * BH + AL * BL) + (A * B - roundQ (A * B)) := by
    rw [← hA, ← hB]
    ring
  have ht1b : |AH * BH - roundQ (A * B)| ≤ 2^(ca + cb + 81) := by
    rw [ht1_eq]
    have h1 := abs_add (-(AH * BL + AL * BH + AL * BL)) (A * B - roundQ (A * B))
    rw [abs_neg] at h1
    have h2 := abs_add (AH * BL + AL * BH) (AL * BL)
    have h3 := abs_add (AH * BL) (AL * BH)
    calc |-(AH * BL + AL * BH + AL * BL) + (A * B - roundQ (A * B))|
        ≤ |AH * BL + AL * BH + AL * BL| + |A * B - roundQ (A * B)| := h1
    _ ≤ (|AH * BL + AL * BH| + |AL * BL|) + |A * B - roundQ (A * B)| :=
        add_le_add_right h2 _
    _ ≤ ((|AH * BL| + |AL * BH|) + |AL * BL|) + |A * B - roundQ (A * B)| :=
        add_le_add_right (add_le_add_right h3 _) _
    _ ≤ ((2^(ca + cb + 79) + 2^(ca + cb + 79)) + 2^(ca + cb + 52)) + 2^(ca + cb + 52) :=
        add_le_add (add_le_add (add_le_add hAHBLb hALBHb) hALBLb) hrb
    _ = 2^(ca + cb + 80) + 2^(ca + cb + 53) := by rw [z1, z3]; ring
    _ ≤ 2^(ca + cb + 80) + 2^(ca + cb + 80) := add_le_add_left z5 _
    _ = 2^(ca + cb + 81) := by rw [z2]; ring
  have ht1m : Mul2 (AH * BH - roundQ (A * B)) (ca + cb + 52) :=
    (hAHBHm.of_le (add_le_add_left (by norm_num) _)).sub hPm
  have ht1rep : Rep (AH * BH - roundQ (A * B)) :=
    mul2_rep ht1m (bot_le_add _ hG1 (by norm_num))
      (le_trans ht1b (two_zpow_mono (le_add_pair (by norm_num))))
  have ht2_eq : AH * BH - roundQ (A * B) + AH * BL
      = (A * B - roundQ (A * B)) - AL * B := by
    rw [← hA, ← hB]
    ring
  have hALB_split : AL * B = AL * BH + AL * BL := by
    rw [← hB]
    ring
  have ht2b : |AH * BH - roundQ (A * B) + AH * BL| ≤ 2^(ca + cb + 80) := by
    rw [ht2_eq]
    have h1 := abs_sub_le_add (A * B - roundQ (A * B)) (AL * B)
    have h2 : |AL * B| ≤ 2^(ca + cb + 79) + 2^(ca + cb + 52) := by
      rw [hALB_split]
      exact le_trans (abs_add _ _) (add_le_add hALBHb hALBLb)
    calc |(A * B - roundQ (A * B)) - AL * B|
        ≤ |A * B - roundQ (A * B)| + |AL * B| := h1
    _ ≤ 2^(ca + cb + 52) + (2^(ca + cb + 79) + 2^(ca + cb + 52)) := add_le_add hrb h2
    _ = 2^(ca + cb + 79) + 2^(ca + cb + 53) := by rw [z3]; ring
    _ ≤ 2^(ca + cb + 79) + 2^(ca + cb + 79) := add_le_add_left z6 _
    _ = 2^(ca + cb + 80) := by rw [z1]; ring
  have ht2m : Mul2 (AH * BH - roundQ (A * B) + AH * BL) (ca + cb + 27) :=
    (ht1m.of_le (add_le_add_left (by norm_num) _)).add hAHBLm
  have ht2rep : Rep (AH * BH - roundQ (A * B) + AH * BL) :=
    mul2_rep ht2m (bot_le_add _ hG1 (by norm_num))
      (le_trans ht2b (two_zpow_mono (le_add_pair (by norm_num))))
  have ht3_eq : AH * BH - roundQ (A * B) + AH * BL + AL * BH
      = (A * B - roundQ (A * B)) - AL * BL := by
    rw [← hA, ← hB]
    ring
  have ht3b : |AH * BH - roundQ (A * B) + AH * BL + AL * BH| ≤ 2^(ca + cb + 53) := by
    rw [ht3_eq]
    have h1 := abs_sub_le_add (A * B - roundQ (A * B)) (AL * BL)
    calc |(A * B - roundQ (A * B)) - AL * BL|
        ≤ |A * B - roundQ (A * B)| + |AL * BL| := h1
    _ ≤ 2^(ca + cb + 52) + 2^(ca + cb + 52) := add_le_add hrb hALBLb
    _ = 2^(ca + cb + 53) := by rw [z3]; ring
  have ht3m : Mul2 (AH * BH - roundQ (A * B) + AH * BL + AL * BH) (ca + cb + 27) :=
    ht2m.add hALBHm
  have ht3rep : Rep (AH * BH - roundQ (A * B) + AH * BL + AL * BH) :=
    mul2_rep ht3m (bot_le_add _ hG1 (by norm_num))
      (le_trans ht3b (two_zpow_mono (le_add_pair (by norm_num))))
  have hfinal : AH * BH - roundQ (A * B) + AH * BL + AL * BH + AL * BL
      = A * B - roundQ (A * B) := by
    rw [← hA, ← hB]
    ring
  exact ⟨⟨mul2_rep hAHBHm (bot_le_add _ hG1 (by norm_num))
        (le_trans hAHBHb (two_zpow_mono (le_add_pair (by norm_num)))),
      hAHBHb⟩,
    ⟨mul2_rep hAHBLm (bot_le_add _ hG1 (by norm_num))
        (le_trans hAHBLb (two_zpow_mono (le_add_pair (by norm_num)))),
      hAHBLb⟩,
    ⟨mul2_rep hALBHm (bot_le_add _ hG1 (by norm_num))
        (le_trans hALBHb (two_zpow_mono (le_add_pair (by norm_num)))),
      hALBHb⟩,
    ⟨mul2_rep hALBLm hG1
        (le_trans hALBLb (two_zpow_mono (add_le_add_left (by norm_num) _))),
      hALBLb⟩,
    ⟨ht1rep, ht1b⟩, ⟨ht2rep, ht2b⟩, ⟨ht3rep, ht3b⟩, hfinal⟩

/-- The error word of the split-based `two_prod` is the canonical float of
the exact product residual `a*b - round(a*b)`, for normal operands away from
the overflow and underflow boundaries. -/
theorem two_prod_lo_data {x y : F64} (hx : WF x) (hy : WF y)
    (hfx : IsFinite x) (hfy : IsFinite y)
    (hx0 : val x ≠ 0) (hy0 : val y ≠ 0)
    (hcx1 : -1074 < cexp (val x)) (hcx2 : cexp (val x) ≤ 941)
    (hcy1 : -1074 < cexp (val y)) (hcy2 : cexp (val y) ≤ 941)
    (hG1 : -1074 ≤ cexp (val x) + cexp (val y))
    (hG2 : cexp (val x) + cexp (val y) ≤ 915) :
    (two_prod x y).lo =
      if val x * val y - roundQ (val x * val y) = 0 then .fin false 0
      else .fin (decide (val x * val y - roundQ (val x * val y) < 0))
             (val x * val y - roundQ (val x * val y)) := by
  obtain ⟨hrx, hmx⟩ := wf_rep hx hfx
  obtain ⟨hry, hmy⟩ := wf_rep hy hfy
  obtain ⟨hAHf, hALf, hAsum, hAHm, hAHb, hALm, hALb⟩ :=
    split_double_val hx hfx hx0 hcx1 hcx2
  obtain ⟨hBHf, hBLf, hBsum, hBHm, hBHb, hBLm, hBLb⟩ :=
    split_double_val hy hfy hy0 hcy1 hcy2
  obtain ⟨hrm, hrb, hrrep⟩ := prod_resid hx0 hy0 hrx hry hcx1 hcy1 hG1
  have hcab := cexp_mul_lb hx0 hy0 hcx1 hcy1 hG1
  have hPm : Mul2 (roundQ (val x * val y)) (cexp (val x) + cexp (val y) + 52) :=
    (roundQ_mul2 _).of_le hcab
  have hABb : |val x * val y| ≤ 2^(cexp (val x) + cexp (val y) + 106) :=
    le_trans
      (abs_mul_le_zpow (le_of_lt (abs_lt_cexp53 _)) (le_of_lt (abs_lt_cexp53 _)))
      (two_zpow_mono (two_off_le (by norm_num)))
  have hPb : |roundQ (val x * val y)| ≤ 2^(cexp (val x) + cexp (val y) + 106) :=
    abs_roundQ_le (bot_le_add _ hG1 (by norm_num)) hABb
  obtain ⟨⟨hAHBHrep, hAHBHb⟩, ⟨hAHBLrep, hAHBLb⟩, ⟨hALBHrep, hALBHb⟩,
      ⟨hALBLrep, hALBLb⟩, ⟨ht1rep, ht1b⟩, ⟨ht2rep, ht2b⟩, ⟨ht3rep, ht3b⟩, hfin_eq⟩ :=
    dekker_chain hAsum hBsum hAHm hAHb hALm hALb hBHm hBHb hBLm hBLb hPm hrb hG1
  have hovP : |roundQ (val x * val y)| ≤ maxFin :=
    le_trans hPb (zpow_le_maxFin (off_le_1023 hG2 (by norm_num)))
  obtain ⟨hPf, hPval⟩ := val_fmul_round hfx hfy hovP
  obtain ⟨hm1f, hm1v⟩ := val_fmul_exact hAHf hBHf hAHBHrep
    (le_trans hAHBHb (zpow_le_maxFin (off_le_1023 hG2 (by norm_num))))
  obtain ⟨hm2f, hm2v⟩ := val_fmul_exact hAHf hBLf hAHBLrep
    (le_trans hAHBLb (zpow_le_maxFin (off_le_1023 hG2 (by norm_num))))
  obtain ⟨hm3f, hm3v⟩ := val_fmul_exact hALf hBHf hALBHrep
    (le_trans hALBHb (zpow_le_maxFin (off_le_1023 hG2 (by norm_num))))
  obtain ⟨hm4f, hm4v⟩ := val_fmul_exact hALf hBLf hALBLrep
    (le_trans hALBLb (zpow_le_maxFin (off_le_1023 hG2 (by norm_num))))
  obtain ⟨ht1f, ht1v⟩ := val_fsub_exact hm1f hPf
    (by rw [hm1v, hPval]; exact ht1rep)
    (by rw [hm1v, hPval]
        exact le_trans ht1b (zpow_le_maxFin (off_le_1023 hG2 (by norm_num))))
  obtain ⟨ht2f, ht2v⟩ := val_fadd_exact ht1f hm2f
    (by rw [ht1v, hm1v, hPval, hm2v]; exact ht2rep)
    (by rw [ht1v, hm1v, hPval, hm2v]
        exact le_trans ht2b (zpow_le_maxFin (off_le_1023 hG2 (by norm_num))))
  obtain ⟨ht3f, ht3v⟩ := val_fadd_exact ht2f hm3f
    (by rw [ht2v, ht1v, hm1v, hPval, hm2v, hm3v]; exact ht3rep)
    (by rw [ht2v, ht1v, hm1v, hPval, hm2v, hm3v]
        exact le_trans ht3b (zpow_le_maxFin (off_le_1023 hG2 (by norm_num))))
  obtain ⟨herrf, herrv⟩ := val_fadd_exact ht3f hm4f
    (by rw [ht3v, ht2v, ht1v, hm1v, hPval, hm2v, hm3v, hm4v, hfin_eq]; exact hrrep)
    (by rw [ht3v, ht2v, ht1v, hm1v, hPval, hm2v, hm3v, hm4v, hfin_eq]
        exact le_trans hrb (zpow_le_maxFin (off_le_1023 hG2 (by norm_num))))
  have herrval : val (fadd (fadd (fadd
        (fsub (fmul (split_double x).1 (split_double y).1) (fmul x y))
        (fmul (split_double x).1 (split_double y).2))
        (fmul (split_double x).2 (split_double y).1))
        (fmul (split_double x).2 (split_double y).2))
      = val x * val y - roundQ (val x * val y) := by
    rw [herrv, ht3v, ht2v, ht1v, hm1v, hm2v, hm3v, hm4v, hPval, hfin_eq]
  have hP0 : roundQ (val x * val y) ≠ 0 :=
    roundQ_ne_zero (((rep_mul2 hrx).mul (rep_mul2 hry)).of_le hG1)
      (mul_ne_zero hx0 hy0)
  have hne_neg : fadd (fadd (fadd
        (fsub (fmul (split_double x).1 (split_double y).1) (fmul x y))
        (fmul (split_double x).1 (split_double y).2))
        (fmul (split_double x).2 (split_double y).1))
        (fmul (split_double x).2 (split_double y).2) ≠ F64.fin true 0 := by
    intro hcon
    rw [fadd_negZero_iff (wf_fadd _ _) (wf_fmul _ _)] at hcon
    obtain ⟨h3c, _⟩ := hcon
    rw [fadd_negZero_iff (wf_fadd _ _) (wf_fmul _ _)] at h3c
    obtain ⟨h2c, _⟩ := h3c
    rw [fadd_negZero_iff (wf_fsub _ _) (wf_fmul _ _)] at h2c
    obtain ⟨h1c, _⟩ := h2c
    have h1c' : fadd (fmul (split_double x).1 (split_double y).1)
        (fneg (fmul x y)) = F64.fin true 0 := h1c
    rw [fadd_negZero_iff (wf_fmul _ _) (wf_fneg (wf_fmul _ _))] at h1c'
    obtain ⟨_, hpneg⟩ := h1c'
    obtain ⟨sp, vp, hpe⟩ := isFinite_data hPf
    rw [hpe] at hpneg
    simp only [fneg] at hpneg
    injection hpneg with hb hv
    rw [hpe] at hPval
    have hvp' : vp = roundQ (val x * val y) := hPval
    apply hP0
    rw [← hvp']
    exact neg_eq_zero.mp hv
  obtain ⟨se, qe, hee⟩ := isFinite_data herrf
  have hq : qe = val x * val y - roundQ (val x * val y) := by
    rw [hee] at herrval
    exact herrval
  have herrwf : WF (fadd (fadd (fadd
        (fsub (fmul (split_double x).1 (split_double y).1) (fmul x y))
        (fmul (split_double x).1 (split_double y).2))
        (fmul (split_double x).2 (split_double y).1))
        (fmul (split_double x).2 (split_double y).2)) := wf_fadd _ _
  rw [hee] at herrwf hne_neg
  have hlo : (two_prod x y).lo = fadd (fadd (fadd
        (fsub (fmul (split_double x).1 (split_double y).1) (fmul x y))
        (fmul (split_double x).1 (split_double y).2))
        (fmul (split_double x).2 (split_double y).1))
        (fmul (split_double x).2 (split_double y).2) := rfl
  rw [hlo, hee]
  split_ifs with hr0
  · have hqe0 : qe = 0 := by rw [hq]; exact hr0
    cases se with
    | false => rw [hqe0]
    | true =>
        exfalso
        apply hne_neg
        rw [hqe0]
  · have hqe : qe ≠ 0 := by rw [hq]; exact hr0
    obtain ⟨_, _, hsig⟩ := herrwf
    rw [← hq, hsig hqe]

/-- The error word of the fma-based `two_prod` is the canonical float of the
exact product residual, for normal operands away from the boundaries. -/
theorem two_prod_fma_lo_data {x y : F64} (hx : WF x) (hy : WF y)
    (hfx : IsFinite x) (hfy : IsFinite y)
    (hx0 : val x ≠ 0) (hy0 : val y ≠ 0)
    (hcx1 : -1074 < cexp (val x)) (hcy1 : -1074 < cexp (val y))
    (hG1 : -1074 ≤ cexp (val x) + cexp (val y))
    (hG2 : cexp (val x) + cexp (val y) ≤ 915) :
    (two_prod_fma x y).lo =
      if val x * val y - roundQ (val x * val y) = 0 then .fin false 0
      else .fin (decide (val x * val y - roundQ (val x * val y) < 0))
             (val x * val y - roundQ (val x * val y)) := by
  obtain ⟨hrx, hmx⟩ := wf_rep hx hfx
  obtain ⟨hry, hmy⟩ := wf_rep hy hfy
  obtain ⟨hrm, hrb, hrrep⟩ := prod_resid hx0 hy0 hrx hry hcx1 hcy1 hG1
  have hABb : |val x * val y| ≤ 2^(cexp (val x) + cexp (val y) + 106) :=
    le_trans
      (abs_mul_le_zpow (le_of_lt (abs_lt_cexp53 _)) (le_of_lt (abs_lt_cexp53 _)))
      (two_zpow_mono (two_off_le (by norm_num)))
  have hovP : |roundQ (val x * val y)| ≤ maxFin :=
    le_trans (abs_roundQ_le (bot_le_add _ hG1 (by norm_num)) hABb)
      (zpow_le_maxFin (off_le_1023 hG2 (by norm_num)))
  obtain ⟨hPf, hPval⟩ := val_fmul_round hfx hfy hovP
  obtain ⟨su, qa, hxe⟩ := isFinite_data hfx
  obtain ⟨sv, qb, hye⟩ := isFinite_data hfy
  obtain ⟨sp, vp, hpe⟩ := isFinite_data hPf
  have hva : val x = qa := by rw [hxe]; rfl
  have hvb : val y = qb := by rw [hye]; rfl
  have hvp : vp = roundQ (qa * qb) := by
    rw [hva, hvb, hpe] at hPval
    exact hPval
  have hqa0 : qa ≠ 0 := by rw [← hva]; exact hx0
  have hqb0 : qb ≠ 0 := by rw [← hvb]; exact hy0
  have hrrep' : Rep (qa * qb - roundQ (qa * qb)) := by
    rw [← hva, ← hvb]
    exact hrrep
  have hrb' : |qa * qb - roundQ (qa * qb)|
      ≤ 2^(cexp (val x) + cexp (val y) + 52) := by
    rw [← hva, ← hvb]
    exact hrb
  have hlo : (two_prod_fma x y).lo = ffma x y (fneg (fmul x y)) := rfl
  rw [hlo, hva, hvb, hpe, hxe, hye]
  simp only [fneg, ffma]
  have hsub : qa * qb + -vp = qa * qb - roundQ (qa * qb) := by
    rw [hvp]
    ring
  rw [hsub]
  by_cases h0 : qa * qb - roundQ (qa * qb) = 0
  · rw [if_pos h0, if_pos h0,
      if_neg (show ¬(qa * qb = 0 ∧ -vp = 0) from
        fun hc => (mul_ne_zero hqa0 hqb0) hc.1)]
  · rw [if_neg h0, if_neg h0,
      roundF_eval (by rw [roundQ_eq_self hrrep']
                      exact le_trans hrb' (zpow_le_maxFin (off_le_1023 hG2 (by norm_num)))),
      roundQ_eq_self hrrep']

/-! ### Claims C2 and C4: the two `two_prod` realizations -/

theorem wf_val_grid {z : F64} (h : WF z) : Mul2 (val z) (-1074) := by
  rcases z with ⟨s, q⟩ | s | _
  · exact rep_mul2_bot h.1
  · exact ⟨0, by simp [val]⟩
  · exact ⟨0, by simp [val]⟩

theorem cexp_one : cexp (1:ℚ) = -52 := by
  have hm : mag (1:ℚ) = 1 := mag_unique (by norm_num) (by norm_num)
  simp only [cexp, hm]
  omega

/-- Claim C2: with both operands normal, nonzero, and away from the overflow
and underflow boundaries, both realizations of `two_prod` return the correctly
rounded product and an error word that reconstructs the product exactly. -/
theorem claim_C2_two_prod {x y : F64} (hx : WF x) (hy : WF y)
    (hfx : IsFinite x) (hfy : IsFinite y)
    (hx0 : val x ≠ 0) (hy0 : val y ≠ 0)
    (hcx1 : -1074 < cexp (val x)) (hcx2 : cexp (val x) ≤ 941)
    (hcy1 : -1074 < cexp (val y)) (hcy2 : cexp (val y) ≤ 941)
    (hG1 : -1074 ≤ cexp (val x) + cexp (val y))
    (hG2 : cexp (val x) + cexp (val y) ≤ 915) :
    (val (two_prod x y).hi = roundQ (val x * val y) ∧
      val (two_prod x y).hi + val (two_prod x y).lo = val x * val y) ∧
    (val (two_prod_fma x y).hi = roundQ (val x * val y) ∧
      val (two_prod_fma x y).hi + val (two_prod_fma x y).lo = val x * val y) := by
  have hABb : |val x * val y| ≤ 2^(cexp (val x) + cexp (val y) + 106) :=
    le_trans
      (abs_mul_le_zpow (le_of_lt (abs_lt_cexp53 _)) (le_of_lt (abs_lt_cexp53 _)))
      (two_zpow_mono (two_off_le (by norm_num)))
  have hovP : |roundQ (val x * val y)| ≤ maxFin :=
    le_trans (abs_roundQ_le (bot_le_add _ hG1 (by norm_num)) hABb)
      (zpow_le_maxFin (off_le_1023 hG2 (by norm_num)))
  obtain ⟨hPf, hPval⟩ := val_fmul_round hfx hfy hovP
  have hlo1 := two_prod_lo_data hx hy hfx hfy hx0 hy0 hcx1 hcx2 hcy1 hcy2 hG1 hG2
  have hlo2 := two_prod_fma_lo_data hx hy hfx hfy hx0 hy0 hcx1 hcy1 hG1 hG2
  have hhi1 : (two_prod x y).hi = fmul x y := rfl
  have hhi2 : (two_prod_fma x y).hi = fmul x y := rfl
  rw [hhi1, hhi2, hlo1, hlo2, hPval]
  refine ⟨⟨rfl, ?_⟩, ⟨rfl, ?_⟩⟩ <;>
  · split_ifs with h
    · show roundQ (val x * val y) + 0 = val x * val y
      rw [add_zero]
      exact (sub_eq_zero.mp h).symm
    · show roundQ (val x * val y)
          + (val x * val y - roundQ (val x * val y)) = val x * val y
      ring

/-- Claim C2 counterexample: at `a = b = 2^-538` the product `2^-1076`
underflows (no overflow anywhere), and neither realization reconstructs it:
every float is a multiple of `2^-1074` while `a*b` is not. -/
theorem claim_C2_counterexample :
    val (two_prod (F64.fin false ((2:ℚ)^(-538:ℤ)))
          (F64.fin false ((2:ℚ)^(-538:ℤ)))).hi
        + val (two_prod (F64.fin false ((2:ℚ)^(-538:ℤ)))
          (F64.fin false ((2:ℚ)^(-538:ℤ)))).lo
      ≠ val (F64.fin false ((2:ℚ)^(-538:ℤ)))
          * val (F64.fin false ((2:ℚ)^(-538:ℤ))) ∧
    val (two_prod_fma (F64.fin false ((2:ℚ)^(-538:ℤ)))
          (F64.fin false ((2:ℚ)^(-538:ℤ)))).hi
        + val (two_prod_fma (F64.fin false ((2:ℚ)^(-538:ℤ)))
          (F64.fin false ((2:ℚ)^(-538:ℤ)))).lo
      ≠ val (F64.fin false ((2:ℚ)^(-538:ℤ)))
          * val (F64.fin false ((2:ℚ)^(-538:ℤ))) := by
  have key : ∀ u v : F64, WF u → WF v →
      val u + val v ≠ val (F64.fin false ((2:ℚ)^(-538:ℤ)))
        * val (F64.fin false ((2:ℚ)^(-538:ℤ))) := by
    intro u v hu hv hcon
    have hm := (wf_val_grid hu).add (wf_val_grid hv)
    rw [hcon] at hm
    obtain ⟨k, hk⟩ := hm
    have h2 : val (F64.fin false ((2:ℚ)^(-538:ℤ)))
        * val (F64.fin false ((2:ℚ)^(-538:ℤ))) = (1/4) * 2^(-1074:ℤ) := by
      show (2:ℚ)^(-538:ℤ) * 2^(-538:ℤ) = (1/4) * 2^(-1074:ℤ)
      rw [← two_zpow_add, show (-538:ℤ) + -538 = (-2) + -1074 by norm_num,
        two_zpow_add]
      norm_num
    rw [h2] at hk
    have hkq : (k:ℚ) = 1/4 :=
      (mul_right_cancel₀ (ne_of_gt (two_zpow_pos _)) hk).symm
    have h4 : (4:ℤ) * k = 1 := by
      have h5 : (4:ℚ) * (k:ℚ) = 1 := by
        rw [hkq]
        norm_num
      exact_mod_cast h5
    omega
  have ehi1 : (two_prod (F64.fin false ((2:ℚ)^(-538:ℤ)))
      (F64.fin false ((2:ℚ)^(-538:ℤ)))).hi
      = fmul (F64.fin false ((2:ℚ)^(-538:ℤ))) (F64.fin false ((2:ℚ)^(-538:ℤ))) := rfl
  have elo1 : (two_prod (F64.fin false ((2:ℚ)^(-538:ℤ)))
      (F64.fin false ((2:ℚ)^(-538:ℤ)))).lo
      = fadd (fadd (fadd
          (fsub (fmul (split_double (F64.fin false ((2:ℚ)^(-538:ℤ)))).1
                      (split_double (F64.fin false ((2:ℚ)^(-538:ℤ)))).1)
                (fmul (F64.fin false ((2:ℚ)^(-538:ℤ)))
                      (F64.fin false ((2:ℚ)^(-538:ℤ)))))
          (fmul (split_double (F64.fin false ((2:ℚ)^(-538:ℤ)))).1
                (split_double (F64.fin false ((2:ℚ)^(-538:ℤ)))).2))
          (fmul (split_double (F64.fin false ((2:ℚ)^(-538:ℤ)))).2
                (split_double (F64.fin false ((2:ℚ)^(-538:ℤ)))).1))
          (fmul (split_double (F64.fin false ((2:ℚ)^(-538:ℤ)))).2
                (split_double (F64.fin false ((2:ℚ)^(-538:ℤ)))).2) := rfl
  have ehi2 : (two_prod_fma (F64.fin false ((2:ℚ)^(-538:ℤ)))
      (F64.fin false ((2:ℚ)^(-538:ℤ)))).hi
      = fmul (F64.fin false ((2:ℚ)^(-538:ℤ))) (F64.fin false ((2:ℚ)^(-538:ℤ))) := rfl
  have elo2 : (two_prod_fma (F64.fin false ((2:ℚ)^(-538:ℤ)))
      (F64.fin false ((2:ℚ)^(-538:ℤ)))).lo
      = ffma (F64.fin false ((2:ℚ)^(-538:ℤ))) (F64.fin false ((2:ℚ)^(-538:ℤ)))
          (fneg (fmul (F64.fin false ((2:ℚ)^(-538:ℤ)))
            (F64.fin false ((2:ℚ)^(-538:ℤ))))) := rfl
  rw [ehi1, elo1, ehi2, elo2]
  exact ⟨key _ _ (wf_fmul _ _) (wf_fadd _ _), key _ _ (wf_fmul _ _) (wf_ffma _ _ _)⟩

/-- Claim C2 witness instance at `a = b = 1.0`. -/
theorem claim_C2_witness :
    val (two_prod (F64.fin false 1) (F64.fin false 1)).hi
        + val (two_prod (F64.fin false 1) (F64.fin false 1)).lo
      = val (F64.fin false (1:ℚ)) * val (F64.fin false (1:ℚ)) ∧
    val (two_prod_fma (F64.fin false 1) (F64.fin false 1)).hi
        + val (two_prod_fma (F64.fin false 1) (F64.fin false 1)).lo
      = val (F64.fin false (1:ℚ)) * val (F64.fin false (1:ℚ)) := by
  have hc : cexp (val (F64.fin false (1:ℚ))) = -52 := cexp_one
  have hwf : WF (F64.fin false (1:ℚ)) := ⟨rep_one, abs_one_le, by intro h; norm_num⟩
  have h := claim_C2_two_prod hwf hwf trivial trivial one_ne_zero one_ne_zero
    (by rw [hc]; norm_num) (by rw [hc]; norm_num) (by rw [hc]; norm_num)
    (by rw [hc]; norm_num) (by rw [hc]; norm_num) (by rw [hc]; norm_num)
  exact ⟨h.1.2, h.2.2⟩

/-- Claim C4: in the same no-overflow, no-underflow regime the two `two_prod`
realizations agree bit for bit. -/
theorem claim_C4_equiv {x y : F64} (hx : WF x) (hy : WF y)
    (hfx : IsFinite x) (hfy : IsFinite y)
    (hx0 : val x ≠ 0) (hy0 : val y ≠ 0)
    (hcx1 : -1074 < cexp (val x)) (hcx2 : cexp (val x) ≤ 941)
    (hcy1 : -1074 < cexp (val y)) (hcy2 : cexp (val y) ≤ 941)
    (hG1 : -1074 ≤ cexp (val x) + cexp (val y))
    (hG2 : cexp (val x) + cexp (val y) ≤ 915) :
    two_prod x y = two_prod_fma x y := by
  have h1 := two_prod_lo_data hx hy hfx hfy hx0 hy0 hcx1 hcx2 hcy1 hcy2 hG1 hG2
  have h2 := two_prod_fma_lo_data hx hy hfx hfy hx0 hy0 hcx1 hcy1 hG1 hG2
  have e1 : two_prod x y = ⟨fmul x y, (two_prod x y).lo⟩ := rfl
  have e2 : two_prod_fma x y = ⟨fmul x y, (two_prod_fma x y).lo⟩ := rfl
  rw [e1, e2, h1, h2]

/-- Claim C4 witness instance at `a = b = 1.0`. -/
theorem claim_C4_witness :
    two_prod (F64.fin false 1) (F64.fin false 1)
      = two_prod_fma (F64.fin false 1) (F64.fin false 1) := by
  have hc : cexp (val (F64.fin false (1:ℚ))) = -52 := cexp_one
  have hwf : WF (F64.fin false (1:ℚ)) := ⟨rep_one, abs_one_le, by intro h; norm_num⟩
  exact claim_C4_equiv hwf hwf trivial trivial one_ne_zero one_ne_zero
    (by rw [hc]; norm_num) (by rw [hc]; norm_num) (by rw [hc]; norm_num)
    (by rw [hc]; norm_num) (by rw [hc]; norm_num) (by rw [hc]; norm_num)

/-! ### Concrete evaluation of the two realizations at `(2^-538, -2^-538)` -/

theorem fmul_zeroL (s t : Bool) (q : ℚ) : fmul (.fin s 0) (.fin t q) = .fin (xor s t) 0 := by
  simp [fmul]

theorem fmul_zeroR (s t : Bool) (p : ℚ) : fmul (.fin s p) (.fin t 0) = .fin (xor s t) 0 := by
  simp [fmul]

theorem fsub_zero_zero (s t : Bool) : fsub (.fin s 0) (.fin t 0) = .fin (s && !t) 0 := by
  show fadd (.fin s 0) (.fin (!t) (-0)) = _
  rw [neg_zero, fadd_zero_sign]

theorem tiny_prod : (2:ℚ)^(-538:ℤ) * 2^(-538:ℤ) = 2^(-1076:ℤ) := by
  rw [← two_zpow_add]
  norm_num

theorem roundQ_tiny : roundQ ((2:ℚ)^(-1076:ℤ)) = 0 := by
  have hd : (2:ℚ)^(-1076:ℤ) / 2^(-1074:ℤ) = 1/4 := by
    rw [show (-1076:ℤ) = (-2) + (-1074) by norm_num, two_zpow_add,
      mul_div_cancel_right₀ _ (ne_of_gt (two_zpow_pos _))]
    norm_num
  have h := roundQ_eval_sub (q := (2:ℚ)^(-1076:ℤ)) 0
    (by rw [abs_of_pos (two_zpow_pos _)]; exact two_zpow_lt (by norm_num))
    (by rw [hd, abs_lt]; constructor <;> norm_num)
  simpa using h

theorem roundQ_tiny_neg : roundQ (-((2:ℚ)^(-1076:ℤ))) = 0 := by
  rw [roundQ_neg, roundQ_tiny, neg_zero]

theorem tiny_bound {c : ℚ} (h1 : 0 ≤ c) (h2 : c ≤ 268435456) :
    |c * 2^(-538:ℤ)| ≤ maxFin := by
  rw [abs_mul, abs_of_nonneg h1, abs_of_pos (two_zpow_pos _)]
  calc c * 2^(-538:ℤ) ≤ 268435456 * 2^(-538:ℤ) :=
        mul_le_mul_of_nonneg_right h2 (le_of_lt (two_zpow_pos _))
  _ = 2^(28:ℤ) * 2^(-538:ℤ) := by norm_num
  _ = 2^(-510:ℤ) := by rw [← two_zpow_add]; norm_num
  _ ≤ maxFin := zpow_le_maxFin (by norm_num)

theorem rep_Ctiny : Rep ((134217729:ℚ) * 2^(-538:ℤ)) :=
  ⟨134217729, -538, by norm_num, by norm_num, by push_cast; ring⟩

theorem rep_C2tiny : Rep ((134217728:ℚ) * 2^(-538:ℤ)) :=
  ⟨134217728, -538, by norm_num, by norm_num, by push_cast; ring⟩

theorem eval_p_neg :
    fmul (F64.fin false ((2:ℚ)^(-538:ℤ))) (F64.fin true (-((2:ℚ)^(-538:ℤ))))
      = F64.fin true 0 := by
  have hz := two_zpow_pos (-538:ℤ)
  have hneg : (2:ℚ)^(-538:ℤ) * -(2^(-538:ℤ)) < 0 := by
    rw [mul_neg]
    exact neg_lt_zero.mpr (mul_pos hz hz)
  have hr : roundQ ((2:ℚ)^(-538:ℤ) * -(2^(-538:ℤ))) = 0 := by
    rw [show (2:ℚ)^(-538:ℤ) * -(2^(-538:ℤ)) = -(2^(-538:ℤ) * 2^(-538:ℤ)) by ring,
      tiny_prod, roundQ_tiny_neg]
  exact fmul_eval_neg hneg hr (by rw [abs_zero]; exact le_of_lt maxFin_pos)

theorem eval_split_pos :
    split_double (F64.fin false ((2:ℚ)^(-538:ℤ)))
      = (F64.fin false ((2:ℚ)^(-538:ℤ)), F64.fin false 0) := by
  have hz := two_zpow_pos (-538:ℤ)
  have htemp : fmul SPLIT_CONST (F64.fin false ((2:ℚ)^(-538:ℤ)))
      = F64.fin false ((134217729:ℚ) * 2^(-538:ℤ)) :=
    fmul_eval_pos (by positivity) (roundQ_eq_self rep_Ctiny)
      (tiny_bound (by norm_num) (by norm_num))
  have ht2 : fsub (F64.fin false ((134217729:ℚ) * 2^(-538:ℤ)))
      (F64.fin false ((2:ℚ)^(-538:ℤ)))
      = F64.fin false ((134217728:ℚ) * 2^(-538:ℤ)) :=
    fsub_eval_pos
      (by rw [show (134217729:ℚ) * 2^(-538:ℤ) - 2^(-538:ℤ)
                = 134217728 * 2^(-538:ℤ) by ring]
          exact mul_pos (by norm_num) hz)
      (by rw [show (134217729:ℚ) * 2^(-538:ℤ) - 2^(-538:ℤ)
                = 134217728 * 2^(-538:ℤ) by ring]
          exact roundQ_eq_self rep_C2tiny)
      (tiny_bound (by norm_num) (by norm_num))
  have hhi2 : fsub (F64.fin false ((134217729:ℚ) * 2^(-538:ℤ)))
      (F64.fin false ((134217728:ℚ) * 2^(-538:ℤ)))
      = F64.fin false ((2:ℚ)^(-538:ℤ)) :=
    fsub_eval_pos
      (by rw [show (134217729:ℚ) * 2^(-538:ℤ) - 134217728 * 2^(-538:ℤ)
                = 2^(-538:ℤ) by ring]
          exact hz)
      (by rw [show (134217729:ℚ) * 2^(-538:ℤ) - 134217728 * 2^(-538:ℤ)
                = 2^(-538:ℤ) by ring]
          exact roundQ_eq_self (rep_two_zpow (by norm_num)))
      (by rw [abs_of_pos hz]; exact zpow_le_maxFin (by norm_num))
  have hlo2 : fsub (F64.fin false ((2:ℚ)^(-538:ℤ)))
      (F64.fin false ((2:ℚ)^(-538:ℤ))) = F64.fin false 0 := by
    rw [fsub_data (fun hc => absurd hc.1 (ne_of_gt hz))
      (by rw [sub_self, roundQ_zero, abs_zero]; exact le_of_lt maxFin_pos),
      if_pos (sub_self _)]
  rw [split_double_def, htemp, ht2, hhi2, hlo2]

theorem eval_split_neg :
    split_double (F64.fin true (-((2:ℚ)^(-538:ℤ))))
      = (F64.fin true (-((2:ℚ)^(-538:ℤ))), F64.fin false 0) := by
  have hz := two_zpow_pos (-538:ℤ)
  have htemp : fmul SPLIT_CONST (F64.fin true (-((2:ℚ)^(-538:ℤ))))
      = F64.fin true (-((134217729:ℚ) * 2^(-538:ℤ))) :=
    fmul_eval_neg (by rw [mul_neg]; exact neg_lt_zero.mpr (mul_pos (by norm_num) hz))
      (by rw [show (134217729:ℚ) * -(2^(-538:ℤ))
                = -(134217729 * 2^(-538:ℤ)) by ring,
            roundQ_neg, roundQ_eq_self rep_Ctiny])
      (by rw [abs_neg]; exact tiny_bound (by norm_num) (by norm_num))
  have ht2 : fsub (F64.fin true (-((134217729:ℚ) * 2^(-538:ℤ))))
      (F64.fin true (-((2:ℚ)^(-538:ℤ))))
      = F64.fin true (-((134217728:ℚ) * 2^(-538:ℤ))) :=
    fsub_eval_neg
      (by rw [show -((134217729:ℚ) * 2^(-538:ℤ)) - -(2^(-538:ℤ))
                = -(134217728 * 2^(-538:ℤ)) by ring]
          exact neg_lt_zero.mpr (mul_pos (by norm_num) hz))
      (by rw [show -((134217729:ℚ) * 2^(-538:ℤ)) - -(2^(-538:ℤ))
                = -(134217728 * 2^(-538:ℤ)) by ring,
            roundQ_neg, roundQ_eq_self rep_C2tiny])
      (by rw [abs_neg]; exact tiny_bound (by norm_num) (by norm_num))
  have hhi2 : fsub (F64.fin true (-((134217729:ℚ) * 2^(-538:ℤ))))
      (F64.fin true (-((134217728:ℚ) * 2^(-538:ℤ))))
      = F64.fin true (-((2:ℚ)^(-538:ℤ))) :=
    fsub_eval_neg
      (by rw [show -((134217729:ℚ) * 2^(-538:ℤ)) - -(134217728 * 2^(-538:ℤ))
                = -(2^(-538:ℤ)) by ring]
          exact neg_lt_zero.mpr hz)
      (by rw [show -((134217729:ℚ) * 2^(-538:ℤ)) - -(134217728 * 2^(-538:ℤ))
                = -(2^(-538:ℤ)) by ring,
            roundQ_neg, roundQ_eq_self (rep_two_zpow (by norm_num))])
      (by rw [abs_neg, abs_of_pos hz]; exact zpow_le_maxFin (by norm_num))
  have hlo2 : fsub (F64.fin true (-((2:ℚ)^(-538:ℤ))))
      (F64.fin true (-((2:ℚ)^(-538:ℤ)))) = F64.fin false 0 := by
    rw [fsub_data (fun hc => absurd hc.1 (neg_ne_zero.mpr (ne_of_gt hz)))
      (by rw [sub_self, roundQ_zero, abs_zero]; exact le_of_lt maxFin_pos),
      if_pos (sub_self _)]
  rw [split_double_def, htemp, ht2, hhi2, hlo2]

theorem eval_two_prod_opp :
    two_prod (F64.fin false ((2:ℚ)^(-538:ℤ))) (F64.fin true (-((2:ℚ)^(-538:ℤ))))
      = ⟨F64.fin true 0, F64.fin false 0⟩ := by
  have h1 : (split_double (F64.fin false ((2:ℚ)^(-538:ℤ)))).1
      = F64.fin false ((2:ℚ)^(-538:ℤ)) := by rw [eval_split_pos]
  have h2 : (split_double (F64.fin false ((2:ℚ)^(-538:ℤ)))).2
      = F64.fin false 0 := by rw [eval_split_pos]
  have h3 : (split_double (F64.fin true (-((2:ℚ)^(-538:ℤ))))).1
      = F64.fin true (-((2:ℚ)^(-538:ℤ))) := by rw [eval_split_neg]
  have h4 : (split_double (F64.fin true (-((2:ℚ)^(-538:ℤ))))).2
      = F64.fin false 0 := by rw [eval_split_neg]
  have z1 : fsub (F64.fin true 0) (F64.fin true 0) = F64.fin false 0 := by
    rw [fsub_zero_zero]
    rfl
  have z2 : fadd (F64.fin false 0) (F64.fin false 0) = F64.fin false 0 := by
    rw [fadd_zero_sign]
    rfl
  have z3 : fadd (F64.fin false 0) (F64.fin true 0) = F64.fin false 0 := by
    rw [fadd_zero_sign]
    rfl
  rw [two_prod_def, h1, h2, h3, h4, eval_p_neg, fmul_zeroR, fmul_zeroL, fmul_zeroL,
    z1]
  show (⟨F64.fin true 0,
    fadd (fadd (fadd (F64.fin false 0) (F64.fin false 0)) (F64.fin true 0))
      (F64.fin false 0)⟩ : dd_real) = _
  rw [z2, z3, z2]

theorem eval_two_prod_fma_opp :
    two_prod_fma (F64.fin false ((2:ℚ)^(-538:ℤ)))
        (F64.fin true (-((2:ℚ)^(-538:ℤ))))
      = ⟨F64.fin true 0, F64.fin true 0⟩ := by
  rw [two_prod_fma_def, eval_p_neg]
  have hfneg : fneg (F64.fin true 0) = F64.fin false 0 := by
    show F64.fin false (-0) = F64.fin false 0
    rw [neg_zero]
  rw [hfneg]
  have hval : ffma (F64.fin false ((2:ℚ)^(-538:ℤ)))
      (F64.fin true (-((2:ℚ)^(-538:ℤ)))) (F64.fin false 0) = F64.fin true 0 := by
    simp only [ffma]
    have hc : (2:ℚ)^(-538:ℤ) * -(2^(-538:ℤ)) + 0 = -(2^(-1076:ℤ)) := by
      rw [← tiny_prod]
      ring
    rw [hc, if_neg (neg_ne_zero.mpr (ne_of_gt (two_zpow_pos _)))]
    unfold roundF
    rw [roundQ_tiny_neg,
      if_neg (by rw [abs_zero]; exact not_lt.mpr (le_of_lt maxFin_pos)),
      decide_eq_true (neg_lt_zero.mpr (two_zpow_pos (-1076:ℤ)))]
  rw [hval]

/-- Claim C4 counterexample: at `a = 2^-538`, `b = -2^-538` (product
underflows; the fused multiply-add is exact) the two realizations differ bit
for bit: the split-based error word is `+0.0`, the fma-based one is `-0.0`. -/
theorem claim_C4_counterexample :
    two_prod (F64.fin false ((2:ℚ)^(-538:ℤ))) (F64.fin true (-((2:ℚ)^(-538:ℤ))))
      ≠ two_prod_fma (F64.fin false ((2:ℚ)^(-538:ℤ)))
          (F64.fin true (-((2:ℚ)^(-538:ℤ)))) := by
  rw [eval_two_prod_opp, eval_two_prod_fma_opp]
  intro hcon
  have h := congrArg dd_real.lo hcon
  simp only at h
  injection h with hb hv
  exact Bool.noConfusion hb

/-! ### Claim C3: the normalization invariant of the operators -/

end DD
